import Mathlib

/-!
Shallow embedding of the `kdtree_index` flat k-d tree
(`src/include/kdtree_index.hpp`, `src/include/details/bitwise.hpp`).

The container stores values and per-slot states in two parallel arrays;
the tree structure is implicit: the root of a region of `span` slots sits
at index `span / 2`, and a node at index `i` whose subtree offset is `o`
has children at `i - o` and `i + o` (offset halving at each level).

Machine memory is modelled by total functions `Nat → V` / `Nat → St`
(slots outside the live region hold arbitrary "garbage" values, exactly
like uninitialized C++ storage).  The user-supplied `axis_less` comparator
of the Index capability is a parameter `less : Nat → V → V → Bool`, and
the compile-time dimension count is a parameter `K`.
-/

namespace KdIndex

/-- Per-slot state (`enum class State`): Invalid, Heads, Tails, Unsure. -/
inductive St where
  | Invalid : St
  | Heads : St
  | Tails : St
  | Unsure : St
deriving DecidableEq, Repr

/-- `operator~` on `State`: XOR with 0x3, swapping Heads/Tails and
Invalid/Unsure. -/
def stNot : St → St
  | St.Invalid => St.Unsure
  | St.Heads => St.Tails
  | St.Tails => St.Heads
  | St.Unsure => St.Invalid

/-- `operator+` on `State`: keep the value when both agree, else Unsure. -/
def stAdd (a b : St) : St := if a = b then a else St.Unsure

/-- `inc<K>(d) = (d + 1) % K`, the dimension cycling helper. -/
def incd (K d : Nat) : Nat := (d + 1) % K

/-- One `u |= u >> m` step of the shift-or cascade. -/
def orshift (a m : Nat) : Nat := a ||| (a >>> m)

/-- `details::bitwise<U,8>::ftz`: the shift-or cascade filling all bits
after the leading one (64-bit width, as used for `std::size_t`). -/
def ftz (u : Nat) : Nat :=
  orshift (orshift (orshift (orshift (orshift (orshift u 1) 2) 4) 8) 16) 32

/-- `root_offset(d) = (d + 1) / 4`. -/
def rootOffset (d : Nat) : Nat := (d + 1) / 4

/-- Pointwise update of a memory function (one slot write). -/
def updf {α : Type u} (f : Nat → α) (i : Nat) (a : α) : Nat → α :=
  fun j => if j = i then a else f j

/-- The deferred-placement strategies of `_single_insert`:
`user x` covers `_deferred_copy` / `_deferred_move` (the pending value is
held outside the buffer), `buf i` covers `_deferred_memcpy` (the pending
value lives at slot `i` of the value array and is re-read on use). -/
inductive Pend (V : Type u) where
  | user : V → Pend V
  | buf : Nat → Pend V

/-- `cref()` of a deferred op: the pending value, read from the current
value array for the `memcpy` flavour. -/
def Pend.cref (v : Nat → V) : Pend V → V
  | Pend.user x => x
  | Pend.buf i => v i

/-- `place_at(dst)` of a deferred op. -/
def Pend.placeAt (v : Nat → V) (p : Pend V) (dst : Nat) : Nat → V :=
  updf v dst (p.cref v)

variable {V : Type u}

/-- `minimum(fixed_dim, node_dim, node_offset, node, index)` with the
accumulator `best` made explicit: the source initialises `best = node`
and then loops down the right spine, recursing into left subtrees; the
loop-carried `best` is the extra argument here.  Slot indices stand for
the iterators of the source. -/
def minFrom (K : Nat) (less : Nat → V → V → Bool) (v : Nat → V) (s : Nat → St)
    (fd : Nat) (nd : Nat) (off : Nat) (node best : Nat) : Nat :=
  match off with
  | 0 => best
  | 1 =>
    let c1 := node - 1
    let b1 := if s c1 ≠ St.Invalid ∧ less fd (v best) (v c1) = false then c1 else best
    let c2 := node + 1
    if s c2 ≠ St.Invalid ∧ less fd (v b1) (v c2) = false then c2 else b1
  | o + 2 =>
    let cd := incd K nd
    let coff := (o + 2) / 2
    let c1 := minFrom K less v s fd cd coff (node - (o + 2)) (node - (o + 2))
    let b1 := if less fd (v best) (v c1) then best else c1
    if nd = fd then b1
    else
      let c2 := node + (o + 2)
      let b2 := if less fd (v b1) (v c2) then b1 else c2
      minFrom K less v s fd cd coff c2 b2
termination_by off
decreasing_by all_goals omega

/-- `maximum(fixed_dim, node_dim, node_offset, node, index)`, symmetric
to `minFrom`: recurses into right subtrees and loops down the left
spine. -/
def maxFrom (K : Nat) (less : Nat → V → V → Bool) (v : Nat → V) (s : Nat → St)
    (fd : Nat) (nd : Nat) (off : Nat) (node best : Nat) : Nat :=
  match off with
  | 0 => best
  | 1 =>
    let c1 := node - 1
    let b1 := if s c1 ≠ St.Invalid ∧ less fd (v c1) (v best) = false then c1 else best
    let c2 := node + 1
    if s c2 ≠ St.Invalid ∧ less fd (v c2) (v b1) = false then c2 else b1
  | o + 2 =>
    let cd := incd K nd
    let coff := (o + 2) / 2
    let c1 := maxFrom K less v s fd cd coff (node + (o + 2)) (node + (o + 2))
    let b1 := if less fd (v c1) (v best) then best else c1
    if nd = fd then b1
    else
      let c2 := node - (o + 2)
      let b2 := if less fd (v c2) (v b1) then b1 else c2
      maxFrom K less v s fd cd coff c2 b2
termination_by off
decreasing_by all_goals omega

/-- `_erase_when_full(node_dim, node_offset, node, erased)`: removes the
value at slot `tgt` from a subtree that is currently full, pulling
minima of right subtrees up along the way.  The raw-pointer comparison
`node->value_ptr() < erased->value_ptr()` of the source becomes the index
comparison `node < tgt`. -/
def eraseWhenFull (K : Nat) (less : Nat → V → V → Bool)
    (nd : Nat) (off : Nat) (node tgt : Nat)
    (v : Nat → V) (s : Nat → St) : (Nat → V) × (Nat → St) :=
  match off with
  | 0 => (v, updf s node St.Invalid)
  | 1 =>
    let rn := node + 1
    let p :=
      if node = tgt then (updf v node (v rn), updf s rn St.Invalid)
      else (v, updf s tgt St.Invalid)
    (p.1, updf p.2 node St.Unsure)
  | o + 2 =>
    let off := o + 2
    let cd := incd K nd
    let coff := off / 2
    let ln := node - off
    let rn := node + off
    let p :=
      if node = tgt then
        let tmp := minFrom K less v s nd cd coff rn rn
        let v1 := updf v tgt (v tmp)
        eraseWhenFull K less cd coff rn tmp v1 s
      else if node < tgt then eraseWhenFull K less cd coff rn tgt v s
      else eraseWhenFull K less cd coff ln tgt v s
    (p.1, updf p.2 node St.Unsure)
termination_by off
decreasing_by all_goals omega

/-- `_single_insert(node_dim, offset, node, defer)`: place the pending
value into the subtree rooted at `node`, rotating values through the
sibling subtree (via `maximum` / `minimum` and `_erase_when_full`) when
the target side is already marked full.  Returns the updated value and
state arrays together with the slot where the pending value ended up. -/
def singleInsert (K : Nat) (less : Nat → V → V → Bool) (fullSt : St)
    (nd : Nat) (off : Nat) (node : Nat) (pend : Pend V)
    (v : Nat → V) (s : Nat → St) : ((Nat → V) × (Nat → St)) × Nat :=
  match off with
  | 0 =>
    ((Pend.placeAt v pend node, updf s node fullSt), node)
  | 1 =>
    let ln := node - 1
    let rn := node + 1
    if less nd (Pend.cref v pend) (v node) then
      if s ln ≠ St.Invalid then
        let v1 := updf v rn (v node)
        let s1 := updf (updf s rn fullSt) node fullSt
        if less nd (Pend.cref v1 pend) (v1 ln) then
          let v2 := updf v1 node (v1 ln)
          ((Pend.placeAt v2 pend ln, s1), ln)
        else
          ((Pend.placeAt v1 pend node, s1), node)
      else
        let v1 := Pend.placeAt v pend ln
        let s1 := updf s ln fullSt
        let s2 := if s1 rn ≠ St.Invalid then updf s1 node fullSt else s1
        ((v1, s2), ln)
    else
      if s rn ≠ St.Invalid then
        let v1 := updf v ln (v node)
        let s1 := updf (updf s ln fullSt) node fullSt
        if less nd (v1 rn) (Pend.cref v1 pend) then
          let v2 := updf v1 node (v1 rn)
          ((Pend.placeAt v2 pend rn, s1), rn)
        else
          ((Pend.placeAt v1 pend node, s1), node)
      else
        let v1 := Pend.placeAt v pend rn
        let s1 := updf s rn fullSt
        let s2 := if s1 ln ≠ St.Invalid then updf s1 node fullSt else s1
        ((v1, s2), rn)
  | o + 2 =>
    let off := o + 2
    let cd := incd K nd
    let coff := off / 2
    let ln := node - off
    let rn := node + off
    if less nd (Pend.cref v pend) (v node) then
      if s ln = fullSt then
        let r1 := singleInsert K less fullSt cd coff rn (Pend.buf node) v s
        let v1 := r1.1.1
        let s1 := r1.1.2
        let tmp := maxFrom K less v1 s1 nd cd coff ln ln
        if less nd (Pend.cref v1 pend) (v1 tmp) then
          let v2 := updf v1 node (v1 tmp)
          let p := eraseWhenFull K less cd coff ln tmp v2 s1
          let r2 := singleInsert K less fullSt cd coff ln pend p.1 p.2
          ((r2.1.1, updf r2.1.2 node (stAdd (r2.1.2 ln) (r2.1.2 rn))), r2.2)
        else
          ((Pend.placeAt v1 pend node,
            updf s1 node (stAdd (s1 ln) (s1 rn))), node)
      else
        let r1 := singleInsert K less fullSt cd coff ln pend v s
        ((r1.1.1, updf r1.1.2 node (stAdd (r1.1.2 ln) (r1.1.2 rn))), r1.2)
    else if less nd (v node) (Pend.cref v pend) then
      if s rn = fullSt then
        let r1 := singleInsert K less fullSt cd coff ln (Pend.buf node) v s
        let v1 := r1.1.1
        let s1 := r1.1.2
        let tmp := minFrom K less v1 s1 nd cd coff rn rn
        if less nd (v1 tmp) (Pend.cref v1 pend) then
          let v2 := updf v1 node (v1 tmp)
          let p := eraseWhenFull K less cd coff rn tmp v2 s1
          let r2 := singleInsert K less fullSt cd coff rn pend p.1 p.2
          ((r2.1.1, updf r2.1.2 node (stAdd (r2.1.2 ln) (r2.1.2 rn))), r2.2)
        else
          ((Pend.placeAt v1 pend node,
            updf s1 node (stAdd (s1 ln) (s1 rn))), node)
      else
        let r1 := singleInsert K less fullSt cd coff rn pend v s
        ((r1.1.1, updf r1.1.2 node (stAdd (r1.1.2 ln) (r1.1.2 rn))), r1.2)
    else
      let r1 :=
        if s ln = fullSt then singleInsert K less fullSt cd coff rn pend v s
        else singleInsert K less fullSt cd coff ln pend v s
      ((r1.1.1, updf r1.1.2 node (stAdd (r1.1.2 ln) (r1.1.2 rn))), r1.2)
termination_by off
decreasing_by all_goals omega

/-- The whole-value equality test inside `_find`: scan every dimension
except the split dimension `nd` (already known equal) for a strict
difference in either direction. -/
def axEqChk (K : Nat) (less : Nat → V → V → Bool) (nd : Nat) (a b : V) : Bool :=
  (List.range K).all fun i => i == nd || (!(less i a b) && !(less i b a))

/-- `_find(node_dim, node_offset, node, val)`: equality search descending
the implicit tree; ties on the split dimension probe the left subtree
first and then continue into the right one.  `none` stands for the
`_impl._finish` (end) iterator. -/
def findAux (K : Nat) (less : Nat → V → V → Bool)
    (nd : Nat) (off : Nat) (node : Nat) (w : V)
    (v : Nat → V) (s : Nat → St) : Option Nat :=
  if s node = St.Invalid then none
  else
    let lo := less nd w (v node)
    let ro := less nd (v node) w
    if !lo && !ro && axEqChk K less nd (v node) w then some node
    else if _h : off ≠ 0 then
      let probe :=
        if !ro then findAux K less (incd K nd) (off / 2) (node - off) w v s
        else none
      match probe with
      | some r => some r
      | none =>
        if lo then none
        else findAux K less (incd K nd) (off / 2) (node + off) w v s
    else none
termination_by off
decreasing_by all_goals omega

/-- The container (`class kdtree`).  `span` is `_finish - _start`, the
length of the live region; `vals`/`sts` are the two parallel arrays
(modelled as total functions over slot indices); `capacity`, `count` and
`full_state` are the remaining members. -/
structure kdtree (V : Type u) where
  vals : Nat → V
  sts : Nat → St
  span : Nat
  capacity : Nat
  count : Nat
  full_state : St

/-- `_alloc_storage(n)`: no-op for `n = 0`, otherwise rounds `n` up with
`ftz` and installs that capacity (the fresh arrays hold arbitrary
contents, which the memory-function model already provides). -/
def allocStorage (n : Nat) (t : kdtree V) : kdtree V :=
  if n = 0 then t else { t with capacity := ftz n }

/-- `_expand(vp, cp)`: the right-to-left interleaving walk.  `slow` runs
over the old live region while `last` runs over the new one; each step
copies one old slot to an odd position and invalidates the even position
below it. -/
def expandLoop (v : Nat → V) (s : Nat → St) (slow last : Nat) :
    (Nat → V) × (Nat → St) :=
  match last with
  | 0 => (v, s)
  | l + 1 =>
    let s1 := updf s l (s (slow - 1))
    let v1 := updf v l (v (slow - 1))
    let s2 := updf s1 (l - 1) St.Invalid
    expandLoop v1 s2 (slow - 1) (l - 1)
termination_by last
decreasing_by omega

/-- `_expand` at the container level: invalidate the topmost new slot,
run the interleaving walk, and extend the live region to `2·span + 1`. -/
def expandT (t : kdtree V) : kdtree V :=
  let off := t.span * 2
  let s0 := updf t.sts off St.Invalid
  let p := expandLoop t.vals s0 t.span off
  { t with vals := p.1, sts := p.2, span := off + 1 }

/-- `_prepare_insert()`: ensure the root slot exists, expanding (in place
or through `_expand_alloc`, which also doubles the capacity) when the
live region is full, and toggling `full_state` after an expansion. -/
def prepareInsert (t : kdtree V) : kdtree V :=
  if t.count = 0 then
    let t1 := if t.capacity = 0 then allocStorage 1 t else t
    { t1 with span := 1 }
  else if t.count = t.span then
    let t1 :=
      if t.count = t.capacity then
        { expandT t with capacity := t.capacity * 2 + 1 }
      else expandT t
    { t1 with full_state := stNot t1.full_state }
  else t

/-- `insert(const value_type&)` / `insert(value_type&&)`: prepare
storage, bump the count, and run `_single_insert` from the root.
Returns the container and the slot index of the placed value. -/
def insertT (K : Nat) (less : Nat → V → V → Bool) (t : kdtree V) (w : V) :
    kdtree V × Nat :=
  let t1 := prepareInsert t
  let t2 := { t1 with count := t1.count + 1 }
  let r := singleInsert K less t2.full_state 0 (rootOffset t2.span)
    (t2.span / 2) (Pend.user w) t2.vals t2.sts
  ({ t2 with vals := r.1.1, sts := r.1.2 }, r.2)

/-- `find(val)`: `end()` (here `none`) when the container is empty,
otherwise `_find` from the root. -/
def findT (K : Nat) (less : Nat → V → V → Bool) (t : kdtree V) (w : V) :
    Option Nat :=
  if t.count = 0 then none
  else findAux K less 0 (rootOffset t.span) (t.span / 2) w t.vals t.sts

/-- `erase(const value_type&)`: decrements `_count` (a `std::size_t`,
hence the unsigned wrap at zero) and returns 0; nothing else happens. -/
def eraseByValue (t : kdtree V) (_w : V) : kdtree V × Nat :=
  ({ t with count := if t.count = 0 then 2 ^ 64 - 1 else t.count - 1 }, 0)

/-- `erase(iterator)`: decrements `_count` (unsigned wrap at zero);
nothing else happens. -/
def eraseByIter (t : kdtree V) (_i : Nat) : kdtree V :=
  { t with count := if t.count = 0 then 2 ^ 64 - 1 else t.count - 1 }

/-- A default-constructed container over the given (arbitrary,
uninitialized) memory: zero capacity, zero count, `full_state = Heads`. -/
def mkMembers (v0 : Nat → V) (s0 : Nat → St) : kdtree V :=
  { vals := v0, sts := s0, span := 0, capacity := 0, count := 0
    full_state := St.Heads }

/-- The `kdtree(std::size_t n)` constructor: default members followed by
`_alloc_storage(n)`. -/
def mkTree (n : Nat) (v0 : Nat → V) (s0 : Nat → St) : kdtree V :=
  allocStorage n (mkMembers v0 s0)

/-- Folding a list of insertions over a container. -/
def insertSeq (K : Nat) (less : Nat → V → V → Bool) (t : kdtree V)
    (l : List V) : kdtree V :=
  l.foldl (fun u w => (insertT K less u w).1) t

/-!
Fallible variant of the insertion path: the value type's copy or move
constructor may throw inside `place_at`.  `placeF` fails exactly on the
user-supplied deferred op (`_deferred_copy` / `_deferred_move`), while
the internal `_deferred_memcpy` relocations cannot fail.  A `none`
result index means the exception propagated; the arrays carry every
mutation performed before the failure (C++ unwinding performs no
rollback).
-/

/-- `place_at` when the copy/move constructor of `V` throws. -/
def placeF (v : Nat → V) (p : Pend V) (dst : Nat) : Option (Nat → V) :=
  match p with
  | Pend.user _ => none
  | Pend.buf i => some (updf v dst (v i))

/-- `_single_insert` with a throwing copy/move constructor: identical to
`singleInsert` except that every `place_at` of the user's deferred op
aborts, skipping all statements after it. -/
def singleInsertF (K : Nat) (less : Nat → V → V → Bool) (fullSt : St)
    (nd : Nat) (off : Nat) (node : Nat) (pend : Pend V)
    (v : Nat → V) (s : Nat → St) : ((Nat → V) × (Nat → St)) × Option Nat :=
  match off with
  | 0 =>
    match placeF v pend node with
    | none => ((v, s), none)
    | some v1 => ((v1, updf s node fullSt), some node)
  | 1 =>
    let ln := node - 1
    let rn := node + 1
    if less nd (Pend.cref v pend) (v node) then
      if s ln ≠ St.Invalid then
        let v1 := updf v rn (v node)
        let s1 := updf (updf s rn fullSt) node fullSt
        if less nd (Pend.cref v1 pend) (v1 ln) then
          let v2 := updf v1 node (v1 ln)
          match placeF v2 pend ln with
          | none => ((v2, s1), none)
          | some v3 => ((v3, s1), some ln)
        else
          match placeF v1 pend node with
          | none => ((v1, s1), none)
          | some v2 => ((v2, s1), some node)
      else
        match placeF v pend ln with
        | none => ((v, s), none)
        | some v1 =>
          let s1 := updf s ln fullSt
          let s2 := if s1 rn ≠ St.Invalid then updf s1 node fullSt else s1
          ((v1, s2), some ln)
    else
      if s rn ≠ St.Invalid then
        let v1 := updf v ln (v node)
        let s1 := updf (updf s ln fullSt) node fullSt
        if less nd (v1 rn) (Pend.cref v1 pend) then
          let v2 := updf v1 node (v1 rn)
          match placeF v2 pend rn with
          | none => ((v2, s1), none)
          | some v3 => ((v3, s1), some rn)
        else
          match placeF v1 pend node with
          | none => ((v1, s1), none)
          | some v2 => ((v2, s1), some node)
      else
        match placeF v pend rn with
        | none => ((v, s), none)
        | some v1 =>
          let s1 := updf s rn fullSt
          let s2 := if s1 ln ≠ St.Invalid then updf s1 node fullSt else s1
          ((v1, s2), some rn)
  | o + 2 =>
    let off := o + 2
    let cd := incd K nd
    let coff := off / 2
    let ln := node - off
    let rn := node + off
    if less nd (Pend.cref v pend) (v node) then
      if s ln = fullSt then
        let r1 := singleInsertF K less fullSt cd coff rn (Pend.buf node) v s
        match r1.2 with
        | none => (r1.1, none)
        | some _ =>
          let v1 := r1.1.1
          let s1 := r1.1.2
          let tmp := maxFrom K less v1 s1 nd cd coff ln ln
          if less nd (Pend.cref v1 pend) (v1 tmp) then
            let v2 := updf v1 node (v1 tmp)
            let p := eraseWhenFull K less cd coff ln tmp v2 s1
            let r2 := singleInsertF K less fullSt cd coff ln pend p.1 p.2
            match r2.2 with
            | none => (r2.1, none)
            | some ins =>
              ((r2.1.1, updf r2.1.2 node (stAdd (r2.1.2 ln) (r2.1.2 rn))),
               some ins)
          else
            match placeF v1 pend node with
            | none => ((v1, s1), none)
            | some v2 =>
              ((v2, updf s1 node (stAdd (s1 ln) (s1 rn))), some node)
      else
        let r1 := singleInsertF K less fullSt cd coff ln pend v s
        match r1.2 with
        | none => (r1.1, none)
        | some ins =>
          ((r1.1.1, updf r1.1.2 node (stAdd (r1.1.2 ln) (r1.1.2 rn))),
           some ins)
    else if less nd (v node) (Pend.cref v pend) then
      if s rn = fullSt then
        let r1 := singleInsertF K less fullSt cd coff ln (Pend.buf node) v s
        match r1.2 with
        | none => (r1.1, none)
        | some _ =>
          let v1 := r1.1.1
          let s1 := r1.1.2
          let tmp := minFrom K less v1 s1 nd cd coff rn rn
          if less nd (v1 tmp) (Pend.cref v1 pend) then
            let v2 := updf v1 node (v1 tmp)
            let p := eraseWhenFull K less cd coff rn tmp v2 s1
            let r2 := singleInsertF K less fullSt cd coff rn pend p.1 p.2
            match r2.2 with
            | none => (r2.1, none)
            | some ins =>
              ((r2.1.1, updf r2.1.2 node (stAdd (r2.1.2 ln) (r2.1.2 rn))),
               some ins)
          else
            match placeF v1 pend node with
            | none => ((v1, s1), none)
            | some v2 =>
              ((v2, updf s1 node (stAdd (s1 ln) (s1 rn))), some node)
      else
        let r1 := singleInsertF K less fullSt cd coff rn pend v s
        match r1.2 with
        | none => (r1.1, none)
        | some ins =>
          ((r1.1.1, updf r1.1.2 node (stAdd (r1.1.2 ln) (r1.1.2 rn))),
           some ins)
    else
      let r1 :=
        if s ln = fullSt then singleInsertF K less fullSt cd coff rn pend v s
        else singleInsertF K less fullSt cd coff ln pend v s
      match r1.2 with
      | none => (r1.1, none)
      | some ins =>
        ((r1.1.1, updf r1.1.2 node (stAdd (r1.1.2 ln) (r1.1.2 rn))),
         some ins)
termination_by off
decreasing_by all_goals omega

/-- `insert` when the copy/move of the value throws during placement:
`_prepare_insert` and the `++_impl._count` of `insert` have already
happened when `_single_insert` runs. -/
def insertF (K : Nat) (less : Nat → V → V → Bool) (t : kdtree V) (w : V) :
    kdtree V × Option Nat :=
  let t1 := prepareInsert t
  let t2 := { t1 with count := t1.count + 1 }
  let r := singleInsertF K less t2.full_state 0 (rootOffset t2.span)
    (t2.span / 2) (Pend.user w) t2.vals t2.sts
  ({ t2 with vals := r.1.1, sts := r.1.2 }, r.2)

/-- Integer comparator used for concrete instances: one strict order on
every axis. -/
def lessInt : Nat → Int → Int → Bool := fun _ a b => decide (a < b)

/-- Concrete 7-slot memory for the equal-key descent counterexample:
root (slot 3) holds 10, its children 1 and 5 hold 5 and 15, all three
marked Unsure, everything else Invalid. -/
def vC5 : Nat → Int := fun j => if j = 3 then 10 else if j = 1 then 5 else if j = 5 then 15 else 0

def sC5 : Nat → St := fun j => if j = 3 ∨ j = 1 ∨ j = 5 then St.Unsure else St.Invalid

/-- Concrete 3-slot memory for the `minimum` tie counterexample: slots 0
and 1 both live with value 5, slot 2 Invalid. -/
def vTie : Nat → Int := fun j => if j ≤ 1 then 5 else 99

def sTie : Nat → St := fun j => if j ≤ 1 then St.Heads else St.Invalid

/-!
Structural view of the implicit tree: the slot indices covered by the
subtree rooted at `node` with child offset `off`, and the specification
predicates (liveness, k-d ordering, state accuracy, balance) used to
state the claims.
-/

/-- All slot indices of the subtree rooted at `node` with offset `off`
(the node itself, then the left and right child subtrees at offset
`off / 2`). -/
def subtree (node : Nat) (off : Nat) : List Nat :=
  match off with
  | 0 => [node]
  | o + 1 =>
    node :: (subtree (node - (o + 1)) ((o + 1) / 2) ++
             subtree (node + (o + 1)) ((o + 1) / 2))
termination_by off
decreasing_by all_goals omega

/-- All (position, offset) pairs of the subtree. -/
def posL (node : Nat) (off : Nat) : List (Nat × Nat) :=
  match off with
  | 0 => [(node, 0)]
  | o + 1 =>
    (node, o + 1) :: (posL (node - (o + 1)) ((o + 1) / 2) ++
                      posL (node + (o + 1)) ((o + 1) / 2))
termination_by off
decreasing_by all_goals omega

/-- Number of slots of a subtree with offset `off`. -/
def szf (off : Nat) : Nat :=
  match off with
  | 0 => 1
  | o + 1 => 1 + 2 * szf ((o + 1) / 2)
termination_by off
decreasing_by all_goals omega

/-- Maximal index distance from a subtree root to any of its slots. -/
def bndf (off : Nat) : Nat :=
  match off with
  | 0 => 0
  | o + 1 => (o + 1) + bndf ((o + 1) / 2)
termination_by off
decreasing_by all_goals omega

/-- Geometric well-formedness of a subtree position: all its slots fit
without `Nat` underflow. -/
def wfPos (node off : Nat) : Prop := bndf off ≤ node

/-- The offset of a real subtree is zero or a power of two. -/
def isPG (off : Nat) : Prop := off = 0 ∨ ∃ j, off = 2 ^ j

/-- Every slot of the subtree is live. -/
def allLive (s : Nat → St) (n o : Nat) : Prop :=
  ∀ j ∈ subtree n o, s j ≠ St.Invalid

/-- Every non-leaf slot of the subtree is live (Invalid slots only at
the leaf layer). -/
def interiorLive (s : Nat → St) (n o : Nat) : Prop :=
  match o with
  | 0 => True
  | q + 1 =>
    s n ≠ St.Invalid ∧
    interiorLive s (n - (q + 1)) ((q + 1) / 2) ∧
    interiorLive s (n + (q + 1)) ((q + 1) / 2)
termination_by o
decreasing_by all_goals omega

/-- The k-d ordering invariant of a subtree whose root splits on
dimension `nd`: no live value of the left subtree is strictly greater
than the root on axis `nd`, no live value of the right subtree is
strictly less, and recursively with the cycled dimension. -/
def kdInv (K : Nat) (less : Nat → V → V → Bool) (v : Nat → V)
    (s : Nat → St) (nd n o : Nat) : Prop :=
  match o with
  | 0 => True
  | q + 1 =>
    (∀ j ∈ subtree (n - (q + 1)) ((q + 1) / 2),
      s j ≠ St.Invalid → less nd (v n) (v j) = false) ∧
    (∀ j ∈ subtree (n + (q + 1)) ((q + 1) / 2),
      s j ≠ St.Invalid → less nd (v j) (v n) = false) ∧
    kdInv K less v s (incd K nd) (n - (q + 1)) ((q + 1) / 2) ∧
    kdInv K less v s (incd K nd) (n + (q + 1)) ((q + 1) / 2)
termination_by o
decreasing_by all_goals omega

/-- State accuracy: a slot is marked with the current `full_state`
exactly when its whole subtree is live, recursively. -/
def stAcc (fullSt : St) (s : Nat → St) (n o : Nat) : Prop :=
  match o with
  | 0 => (s n = fullSt ↔ s n ≠ St.Invalid)
  | q + 1 =>
    (s n = fullSt ↔ allLive s n (q + 1)) ∧
    stAcc fullSt s (n - (q + 1)) ((q + 1) / 2) ∧
    stAcc fullSt s (n + (q + 1)) ((q + 1) / 2)
termination_by o
decreasing_by all_goals omega

/-- Number of live slots of a subtree. -/
def cnt (s : Nat → St) (n o : Nat) : Nat :=
  ((subtree n o).filter (fun j => s j ≠ St.Invalid)).length

/-- Height of the tree formed by the live slots of a subtree (an
Invalid root contributes height 0). -/
def lheight (s : Nat → St) (n o : Nat) : Nat :=
  match o with
  | 0 => if s n = St.Invalid then 0 else 1
  | q + 1 =>
    if s n = St.Invalid then 0
    else 1 + max (lheight s (n - (q + 1)) ((q + 1) / 2))
                 (lheight s (n + (q + 1)) ((q + 1) / 2))
termination_by o
decreasing_by all_goals omega

/-- Balance: at every live position of the subtree, the heights of the
live left and right subtrees differ by at most one. -/
def balancedAll (s : Nat → St) (n o : Nat) : Prop :=
  ∀ p ∈ posL n o, 0 < p.2 → s p.1 ≠ St.Invalid →
    lheight s (p.1 - p.2) (p.2 / 2) ≤ lheight s (p.1 + p.2) (p.2 / 2) + 1 ∧
    lheight s (p.1 + p.2) (p.2 / 2) ≤ lheight s (p.1 - p.2) (p.2 / 2) + 1

/-- Interior depth of a subtree with child offset `off`: the number of
levels strictly above the leaf layer. -/
def dpf (o : Nat) : Nat :=
  match o with
  | 0 => 0
  | q + 1 => 1 + dpf ((q + 1) / 2)
termination_by o
decreasing_by all_goals omega

/-- Offset of the image of a subtree root under the in-place expansion
(slot `i` moves to slot `2 i + 1`): an old leaf gains a fresh invalid
leaf layer below itself. -/
def noff (o : Nat) : Nat := if o = 0 then 1 else 2 * o

/-- A deferred op reads only from outside the subtree being rearranged:
`_deferred_copy` / `_deferred_move` hold the pending value outside the
buffer altogether, and `_single_insert` issues `_deferred_memcpy` only
for the parent slot of the subtree it descends into. -/
def pendOK (p : Pend V) (n o : Nat) : Prop :=
  match p with
  | Pend.user _ => True
  | Pend.buf i => i ∉ subtree n o

/-- Contract of `_erase_when_full` on a full subtree, relating the
input arrays `v`, `s` to the output arrays `v2`, `s2`: nothing outside
the subtree changes, exactly one live slot disappears, interior
liveness, k-d ordering and state accuracy are restored, every live
value other than the one at `tgt` survives, and no new value appears. -/
def erasedOK (K : Nat) (less : Nat → V → V → Bool) (fullSt : St)
    (nd node off tgt : Nat) (v : Nat → V) (s : Nat → St)
    (v2 : Nat → V) (s2 : Nat → St) : Prop :=
  (∀ j, j ∉ subtree node off → v2 j = v j ∧ s2 j = s j) ∧
  interiorLive s2 node off ∧
  kdInv K less v2 s2 nd node off ∧
  cnt s2 node off + 1 = cnt s node off ∧
  stAcc fullSt s2 node off ∧
  (∀ j ∈ subtree node off, s j ≠ St.Invalid →
    (∃ i ∈ subtree node off, s2 i ≠ St.Invalid ∧ v2 i = v j) ∨
      v j = v tgt) ∧
  (∀ j ∈ subtree node off, s2 j ≠ St.Invalid →
    ∃ i ∈ subtree node off, s i ≠ St.Invalid ∧ v2 j = v i)

/-- Contract of `_single_insert` on a subtree with a free slot:
nothing outside the subtree changes, the live count grows by one, the
structural invariants are preserved, the pending value sits live at the
returned slot, every old live value survives, and every live value
after the call is an old one or the pending one. -/
def insertedOK (K : Nat) (less : Nat → V → V → Bool) (fullSt : St)
    (nd node off : Nat) (pend : Pend V) (v : Nat → V) (s : Nat → St)
    (v2 : Nat → V) (s2 : Nat → St) (res : Nat) : Prop :=
  (∀ j, j ∉ subtree node off → v2 j = v j ∧ s2 j = s j) ∧
  interiorLive s2 node off ∧
  kdInv K less v2 s2 nd node off ∧
  cnt s2 node off = cnt s node off + 1 ∧
  stAcc fullSt s2 node off ∧
  res ∈ subtree node off ∧
  s2 res ≠ St.Invalid ∧
  v2 res = Pend.cref v pend ∧
  (∀ j ∈ subtree node off, s j ≠ St.Invalid →
    ∃ i ∈ subtree node off, s2 i ≠ St.Invalid ∧ v2 i = v j) ∧
  (∀ j ∈ subtree node off, s2 j ≠ St.Invalid →
    v2 j = Pend.cref v pend ∨
      ∃ i ∈ subtree node off, s i ≠ St.Invalid ∧ v2 j = v i)

/-- A value is live-present in the container's live region. -/
def present (t : kdtree V) (w : V) : Prop :=
  ∃ j, j < t.span ∧ t.sts j ≠ St.Invalid ∧ t.vals j = w

/-- Axis-equality on every dimension (the equality notion of `find`). -/
def axEq (K : Nat) (less : Nat → V → V → Bool) (a b : V) : Prop :=
  ∀ d < K, less d a b = false ∧ less d b a = false

/-- The comparator is a strict weak ordering along every axis (the
contract of the Index capability, §4.4 of the spec): irreflexive,
transitive, and negatively transitive. -/
structure IsSWO (less : Nat → V → V → Bool) : Prop where
  irr : ∀ d a, less d a a = false
  tr : ∀ d a b c, less d a b = true → less d b c = true → less d a c = true
  ntr : ∀ d a b c, less d a b = false → less d b c = false → less d a c = false

/-- Shape invariant of the capacity: zero or `2^h - 1`. -/
def capShape (c : Nat) : Prop := c = 0 ∨ ∃ h, 1 ≤ h ∧ c = 2 ^ h - 1

/-- The root position of a live region of `span` slots. -/
def rootIx (span : Nat) : Nat := span / 2

/-- The data-model invariants of a non-empty container (§3 of the
spec): span shape, capacity bound, `full_state` parity, count versus
live slots, interior liveness, state accuracy and k-d ordering of the
whole tree. -/
def MAIN (K : Nat) (less : Nat → V → V → Bool) (t : kdtree V) : Prop :=
  (∃ k, 1 ≤ k ∧ t.span = 2 ^ k - 1) ∧
  t.span ≤ t.capacity ∧
  (t.full_state = St.Heads ∨ t.full_state = St.Tails) ∧
  t.count = cnt t.sts (rootIx t.span) (rootOffset t.span) ∧
  interiorLive t.sts (rootIx t.span) (rootOffset t.span) ∧
  stAcc t.full_state t.sts (rootIx t.span) (rootOffset t.span) ∧
  kdInv K less t.vals t.sts 0 (rootIx t.span) (rootOffset t.span)

/-- The container-level data-model invariants.  An empty container
(count 0) only promises a well-shaped capacity; the structural
invariants hold as soon as something was inserted. -/
def INV (K : Nat) (less : Nat → V → V → Bool) (t : kdtree V) : Prop :=
  (t.full_state = St.Heads ∨ t.full_state = St.Tails) ∧
  capShape t.capacity ∧ (t.count ≠ 0 → MAIN K less t)

/-! Geometry of the implicit tree. -/

theorem subtree_zero (n : Nat) : subtree n 0 = [n] := by simp [subtree]

theorem subtree_succ (n q : Nat) :
    subtree n (q + 1) =
      n :: (subtree (n - (q + 1)) ((q + 1) / 2) ++
            subtree (n + (q + 1)) ((q + 1) / 2)) := by
  simp [subtree]

theorem mem_subtree_self (n o : Nat) : n ∈ subtree n o := by
  cases o <;> simp [subtree]

theorem mem_subtree_left {j n o : Nat} (h1 : 1 ≤ o)
    (hj : j ∈ subtree (n - o) (o / 2)) : j ∈ subtree n o := by
  rcases o with _ | q
  · omega
  · rw [subtree_succ]; simp only [List.mem_cons, List.mem_append]
    exact Or.inr (Or.inl hj)

theorem mem_subtree_right {j n o : Nat} (h1 : 1 ≤ o)
    (hj : j ∈ subtree (n + o) (o / 2)) : j ∈ subtree n o := by
  rcases o with _ | q
  · omega
  · rw [subtree_succ]; simp only [List.mem_cons, List.mem_append]
    exact Or.inr (Or.inr hj)

theorem mem_subtree_succ_iff {j n q : Nat} :
    j ∈ subtree n (q + 1) ↔
      j = n ∨ j ∈ subtree (n - (q + 1)) ((q + 1) / 2) ∨
        j ∈ subtree (n + (q + 1)) ((q + 1) / 2) := by
  rw [subtree_succ]; simp

theorem bndf_zero : bndf 0 = 0 := by simp [bndf]

theorem bndf_eq {o : Nat} (h : 1 ≤ o) : bndf o = o + bndf (o / 2) := by
  rcases o with _ | q
  · omega
  · simp [bndf]

theorem bndf_one : bndf 1 = 1 := by
  have h := bndf_eq (le_refl 1)
  norm_num at h
  rw [h, bndf_zero]

theorem bndf_le (o : Nat) (h : 1 ≤ o) : bndf o ≤ 2 * o - 1 := by
  induction o using Nat.strong_induction_on with
  | _ o ih =>
    rcases Nat.lt_or_ge o 2 with h2 | h2
    · have : o = 1 := by omega
      subst this
      rw [bndf_one]
    · have hh : 1 ≤ o / 2 := by omega
      have hih := ih (o / 2) (by omega) hh
      have he := bndf_eq h
      omega

theorem bndf_half_le {o : Nat} (h : 1 ≤ o) : bndf (o / 2) ≤ o - 1 := by
  rcases Nat.lt_or_ge o 2 with h2 | h2
  · have : o = 1 := by omega
    subst this
    have : (1 : Nat) / 2 = 0 := by norm_num
    rw [this, bndf_zero]
  · have := bndf_le (o / 2) (by omega)
    omega

theorem bndf_ge_self {o : Nat} (h : 1 ≤ o) : o ≤ bndf o := by
  rw [bndf_eq h]; omega

theorem wf_left {n o : Nat} (hw : wfPos n o) (h1 : 1 ≤ o) :
    wfPos (n - o) (o / 2) := by
  unfold wfPos at *
  rw [bndf_eq h1] at hw
  omega

theorem wf_right {n o : Nat} (h1 : 1 ≤ o) : wfPos (n + o) (o / 2) := by
  unfold wfPos
  have := bndf_half_le h1
  omega

theorem subtree_bounds {o : Nat} :
    ∀ {n j : Nat}, wfPos n o → j ∈ subtree n o →
      n - bndf o ≤ j ∧ j ≤ n + bndf o := by
  induction o using Nat.strong_induction_on with
  | _ o ih =>
    intro n j hw hj
    rcases o with _ | q
    · rw [subtree_zero] at hj; simp at hj; omega
    · have h1 : 1 ≤ q + 1 := by omega
      have hob : bndf (q + 1) = (q + 1) + bndf ((q + 1) / 2) := bndf_eq h1
      have hle : q + 1 ≤ n := le_trans (by rw [hob]; omega) hw
      rcases mem_subtree_succ_iff.mp hj with rfl | hl | hr
      · omega
      · have := ih ((q + 1) / 2) (by omega) (wf_left hw h1) hl
        omega
      · have := ih ((q + 1) / 2) (by omega) (wf_right h1) hr
        omega

theorem mem_left_lt {j n o : Nat} (h1 : 1 ≤ o) (hw : wfPos n o)
    (hj : j ∈ subtree (n - o) (o / 2)) : j < n := by
  have hb := subtree_bounds (wf_left hw h1) hj
  have hh := bndf_half_le h1
  have ho : o ≤ n := le_trans (bndf_ge_self h1) hw
  omega

theorem mem_right_gt {j n o : Nat} (h1 : 1 ≤ o)
    (hj : j ∈ subtree (n + o) (o / 2)) : n < j := by
  have hb := subtree_bounds (wf_right h1) hj
  have hh := bndf_half_le h1
  omega

theorem isPG_half {o : Nat} (h : isPG o) : isPG (o / 2) := by
  rcases h with rfl | ⟨j, rfl⟩
  · exact Or.inl rfl
  · rcases j with _ | j
    · exact Or.inl rfl
    · right; exact ⟨j, by rw [pow_succ]; omega⟩

theorem two_pow_succ_div_two (j : Nat) : 2 ^ (j + 1) / 2 = 2 ^ j := by
  rw [pow_succ]; omega

theorem bndf_two_pow (j : Nat) : bndf (2 ^ j) = 2 ^ (j + 1) - 1 := by
  induction j with
  | zero => simpa using bndf_one
  | succ j ih =>
    have h1 : 1 ≤ 2 ^ (j + 1) := Nat.one_le_two_pow
    rw [bndf_eq h1, two_pow_succ_div_two, ih, pow_succ, pow_succ]
    have : 1 ≤ 2 ^ j := Nat.one_le_two_pow
    omega

theorem subtree_interval_pg {jj : Nat} :
    ∀ {n j : Nat}, wfPos n (2 ^ jj) → n ≤ j + (2 ^ (jj + 1) - 1) →
      j ≤ n + (2 ^ (jj + 1) - 1) → j ∈ subtree n (2 ^ jj) := by
  induction jj with
  | zero =>
    intro n j hw hlo hhi
    have hn : 1 ≤ n := by
      have h1 := bndf_one
      unfold wfPos at hw; simp only [pow_zero] at hw; omega
    have he : (2 : Nat) ^ (0 + 1) - 1 = 1 := by norm_num
    rw [he] at hlo hhi
    simp only [pow_zero] at *
    have : j = n - 1 ∨ j = n ∨ j = n + 1 := by omega
    rcases this with rfl | rfl | rfl
    · exact mem_subtree_left le_rfl (by norm_num [subtree_zero])
    · exact mem_subtree_self ..
    · exact mem_subtree_right le_rfl (by norm_num [subtree_zero])
  | succ jj ih =>
    intro n j hw hlo hhi
    have h1 : 1 ≤ 2 ^ (jj + 1) := Nat.one_le_two_pow
    have hp : 1 ≤ 2 ^ jj := Nat.one_le_two_pow
    have hdiv : 2 ^ (jj + 1) / 2 = 2 ^ jj := two_pow_succ_div_two jj
    have hon : 2 ^ (jj + 1) ≤ n := le_trans (bndf_ge_self h1) hw
    have hps : (2:Nat) ^ (jj + 2) = 2 * 2 ^ (jj + 1) := by rw [pow_succ]; omega
    have hps1 : (2:Nat) ^ (jj + 1) = 2 * 2 ^ jj := by rw [pow_succ]; omega
    rcases Nat.lt_trichotomy j n with hlt | rfl | hgt
    · apply mem_subtree_left h1
      rw [hdiv]
      exact ih (by rw [← hdiv]; exact wf_left hw h1) (by omega) (by omega)
    · exact mem_subtree_self ..
    · apply mem_subtree_right h1
      rw [hdiv]
      refine ih ?_ (by omega) (by omega)
      unfold wfPos
      rw [bndf_two_pow]
      omega

theorem subtree_length (o : Nat) : ∀ n, (subtree n o).length = szf o := by
  induction o using Nat.strong_induction_on with
  | _ o ih =>
    intro n
    rcases o with _ | q
    · simp [subtree, szf]
    · rw [subtree_succ]
      simp only [List.length_cons, List.length_append,
        ih ((q + 1) / 2) (by omega)]
      rw [show szf (q + 1) = 1 + 2 * szf ((q + 1) / 2) from by simp [szf]]
      omega

theorem cnt_zero (s : Nat → St) (n : Nat) :
    cnt s n 0 = if s n = St.Invalid then 0 else 1 := by
  by_cases h : s n = St.Invalid <;> simp [cnt, subtree_zero, List.filter, h]

theorem cnt_succ (s : Nat → St) (n q : Nat) :
    cnt s n (q + 1) =
      (if s n = St.Invalid then 0 else 1) +
        cnt s (n - (q + 1)) ((q + 1) / 2) +
        cnt s (n + (q + 1)) ((q + 1) / 2) := by
  by_cases h : s n = St.Invalid <;>
    simp [cnt, subtree_succ, List.filter_append, List.filter_cons, h] <;> omega

theorem cnt_le_szf (s : Nat → St) (n o : Nat) : cnt s n o ≤ szf o := by
  rw [← subtree_length o n]
  exact List.length_filter_le ..

theorem allLive_iff_cnt {s : Nat → St} {n o : Nat} :
    allLive s n o ↔ cnt s n o = szf o := by
  constructor
  · intro h
    unfold cnt
    rw [List.filter_eq_self.mpr, subtree_length]
    intro a ha
    simpa using h a ha
  · intro h j hj
    have := List.filter_length_eq_length.mp (by rw [subtree_length o n] at *; exact h) j hj
    simpa using this

theorem allLive_succ_iff {s : Nat → St} {n q : Nat} :
    allLive s n (q + 1) ↔
      s n ≠ St.Invalid ∧ allLive s (n - (q + 1)) ((q + 1) / 2) ∧
        allLive s (n + (q + 1)) ((q + 1) / 2) := by
  unfold allLive
  rw [subtree_succ]
  simp only [List.mem_cons, List.mem_append]
  constructor
  · intro h
    exact ⟨h n (Or.inl rfl), fun j hj => h j (Or.inr (Or.inl hj)),
      fun j hj => h j (Or.inr (Or.inr hj))⟩
  · rintro ⟨h1, h2, h3⟩ j (rfl | hj | hj)
    · exact h1
    · exact h2 j hj
    · exact h3 j hj

theorem allLive_zero_iff {s : Nat → St} {n : Nat} :
    allLive s n 0 ↔ s n ≠ St.Invalid := by
  unfold allLive; rw [subtree_zero]; simp

theorem IsSWO.asym {less : Nat → V → V → Bool} (h : IsSWO less)
    {d : Nat} {a b : V} (hab : less d a b = true) : less d b a = false := by
  by_contra hba
  have := h.tr d a b a hab (by revert hba; cases less d b a <;> simp)
  rw [h.irr d a] at this
  exact Bool.false_ne_true this

theorem stNot_ne (x : St) : stNot x ≠ x := by cases x <;> simp [stNot]

/-! The shift-or cascade `ftz`. -/

theorem orshift_window {u a : Nat} (w : Nat)
    (h : ∀ i, a.testBit i = true ↔ ∃ j, i ≤ j ∧ j < i + w ∧ u.testBit j = true) :
    ∀ i, (orshift a w).testBit i = true ↔
      ∃ j, i ≤ j ∧ j < i + (w + w) ∧ u.testBit j = true := by
  intro i
  unfold orshift
  rw [Nat.testBit_lor, Nat.testBit_shiftRight]
  constructor
  · intro hb
    rw [Bool.or_eq_true] at hb
    rcases hb with hb | hb
    · rcases (h i).mp hb with ⟨j, h1, h2, h3⟩
      exact ⟨j, h1, by omega, h3⟩
    · rcases (h (w + i)).mp hb with ⟨j, h1, h2, h3⟩
      exact ⟨j, by omega, by omega, h3⟩
  · rintro ⟨j, h1, h2, h3⟩
    rw [Bool.or_eq_true]
    by_cases hj : j < i + w
    · exact Or.inl ((h i).mpr ⟨j, h1, hj, h3⟩)
    · exact Or.inr ((h (w + i)).mpr ⟨j, by omega, by omega, h3⟩)

theorem ftz_window (u : Nat) :
    ∀ i, (ftz u).testBit i = true ↔
      ∃ j, i ≤ j ∧ j < i + 64 ∧ u.testBit j = true := by
  have h0 : ∀ i, u.testBit i = true ↔
      ∃ j, i ≤ j ∧ j < i + 1 ∧ u.testBit j = true := by
    intro i
    constructor
    · intro hb; exact ⟨i, le_rfl, by omega, hb⟩
    · rintro ⟨j, h1, h2, h3⟩
      have : j = i := by omega
      subst this; exact h3
  have h1 := orshift_window 1 h0
  have h2 := orshift_window 2 h1
  have h4 := orshift_window 4 h2
  have h8 := orshift_window 8 h4
  have h16 := orshift_window 16 h8
  have h32 := orshift_window 32 h16
  exact h32

theorem ftz_eq (u : Nat) (h0 : u ≠ 0) (hu : u < 2 ^ 64) :
    ftz u = 2 ^ (u.log2 + 1) - 1 := by
  have hL1 : 2 ^ u.log2 ≤ u := Nat.log2_self_le h0
  have hL2 : u < 2 ^ (u.log2 + 1) := Nat.lt_log2_self
  have hL64 : u.log2 < 64 := (Nat.log2_lt h0).mpr hu
  have hbitL : u.testBit u.log2 = true := by
    rw [Nat.testBit_to_div_mod]
    have hp : 0 < 2 ^ u.log2 := Nat.pow_pos (by norm_num)
    have hd1 : 1 ≤ u / 2 ^ u.log2 := (Nat.le_div_iff_mul_le hp).mpr (by omega)
    have hd2 : u / 2 ^ u.log2 < 2 := by
      rw [Nat.div_lt_iff_lt_mul hp]
      rw [pow_succ] at hL2
      omega
    have he1 : u / 2 ^ u.log2 = 1 := by omega
    rw [he1]
    decide
  apply Nat.eq_of_testBit_eq
  intro i
  rw [Nat.testBit_two_pow_sub_one]
  by_cases hi : i ≤ u.log2
  · rw [decide_eq_true (by omega : i < u.log2 + 1)]
    exact (ftz_window u i).mpr ⟨u.log2, hi, by omega, hbitL⟩
  · rw [decide_eq_false (by omega : ¬ i < u.log2 + 1)]
    cases hb : (ftz u).testBit i with
    | false => rfl
    | true =>
      rcases (ftz_window u i).mp hb with ⟨j, hj1, hj2, hj3⟩
      have : u.testBit j = false :=
        Nat.testBit_lt_two_pow
          (lt_of_lt_of_le hL2 (Nat.pow_le_pow_right (by norm_num) (by omega)))
      rw [this] at hj3
      exact absurd hj3 (by simp)

theorem ftz_shape (u : Nat) (h0 : u ≠ 0) (hu : u < 2 ^ 64) :
    ∃ k, 1 ≤ k ∧ ftz u = 2 ^ k - 1 :=
  ⟨u.log2 + 1, by omega, ftz_eq u h0 hu⟩

theorem ftz_ge (u : Nat) (h0 : u ≠ 0) (hu : u < 2 ^ 64) : u ≤ ftz u := by
  have hL2 : u < 2 ^ (u.log2 + 1) := Nat.lt_log2_self
  rw [ftz_eq u h0 hu]
  omega

theorem ftz_min (u m : Nat) (h0 : u ≠ 0) (hu : u < 2 ^ 64)
    (hm : u ≤ 2 ^ m - 1) : ftz u ≤ 2 ^ m - 1 := by
  have hL1 : 2 ^ u.log2 ≤ u := Nat.log2_self_le h0
  have hlt : u.log2 < m := by
    have h2 : (2:Nat) ^ u.log2 < 2 ^ m := by
      have : (1:Nat) ≤ 2 ^ m := Nat.one_le_two_pow
      omega
    exact (Nat.pow_lt_pow_iff_right (by norm_num)).mp h2
  have : (2:Nat) ^ (u.log2 + 1) ≤ 2 ^ m :=
    Nat.pow_le_pow_right (by norm_num) (by omega)
  rw [ftz_eq u h0 hu]
  omega

/-! The in-place doubling `_expand`. -/

theorem expandLoop_spec {V : Type u} :
    ∀ (slow : Nat) (v : Nat → V) (s : Nat → St),
      (∀ i, i < slow →
        (expandLoop v s slow (2 * slow)).1 (2 * i + 1) = v i ∧
        (expandLoop v s slow (2 * slow)).2 (2 * i + 1) = s i ∧
        (expandLoop v s slow (2 * slow)).2 (2 * i) = St.Invalid) ∧
      (∀ j, 2 * slow ≤ j →
        (expandLoop v s slow (2 * slow)).1 j = v j ∧
        (expandLoop v s slow (2 * slow)).2 j = s j) := by
  intro slow
  induction slow with
  | zero =>
    intro v s
    constructor
    · intro i hi; omega
    · intro j _
      constructor <;> simp [expandLoop]
  | succ m ih =>
    intro v s
    have e2 : 2 * (m + 1) = (2 * m + 1) + 1 := by ring
    have he : expandLoop v s (m + 1) (2 * (m + 1)) =
        expandLoop (updf v (2 * m + 1) (v m))
          (updf (updf s (2 * m + 1) (s m)) (2 * m) St.Invalid) m (2 * m) := by
      rw [e2]
      simp only [expandLoop]
      norm_num
    rcases ih (updf v (2 * m + 1) (v m))
      (updf (updf s (2 * m + 1) (s m)) (2 * m) St.Invalid) with ⟨ih1, ih2⟩
    constructor
    · intro i hi
      rcases Nat.lt_or_ge i m with him | him
      · rcases ih1 i him with ⟨hv, hs, hinv⟩
        rw [he]
        refine ⟨?_, ?_, ?_⟩
        · rw [hv]; unfold updf
          rw [if_neg (by omega)]
        · rw [hs]; unfold updf
          rw [if_neg (by omega), if_neg (by omega)]
        · exact hinv
      · have him' : i = m := by omega
        subst him'
        rw [he]
        rcases ih2 (2 * i + 1) (by omega) with ⟨hv, hs⟩
        rcases ih2 (2 * i) (by omega) with ⟨_, hs2⟩
        refine ⟨?_, ?_, ?_⟩
        · rw [hv]; unfold updf
          rw [if_pos rfl]
        · rw [hs]; unfold updf
          rw [if_neg (by omega), if_pos rfl]
        · rw [hs2]; unfold updf
          rw [if_pos rfl]
    · intro j hj
      rw [he]
      rcases ih2 j (by omega) with ⟨hv, hs⟩
      rw [hv, hs]; unfold updf
      rw [if_neg (by omega), if_neg (by omega), if_neg (by omega)]
      exact ⟨rfl, rfl⟩

theorem expandT_spec {V : Type u} (t : kdtree V) :
    (expandT t).span = 2 * t.span + 1 ∧
    (∀ i, i < t.span →
      (expandT t).vals (2 * i + 1) = t.vals i ∧
      (expandT t).sts (2 * i + 1) = t.sts i) ∧
    (∀ i, i ≤ t.span → (expandT t).sts (2 * i) = St.Invalid) ∧
    (expandT t).capacity = t.capacity ∧ (expandT t).count = t.count ∧
    (expandT t).full_state = t.full_state ∧
    (∀ j, 2 * t.span + 1 ≤ j →
      (expandT t).vals j = t.vals j ∧ (expandT t).sts j = t.sts j) := by
  have hm : t.span * 2 = 2 * t.span := by ring
  simp only [expandT]
  rw [hm]
  rcases expandLoop_spec t.span t.vals (updf t.sts (2 * t.span) St.Invalid)
    with ⟨h1, h2⟩
  refine ⟨rfl, ?_, ?_, trivial, trivial, trivial, ?_⟩
  · intro i hi
    rcases h1 i hi with ⟨hv, hs, _⟩
    refine ⟨hv, ?_⟩
    rw [hs]; unfold updf
    rw [if_neg (by omega)]
  · intro i hi
    rcases Nat.lt_or_ge i t.span with him | him
    · exact (h1 i him).2.2
    · have : i = t.span := by omega
      subst this
      rcases h2 (2 * t.span) (by omega) with ⟨_, hs⟩
      rw [hs]; unfold updf
      rw [if_pos rfl]
  · intro j hj
    rcases h2 j (by omega) with ⟨hv, hs⟩
    refine ⟨hv, ?_⟩
    rw [hs]; unfold updf
    rw [if_neg (by omega)]

/-- Claim C6: when `insert` finds `count == span < capacity`, the
in-place expansion maps every live-region slot `i` (value and state) to
slot `2i + 1` of the new live region of length `2·span + 1`, sets every
even slot's state to Invalid and toggles `full_state`; consequently a
slot that compared equal to the old `full_state` compares unequal to the
new one, and a slot holding the previous parity (as left by an earlier
doubling) compares equal again after this doubling. -/
theorem claim_C6 : ∀ (V : Type) (t : kdtree V), t.count ≠ 0 →
    t.count = t.span → t.span < t.capacity →
    (prepareInsert t).span = 2 * t.span + 1 ∧
    (∀ i, i < t.span →
      (prepareInsert t).vals (2 * i + 1) = t.vals i ∧
      (prepareInsert t).sts (2 * i + 1) = t.sts i) ∧
    (∀ i, i ≤ t.span → (prepareInsert t).sts (2 * i) = St.Invalid) ∧
    (prepareInsert t).full_state = stNot t.full_state ∧
    (∀ i, i < t.span → t.sts i = t.full_state →
      (prepareInsert t).sts (2 * i + 1) ≠ (prepareInsert t).full_state) ∧
    (∀ i, i < t.span → t.sts i = stNot t.full_state →
      (prepareInsert t).sts (2 * i + 1) = (prepareInsert t).full_state) := by
  intro V t h0 hcs hsc
  have hpi : prepareInsert t =
      { expandT t with full_state := stNot (expandT t).full_state } := by
    unfold prepareInsert
    rw [if_neg h0, if_pos hcs, if_neg (by omega : ¬ t.count = t.capacity)]
  rcases expandT_spec t with ⟨hsp, hmap, hev, _, _, hfs, _⟩
  rw [hpi]
  refine ⟨hsp, ?_, ?_, by rw [hfs], ?_, ?_⟩
  · intro i hi; exact hmap i hi
  · intro i hi; exact hev i hi
  · intro i hi hful
    rw [(hmap i hi).2, hful, hfs]
    exact fun hc => stNot_ne t.full_state hc.symm
  · intro i hi hold
    rw [(hmap i hi).2, hold, hfs]

/-- Claim C7: a container constructed with capacity hint `n` reports
`capacity() = ftz n` and `size() = 0`; for `0 < n < 2^64`, `ftz n` is
the least number of the form `2^k - 1` that is `≥ n` (and `ftz 0 = 0`);
in particular hint 10 gives capacity 15, hint 0 gives 0, hint 1 gives
1. -/
theorem claim_C7 : ∀ (V : Type) (n : Nat) (v0 : Nat → V) (s0 : Nat → St),
    (mkTree n v0 s0).capacity = ftz n ∧ (mkTree n v0 s0).count = 0 ∧
    (n ≠ 0 → n < 2 ^ 64 →
      (∃ k, 1 ≤ k ∧ ftz n = 2 ^ k - 1) ∧ n ≤ ftz n ∧
        ∀ m, n ≤ 2 ^ m - 1 → ftz n ≤ 2 ^ m - 1) ∧
    ftz 10 = 15 ∧ ftz 0 = 0 ∧ ftz 1 = 1 := by
  intro V n v0 s0
  refine ⟨?_, ?_, ?_, by decide, by decide, by decide⟩
  · by_cases hn : n = 0
    · subst hn
      simp [mkTree, allocStorage, mkMembers]
      decide
    · simp [mkTree, allocStorage, mkMembers, hn]
  · by_cases hn : n = 0 <;> simp [mkTree, allocStorage, mkMembers, hn]
  · intro h0 hu
    exact ⟨ftz_shape n h0 hu, ftz_ge n h0 hu, fun m hm => ftz_min n m h0 hu hm⟩

theorem claim_C7_witness :
    (mkTree 10 (fun _ => (0 : Int)) (fun _ => St.Invalid)).capacity = ftz 10 ∧
      10 ≤ ftz 10 := by
  refine ⟨(claim_C7 Int 10 (fun _ => (0 : Int)) (fun _ => St.Invalid)).1, ?_⟩
  exact ((claim_C7 Int 10 (fun _ => (0 : Int)) (fun _ => St.Invalid)).2.2.1
    (by norm_num) (by norm_num)).2.1

/-- Claim C8 (divergence witness): inserting into a default-constructed
container when the value's copy constructor throws at placement leaves
`count = 1` (the code increments `_count` before `_single_insert` runs)
and the root slot's state is whatever the uninitialized allocation held
(`s0 0`), not necessarily Invalid; the failure does propagate
(`none`). -/
theorem claim_C8 : ∀ (v0 : Nat → Int) (s0 : Nat → St) (w : Int),
    (insertF 1 lessInt (mkMembers v0 s0) w).2 = none ∧
    (mkMembers v0 s0).count = 0 ∧
    (insertF 1 lessInt (mkMembers v0 s0) w).1.count = 1 ∧
    (insertF 1 lessInt (mkMembers v0 s0) w).1.sts 0 = s0 0 := by
  intro v0 s0 w
  have hro : rootOffset 1 = 0 := by norm_num [rootOffset]
  simp only [insertF, prepareInsert, mkMembers, allocStorage]
  norm_num [hro]
  simp [singleInsertF, placeF]

/-- Claim C9: both `erase` overloads decrement `count` (with the
`std::size_t` wrap at zero) and change nothing else — the value array,
the state array, span, capacity and `full_state` are untouched, no slot
becomes Invalid, and erase-by-value returns 0 whether or not the value
is present. -/
theorem claim_C9 : ∀ (V : Type) (t : kdtree V) (w : V) (i : Nat),
    (eraseByValue t w).2 = 0 ∧
    (eraseByValue t w).1.vals = t.vals ∧
    (eraseByValue t w).1.sts = t.sts ∧
    (eraseByValue t w).1.span = t.span ∧
    (eraseByValue t w).1.capacity = t.capacity ∧
    (eraseByValue t w).1.full_state = t.full_state ∧
    (eraseByIter t i).vals = t.vals ∧
    (eraseByIter t i).sts = t.sts ∧
    (eraseByIter t i).span = t.span ∧
    (eraseByIter t i).capacity = t.capacity ∧
    (eraseByIter t i).full_state = t.full_state ∧
    (1 ≤ t.count →
      (eraseByValue t w).1.count = t.count - 1 ∧
      (eraseByIter t i).count = t.count - 1) ∧
    (t.count = 0 →
      (eraseByValue t w).1.count = 2 ^ 64 - 1 ∧
      (eraseByIter t i).count = 2 ^ 64 - 1) := by
  intro V t w i
  unfold eraseByValue eraseByIter
  refine ⟨rfl, rfl, rfl, rfl, rfl, rfl, rfl, rfl, rfl, rfl, rfl, ?_, ?_⟩
  · intro h
    rw [if_neg (by omega : ¬ t.count = 0)]
    exact ⟨rfl, rfl⟩
  · intro h
    rw [if_pos h]
    exact ⟨rfl, rfl⟩

theorem claim_C9_witness :
    (eraseByValue (mkTree 3 (fun _ => (0 : Int)) (fun _ => St.Heads)) 5).2 = 0 ∧
      (eraseByValue { mkTree 3 (fun _ => (0 : Int)) (fun _ => St.Heads) with
        count := 4 } (5 : Int)).1.count = 3 := by
  refine ⟨(claim_C9 Int (mkTree 3 (fun _ => (0 : Int)) (fun _ => St.Heads)) 5 0).1, ?_⟩
  exact (((claim_C9 Int { mkTree 3 (fun _ => (0 : Int)) (fun _ => St.Heads) with
    count := 4 } (5 : Int) 0).2.2.2.2.2.2.2.2.2.2.2.1) (by norm_num)).1

/-- Claim C10: on an empty container (`count = 0`) `find` returns
`end()` immediately; the result is `none` for every comparator and
every memory contents, so no slot is read and no comparison is made
even when the capacity is 0 and no root slot exists. -/
theorem claim_C10 : ∀ (V : Type) (K : Nat) (less : Nat → V → V → Bool)
    (t : kdtree V) (w : V), t.count = 0 → findT K less t w = none := by
  intro V K less t w h
  unfold findT
  rw [if_pos h]

theorem claim_C10_witness :
    findT 1 lessInt (mkMembers (fun _ => (7 : Int)) (fun _ => St.Heads)) 7 = none :=
  claim_C10 Int 1 lessInt (mkMembers (fun _ => (7 : Int)) (fun _ => St.Heads)) 7 rfl

theorem claim_C6_witness :
    (prepareInsert ({ vals := (fun _ => (0 : Int)), sts := (fun _ => St.Heads),
                      span := 1, capacity := 3, count := 1,
                      full_state := St.Heads } : kdtree Int)).span = 3 ∧
    (prepareInsert ({ vals := (fun _ => (0 : Int)), sts := (fun _ => St.Heads),
                      span := 1, capacity := 3, count := 1,
                      full_state := St.Heads } : kdtree Int)).full_state =
      stNot St.Heads := by
  have h := claim_C6 Int ({ vals := (fun _ => (0 : Int)),
                            sts := (fun _ => St.Heads), span := 1,
                            capacity := 3, count := 1,
                            full_state := St.Heads } : kdtree Int)
    (by norm_num) (by norm_num) (by norm_num)
  exact ⟨by simpa using h.1, h.2.2.2.1⟩

/-! Containment: `_single_insert` always returns a slot of the subtree
it was asked to fill. -/

theorem singleInsert_mem {K : Nat} {less : Nat → V → V → Bool} {fullSt : St} :
    ∀ (off : Nat) (nd node : Nat) (pend : Pend V) (v : Nat → V) (s : Nat → St),
      (singleInsert K less fullSt nd off node pend v s).2 ∈ subtree node off := by
  intro off
  induction off using Nat.strong_induction_on with
  | _ off ih =>
    intro nd node pend v s
    match off with
    | 0 => simp [singleInsert, subtree_zero]
    | 1 =>
      have hd : (1 : Nat) / 2 = 0 := by norm_num
      rw [subtree_succ]
      simp only [singleInsert]
      split_ifs <;> simp [hd, subtree_zero]
    | o + 2 =>
      have hml : ∀ (nd' : Nat) (pend' : Pend V) (v' : Nat → V) (s' : Nat → St),
          (singleInsert K less fullSt nd' ((o + 2) / 2) (node - (o + 2))
            pend' v' s').2 ∈ subtree node (o + 2) := by
        intro nd' pend' v' s'
        exact mem_subtree_left (by omega) (ih ((o + 2) / 2) (by omega) ..)
      have hmr : ∀ (nd' : Nat) (pend' : Pend V) (v' : Nat → V) (s' : Nat → St),
          (singleInsert K less fullSt nd' ((o + 2) / 2) (node + (o + 2))
            pend' v' s').2 ∈ subtree node (o + 2) := by
        intro nd' pend' v' s'
        exact mem_subtree_right (by omega) (ih ((o + 2) / 2) (by omega) ..)
      simp only [singleInsert]
      split_ifs <;> simp only [] <;>
        first
          | exact mem_subtree_self ..
          | apply hml
          | apply hmr

/-- Claim C5 (counterexample): in the concrete 7-slot container, the
pending value 10 ties with the root (value 10, slot 3) on the split
axis and both children's subtrees (slots 1 and 5, both Unsure) are not
marked full, yet the insertion recurses into the LEFT child and places
the value at slot 2 — inside the left child's subtree and outside the
right child's subtree, contradicting the claim's "recurses into the
right child". -/
theorem claim_C5_counterexample :
    lessInt 0 10 (vC5 3) = false ∧ lessInt 0 (vC5 3) 10 = false ∧
    sC5 1 ≠ St.Heads ∧ sC5 5 ≠ St.Heads ∧
    (insertT 1 lessInt { vals := vC5, sts := sC5, span := 7, capacity := 7,
                         count := 3, full_state := St.Heads } 10).2 = 2 ∧
    2 ∈ subtree 1 1 ∧ ¬ 2 ∈ subtree 5 1 := by
  refine ⟨by decide, by decide, by decide, by decide, ?_, ?_, ?_⟩
  · have hro : rootOffset 7 = 2 := by norm_num [rootOffset]
    simp only [insertT, prepareInsert]
    norm_num [hro]
    simp [singleInsert, vC5, sC5, lessInt, Pend.cref, Pend.placeAt, updf, incd]
  · rw [subtree_succ]; norm_num [subtree_zero]
  · rw [subtree_succ]; norm_num [subtree_zero]

/-- Claim C5 (amended): during insertion into a subtree with offset
greater than 1, when the pending value is neither strictly less nor
strictly greater than the node's value on the node's split dimension,
the algorithm recurses into the right child exactly when the left
child's subtree is marked full (regardless of the right child's state),
and into the LEFT child otherwise — in particular, when both children's
subtrees are not full it recurses into the left child, not the right
one. -/
theorem claim_C5 : ∀ (V : Type) (K : Nat) (less : Nat → V → V → Bool)
    (fullSt : St) (nd o node : Nat) (pend : Pend V)
    (v : Nat → V) (s : Nat → St),
    less nd (Pend.cref v pend) (v node) = false →
    less nd (v node) (Pend.cref v pend) = false →
    (s (node - (o + 2)) ≠ fullSt →
      (singleInsert K less fullSt nd (o + 2) node pend v s).2 ∈
        subtree (node - (o + 2)) ((o + 2) / 2)) ∧
    (s (node - (o + 2)) = fullSt →
      (singleInsert K less fullSt nd (o + 2) node pend v s).2 ∈
        subtree (node + (o + 2)) ((o + 2) / 2)) := by
  intro V K less fullSt nd o node pend v s h1 h2
  simp only [singleInsert, h1, h2, Bool.false_eq_true, if_false]
  constructor
  · intro hl
    rw [if_neg hl]
    exact singleInsert_mem ((o + 2) / 2) ..
  · intro hl
    rw [if_pos hl]
    exact singleInsert_mem ((o + 2) / 2) ..

theorem claim_C5_witness :
    (singleInsert 1 lessInt St.Heads 0 (0 + 2) 3 (Pend.user (10 : Int))
      vC5 sC5).2 ∈ subtree (3 - (0 + 2)) ((0 + 2) / 2) :=
  (claim_C5 Int 1 lessInt St.Heads 0 0 3 (Pend.user 10) vC5 sC5
    (by decide) (by decide)).1 (by decide)

/-! Unfolding lemmas for the recursive invariants. -/

theorem interiorLive_zero {s : Nat → St} {n : Nat} : interiorLive s n 0 := by
  simp [interiorLive]

theorem interiorLive_succ {s : Nat → St} {n q : Nat} :
    interiorLive s n (q + 1) ↔
      s n ≠ St.Invalid ∧ interiorLive s (n - (q + 1)) ((q + 1) / 2) ∧
        interiorLive s (n + (q + 1)) ((q + 1) / 2) := by
  simp only [interiorLive]

theorem interiorLive_root {s : Nat → St} {n o : Nat} (h1 : 1 ≤ o)
    (h : interiorLive s n o) : s n ≠ St.Invalid := by
  rcases o with _ | q
  · omega
  · exact (interiorLive_succ.mp h).1

theorem kdInv_zero {K : Nat} {less : Nat → V → V → Bool} {v : Nat → V}
    {s : Nat → St} {nd n : Nat} : kdInv K less v s nd n 0 := by
  simp [kdInv]

theorem kdInv_succ {K : Nat} {less : Nat → V → V → Bool} {v : Nat → V}
    {s : Nat → St} {nd n q : Nat} :
    kdInv K less v s nd n (q + 1) ↔
      (∀ j ∈ subtree (n - (q + 1)) ((q + 1) / 2),
        s j ≠ St.Invalid → less nd (v n) (v j) = false) ∧
      (∀ j ∈ subtree (n + (q + 1)) ((q + 1) / 2),
        s j ≠ St.Invalid → less nd (v j) (v n) = false) ∧
      kdInv K less v s (incd K nd) (n - (q + 1)) ((q + 1) / 2) ∧
      kdInv K less v s (incd K nd) (n + (q + 1)) ((q + 1) / 2) := by
  simp only [kdInv]

theorem stAcc_zero {fullSt : St} {s : Nat → St} {n : Nat} :
    stAcc fullSt s n 0 ↔ (s n = fullSt ↔ s n ≠ St.Invalid) := by
  simp only [stAcc]

theorem stAcc_succ {fullSt : St} {s : Nat → St} {n q : Nat} :
    stAcc fullSt s n (q + 1) ↔
      (s n = fullSt ↔ allLive s n (q + 1)) ∧
      stAcc fullSt s (n - (q + 1)) ((q + 1) / 2) ∧
      stAcc fullSt s (n + (q + 1)) ((q + 1) / 2) := by
  simp only [stAcc]

/-! Containment for `minimum` / `maximum`. -/

theorem minFrom_mem {K : Nat} {less : Nat → V → V → Bool} {v : Nat → V}
    {s : Nat → St} {fd : Nat} :
    ∀ (off nd node best : Nat),
      minFrom K less v s fd nd off node best = best ∨
        minFrom K less v s fd nd off node best ∈ subtree node off := by
  intro off
  induction off using Nat.strong_induction_on with
  | _ off ih =>
    intro nd node best
    match off with
    | 0 => left; simp [minFrom]
    | 1 =>
      simp only [minFrom]
      split_ifs
      · right; exact mem_subtree_right le_rfl (by norm_num [subtree_zero])
      · right; exact mem_subtree_left le_rfl (by norm_num [subtree_zero])
      · right; exact mem_subtree_right le_rfl (by norm_num [subtree_zero])
      · left; rfl
    | o + 2 =>
      have hlnm : node - (o + 2) ∈ subtree node (o + 2) :=
        mem_subtree_left (by omega) (mem_subtree_self ..)
      have hrnm : node + (o + 2) ∈ subtree node (o + 2) :=
        mem_subtree_right (by omega) (mem_subtree_self ..)
      have hl : ∀ b : Nat,
          minFrom K less v s fd (incd K nd) ((o + 2) / 2) (node - (o + 2)) b =
            b ∨
          minFrom K less v s fd (incd K nd) ((o + 2) / 2) (node - (o + 2)) b ∈
            subtree node (o + 2) := by
        intro b
        rcases ih ((o + 2) / 2) (by omega) (incd K nd) (node - (o + 2)) b with
          h | h
        · exact Or.inl h
        · exact Or.inr (mem_subtree_left (by omega) h)
      have hr2 : ∀ b : Nat, (b = best ∨ b ∈ subtree node (o + 2)) →
          (minFrom K less v s fd (incd K nd) ((o + 2) / 2) (node + (o + 2)) b =
              best ∨
            minFrom K less v s fd (incd K nd) ((o + 2) / 2) (node + (o + 2)) b ∈
              subtree node (o + 2)) := by
        intro b hb
        rcases ih ((o + 2) / 2) (by omega) (incd K nd) (node + (o + 2)) b with
          h | h
        · rw [h]; exact hb
        · exact Or.inr (mem_subtree_right (by omega) h)
      simp only [minFrom]
      by_cases h1 : nd = fd
      · rw [if_pos h1]
        split_ifs
        · left; rfl
        · rcases hl (node - (o + 2)) with h | h
          · right; rw [h]; exact hlnm
          · right; exact h
      · rw [if_neg h1]
        apply hr2
        split_ifs
        · left; rfl
        · right; exact hrnm
        · rcases hl (node - (o + 2)) with h | h
          · right; rw [h]; exact hlnm
          · right; exact h
        · right; exact hrnm

theorem mem_subtree_one {x n : Nat} (hx : x ∈ subtree n 1) :
    x = n ∨ x = n - 1 ∨ x = n + 1 := by
  have h := mem_subtree_succ_iff.mp hx
  rcases h with h | h | h
  · exact Or.inl h
  · norm_num [subtree_zero] at h
    exact Or.inr (Or.inl h)
  · norm_num [subtree_zero] at h
    exact Or.inr (Or.inr h)

/-! Soundness of `minimum` / `maximum`: the selection steps, then the
main induction. -/

theorem minFrom_sel1 {less : Nat → V → V → Bool} (hswo : IsSWO less)
    {v : Nat → V} {s : Nat → St} {d : Nat} (b c : Nat)
    (hlb : s b ≠ St.Invalid) :
    s (if s c ≠ St.Invalid ∧ less d (v b) (v c) = false then c else b) ≠
      St.Invalid ∧
    less d (v b)
      (v (if s c ≠ St.Invalid ∧ less d (v b) (v c) = false then c else b)) =
      false ∧
    (s c ≠ St.Invalid →
      less d (v c)
        (v (if s c ≠ St.Invalid ∧ less d (v b) (v c) = false then c else b)) =
        false) ∧
    ∀ y : V, less d y (v b) = false →
      less d y
        (v (if s c ≠ St.Invalid ∧ less d (v b) (v c) = false then c else b)) =
        false := by
  by_cases h : s c ≠ St.Invalid ∧ less d (v b) (v c) = false
  · rw [if_pos h]
    exact ⟨h.1, h.2, fun _ => hswo.irr d (v c),
      fun y hy => hswo.ntr d y (v b) (v c) hy h.2⟩
  · rw [if_neg h]
    refine ⟨hlb, hswo.irr d (v b), ?_, fun y hy => hy⟩
    intro hc
    have ht : less d (v b) (v c) = true := by
      cases hcc : less d (v b) (v c)
      · exact absurd ⟨hc, hcc⟩ h
      · rfl
    exact hswo.asym ht

theorem minFrom_sel2 {less : Nat → V → V → Bool} (hswo : IsSWO less)
    {v : Nat → V} {s : Nat → St} {d : Nat} (b c : Nat)
    (hlb : s b ≠ St.Invalid) (hlc : s c ≠ St.Invalid) :
    s (if less d (v b) (v c) = true then b else c) ≠ St.Invalid ∧
    less d (v b) (v (if less d (v b) (v c) = true then b else c)) = false ∧
    less d (v c) (v (if less d (v b) (v c) = true then b else c)) = false ∧
    ∀ y : V, less d y (v b) = false →
      less d y (v (if less d (v b) (v c) = true then b else c)) = false := by
  by_cases h : less d (v b) (v c) = true
  · rw [if_pos h]
    exact ⟨hlb, hswo.irr d (v b), hswo.asym h, fun y hy => hy⟩
  · rw [if_neg h]
    have hf : less d (v b) (v c) = false := by
      cases hcc : less d (v b) (v c)
      · rfl
      · exact absurd hcc h
    exact ⟨hlc, hf, hswo.irr d (v c),
      fun y hy => hswo.ntr d y (v b) (v c) hy hf⟩

theorem minFrom_sound {K : Nat} {less : Nat → V → V → Bool}
    (hswo : IsSWO less) {v : Nat → V} {s : Nat → St} {fd : Nat} :
    ∀ (off nd node best : Nat),
      interiorLive s node off →
      kdInv K less v s nd node off →
      s best ≠ St.Invalid →
      less fd (v node) (v best) = false →
      s (minFrom K less v s fd nd off node best) ≠ St.Invalid ∧
      less fd (v best) (v (minFrom K less v s fd nd off node best)) = false ∧
      ∀ x ∈ subtree node off, s x ≠ St.Invalid →
        less fd (v x) (v (minFrom K less v s fd nd off node best)) = false := by
  intro off
  induction off using Nat.strong_induction_on with
  | _ off ih =>
    intro nd node best hIL hKD hlb hbn
    match off with
    | 0 =>
      simp only [minFrom]
      refine ⟨hlb, hswo.irr fd (v best), ?_⟩
      intro x hx hlx
      rw [subtree_zero] at hx
      simp only [List.mem_singleton] at hx
      subst hx
      exact hbn
    | 1 =>
      simp only [minFrom]
      set b1 := if s (node - 1) ≠ St.Invalid ∧
          less fd (v best) (v (node - 1)) = false then node - 1 else best
        with hb1e
      have hb1 : s b1 ≠ St.Invalid ∧ less fd (v best) (v b1) = false ∧
          (s (node - 1) ≠ St.Invalid →
            less fd (v (node - 1)) (v b1) = false) ∧
          ∀ y : V, less fd y (v best) = false → less fd y (v b1) = false := by
        rw [hb1e]
        exact minFrom_sel1 hswo best (node - 1) hlb
      set r := if s (node + 1) ≠ St.Invalid ∧
          less fd (v b1) (v (node + 1)) = false then node + 1 else b1
        with hre
      have hr : s r ≠ St.Invalid ∧ less fd (v b1) (v r) = false ∧
          (s (node + 1) ≠ St.Invalid →
            less fd (v (node + 1)) (v r) = false) ∧
          ∀ y : V, less fd y (v b1) = false → less fd y (v r) = false := by
        rw [hre]
        exact minFrom_sel1 hswo b1 (node + 1) hb1.1
      refine ⟨hr.1, hr.2.2.2 (v best) hb1.2.1, ?_⟩
      intro x hx hlx
      rcases mem_subtree_one hx with h | h | h
      · rw [h]
        exact hr.2.2.2 (v node) (hb1.2.2.2 (v node) hbn)
      · rw [h] at hlx ⊢
        exact hr.2.2.2 (v (node - 1)) (hb1.2.2.1 hlx)
      · rw [h] at hlx ⊢
        exact hr.2.2.1 hlx
    | o + 2 =>
      have hco : 1 ≤ (o + 2) / 2 := by omega
      have hIL2 : s node ≠ St.Invalid ∧
          interiorLive s (node - (o + 2)) ((o + 2) / 2) ∧
          interiorLive s (node + (o + 2)) ((o + 2) / 2) :=
        interiorLive_succ.mp hIL
      have hKD2 : (∀ j ∈ subtree (node - (o + 2)) ((o + 2) / 2),
            s j ≠ St.Invalid → less nd (v node) (v j) = false) ∧
          (∀ j ∈ subtree (node + (o + 2)) ((o + 2) / 2),
            s j ≠ St.Invalid → less nd (v j) (v node) = false) ∧
          kdInv K less v s (incd K nd) (node - (o + 2)) ((o + 2) / 2) ∧
          kdInv K less v s (incd K nd) (node + (o + 2)) ((o + 2) / 2) :=
        kdInv_succ.mp hKD
      have hlln : s (node - (o + 2)) ≠ St.Invalid :=
        interiorLive_root hco hIL2.2.1
      have hlrn : s (node + (o + 2)) ≠ St.Invalid :=
        interiorLive_root hco hIL2.2.2
      simp only [minFrom]
      set c1 := minFrom K less v s fd (incd K nd) ((o + 2) / 2)
        (node - (o + 2)) (node - (o + 2)) with hc1e
      have hc1 : s c1 ≠ St.Invalid ∧
          less fd (v (node - (o + 2))) (v c1) = false ∧
          ∀ x ∈ subtree (node - (o + 2)) ((o + 2) / 2), s x ≠ St.Invalid →
            less fd (v x) (v c1) = false := by
        rw [hc1e]
        exact ih ((o + 2) / 2) (by omega) (incd K nd) (node - (o + 2))
          (node - (o + 2)) hIL2.2.1 hKD2.2.2.1 hlln
          (hswo.irr fd (v (node - (o + 2))))
      set b1 := if less fd (v best) (v c1) = true then best else c1 with hb1e
      have hb1 : s b1 ≠ St.Invalid ∧ less fd (v best) (v b1) = false ∧
          less fd (v c1) (v b1) = false ∧
          ∀ y : V, less fd y (v best) = false → less fd y (v b1) = false := by
        rw [hb1e]
        exact minFrom_sel2 hswo best c1 hlb hc1.1
      by_cases hf : nd = fd
      · rw [if_pos hf]
        refine ⟨hb1.1, hb1.2.1, ?_⟩
        intro x hx hlx
        rcases mem_subtree_succ_iff.mp hx with h | hxl | hxr
        · rw [h]
          exact hb1.2.2.2 (v node) hbn
        · exact hswo.ntr fd (v x) (v c1) (v b1) (hc1.2.2 x hxl hlx) hb1.2.2.1
        · have hxn : less fd (v x) (v node) = false := by
            rw [← hf]; exact hKD2.2.1 x hxr hlx
          exact hb1.2.2.2 (v x) (hswo.ntr fd (v x) (v node) (v best) hxn hbn)
      · rw [if_neg hf]
        set b2 := if less fd (v b1) (v (node + (o + 2))) = true then b1
          else node + (o + 2) with hb2e
        have hb2 : s b2 ≠ St.Invalid ∧ less fd (v b1) (v b2) = false ∧
            less fd (v (node + (o + 2))) (v b2) = false ∧
            ∀ y : V, less fd y (v b1) = false → less fd y (v b2) = false := by
          rw [hb2e]
          exact minFrom_sel2 hswo b1 (node + (o + 2)) hb1.1 hlrn
        set r := minFrom K less v s fd (incd K nd) ((o + 2) / 2)
          (node + (o + 2)) b2 with hre
        have hr : s r ≠ St.Invalid ∧ less fd (v b2) (v r) = false ∧
            ∀ x ∈ subtree (node + (o + 2)) ((o + 2) / 2), s x ≠ St.Invalid →
              less fd (v x) (v r) = false := by
          rw [hre]
          exact ih ((o + 2) / 2) (by omega) (incd K nd) (node + (o + 2)) b2
            hIL2.2.2 hKD2.2.2.2 hb2.1 hb2.2.2.1
        have htr : ∀ y : V, less fd y (v b2) = false →
            less fd y (v r) = false := by
          intro y hy
          exact hswo.ntr fd y (v b2) (v r) hy hr.2.1
        refine ⟨hr.1, htr (v best) (hb2.2.2.2 (v best) hb1.2.1), ?_⟩
        intro x hx hlx
        rcases mem_subtree_succ_iff.mp hx with h | hxl | hxr
        · rw [h]
          exact htr (v node) (hb2.2.2.2 (v node) (hb1.2.2.2 (v node) hbn))
        · exact htr (v x) (hb2.2.2.2 (v x)
            (hswo.ntr fd (v x) (v c1) (v b1) (hc1.2.2 x hxl hlx) hb1.2.2.1))
        · exact hr.2.2 x hxr hlx


theorem maxFrom_mem {K : Nat} {less : Nat → V → V → Bool} {v : Nat → V}
    {s : Nat → St} {fd : Nat} :
    ∀ (off nd node best : Nat),
      maxFrom K less v s fd nd off node best = best ∨
        maxFrom K less v s fd nd off node best ∈ subtree node off := by
  intro off
  induction off using Nat.strong_induction_on with
  | _ off ih =>
    intro nd node best
    match off with
    | 0 => left; simp [maxFrom]
    | 1 =>
      simp only [maxFrom]
      split_ifs
      · right; exact mem_subtree_right le_rfl (by norm_num [subtree_zero])
      · right; exact mem_subtree_left le_rfl (by norm_num [subtree_zero])
      · right; exact mem_subtree_right le_rfl (by norm_num [subtree_zero])
      · left; rfl
    | o + 2 =>
      have hlnm : node - (o + 2) ∈ subtree node (o + 2) :=
        mem_subtree_left (by omega) (mem_subtree_self ..)
      have hrnm : node + (o + 2) ∈ subtree node (o + 2) :=
        mem_subtree_right (by omega) (mem_subtree_self ..)
      have hl : ∀ b : Nat,
          maxFrom K less v s fd (incd K nd) ((o + 2) / 2) (node + (o + 2)) b =
            b ∨
          maxFrom K less v s fd (incd K nd) ((o + 2) / 2) (node + (o + 2)) b ∈
            subtree node (o + 2) := by
        intro b
        rcases ih ((o + 2) / 2) (by omega) (incd K nd) (node + (o + 2)) b with
          h | h
        · exact Or.inl h
        · exact Or.inr (mem_subtree_right (by omega) h)
      have hr2 : ∀ b : Nat, (b = best ∨ b ∈ subtree node (o + 2)) →
          (maxFrom K less v s fd (incd K nd) ((o + 2) / 2) (node - (o + 2)) b =
              best ∨
            maxFrom K less v s fd (incd K nd) ((o + 2) / 2) (node - (o + 2)) b ∈
              subtree node (o + 2)) := by
        intro b hb
        rcases ih ((o + 2) / 2) (by omega) (incd K nd) (node - (o + 2)) b with
          h | h
        · rw [h]; exact hb
        · exact Or.inr (mem_subtree_left (by omega) h)
      simp only [maxFrom]
      by_cases h1 : nd = fd
      · rw [if_pos h1]
        split_ifs
        · left; rfl
        · rcases hl (node + (o + 2)) with h | h
          · right; rw [h]; exact hrnm
          · right; exact h
      · rw [if_neg h1]
        apply hr2
        split_ifs
        · left; rfl
        · right; exact hlnm
        · rcases hl (node + (o + 2)) with h | h
          · right; rw [h]; exact hrnm
          · right; exact h
        · right; exact hlnm

theorem maxFrom_sel1 {less : Nat → V → V → Bool} (hswo : IsSWO less)
    {v : Nat → V} {s : Nat → St} {d : Nat} (b c : Nat)
    (hlb : s b ≠ St.Invalid) :
    s (if s c ≠ St.Invalid ∧ less d (v c) (v b) = false then c else b) ≠
      St.Invalid ∧
    less d
      (v (if s c ≠ St.Invalid ∧ less d (v c) (v b) = false then c else b))
      (v b) = false ∧
    (s c ≠ St.Invalid →
      less d
        (v (if s c ≠ St.Invalid ∧ less d (v c) (v b) = false then c else b))
        (v c) = false) ∧
    ∀ y : V, less d (v b) y = false →
      less d
        (v (if s c ≠ St.Invalid ∧ less d (v c) (v b) = false then c else b))
        y = false := by
  by_cases h : s c ≠ St.Invalid ∧ less d (v c) (v b) = false
  · rw [if_pos h]
    exact ⟨h.1, h.2, fun _ => hswo.irr d (v c),
      fun y hy => hswo.ntr d (v c) (v b) y h.2 hy⟩
  · rw [if_neg h]
    refine ⟨hlb, hswo.irr d (v b), ?_, fun y hy => hy⟩
    intro hc
    have ht : less d (v c) (v b) = true := by
      cases hcc : less d (v c) (v b)
      · exact absurd ⟨hc, hcc⟩ h
      · rfl
    exact hswo.asym ht

theorem maxFrom_sel2 {less : Nat → V → V → Bool} (hswo : IsSWO less)
    {v : Nat → V} {s : Nat → St} {d : Nat} (b c : Nat)
    (hlb : s b ≠ St.Invalid) (hlc : s c ≠ St.Invalid) :
    s (if less d (v c) (v b) = true then b else c) ≠ St.Invalid ∧
    less d (v (if less d (v c) (v b) = true then b else c)) (v b) = false ∧
    less d (v (if less d (v c) (v b) = true then b else c)) (v c) = false ∧
    ∀ y : V, less d (v b) y = false →
      less d (v (if less d (v c) (v b) = true then b else c)) y = false := by
  by_cases h : less d (v c) (v b) = true
  · rw [if_pos h]
    exact ⟨hlb, hswo.irr d (v b), hswo.asym h, fun y hy => hy⟩
  · rw [if_neg h]
    have hf : less d (v c) (v b) = false := by
      cases hcc : less d (v c) (v b)
      · rfl
      · exact absurd hcc h
    exact ⟨hlc, hf, hswo.irr d (v c),
      fun y hy => hswo.ntr d (v c) (v b) y hf hy⟩

theorem maxFrom_sound {K : Nat} {less : Nat → V → V → Bool}
    (hswo : IsSWO less) {v : Nat → V} {s : Nat → St} {fd : Nat} :
    ∀ (off nd node best : Nat),
      interiorLive s node off →
      kdInv K less v s nd node off →
      s best ≠ St.Invalid →
      less fd (v best) (v node) = false →
      s (maxFrom K less v s fd nd off node best) ≠ St.Invalid ∧
      less fd (v (maxFrom K less v s fd nd off node best)) (v best) = false ∧
      ∀ x ∈ subtree node off, s x ≠ St.Invalid →
        less fd (v (maxFrom K less v s fd nd off node best)) (v x) = false := by
  intro off
  induction off using Nat.strong_induction_on with
  | _ off ih =>
    intro nd node best hIL hKD hlb hbn
    match off with
    | 0 =>
      simp only [maxFrom]
      refine ⟨hlb, hswo.irr fd (v best), ?_⟩
      intro x hx hlx
      rw [subtree_zero] at hx
      simp only [List.mem_singleton] at hx
      subst hx
      exact hbn
    | 1 =>
      simp only [maxFrom]
      set b1 := if s (node - 1) ≠ St.Invalid ∧
          less fd (v (node - 1)) (v best) = false then node - 1 else best
        with hb1e
      have hb1 : s b1 ≠ St.Invalid ∧ less fd (v b1) (v best) = false ∧
          (s (node - 1) ≠ St.Invalid →
            less fd (v b1) (v (node - 1)) = false) ∧
          ∀ y : V, less fd (v best) y = false → less fd (v b1) y = false := by
        rw [hb1e]
        exact maxFrom_sel1 hswo best (node - 1) hlb
      set r := if s (node + 1) ≠ St.Invalid ∧
          less fd (v (node + 1)) (v b1) = false then node + 1 else b1
        with hre
      have hr : s r ≠ St.Invalid ∧ less fd (v r) (v b1) = false ∧
          (s (node + 1) ≠ St.Invalid →
            less fd (v r) (v (node + 1)) = false) ∧
          ∀ y : V, less fd (v b1) y = false → less fd (v r) y = false := by
        rw [hre]
        exact maxFrom_sel1 hswo b1 (node + 1) hb1.1
      refine ⟨hr.1, hr.2.2.2 (v best) hb1.2.1, ?_⟩
      intro x hx hlx
      rcases mem_subtree_one hx with h | h | h
      · rw [h]
        exact hr.2.2.2 (v node) (hb1.2.2.2 (v node) hbn)
      · rw [h] at hlx ⊢
        exact hr.2.2.2 (v (node - 1)) (hb1.2.2.1 hlx)
      · rw [h] at hlx ⊢
        exact hr.2.2.1 hlx
    | o + 2 =>
      have hco : 1 ≤ (o + 2) / 2 := by omega
      have hIL2 : s node ≠ St.Invalid ∧
          interiorLive s (node - (o + 2)) ((o + 2) / 2) ∧
          interiorLive s (node + (o + 2)) ((o + 2) / 2) :=
        interiorLive_succ.mp hIL
      have hKD2 : (∀ j ∈ subtree (node - (o + 2)) ((o + 2) / 2),
            s j ≠ St.Invalid → less nd (v node) (v j) = false) ∧
          (∀ j ∈ subtree (node + (o + 2)) ((o + 2) / 2),
            s j ≠ St.Invalid → less nd (v j) (v node) = false) ∧
          kdInv K less v s (incd K nd) (node - (o + 2)) ((o + 2) / 2) ∧
          kdInv K less v s (incd K nd) (node + (o + 2)) ((o + 2) / 2) :=
        kdInv_succ.mp hKD
      have hlln : s (node - (o + 2)) ≠ St.Invalid :=
        interiorLive_root hco hIL2.2.1
      have hlrn : s (node + (o + 2)) ≠ St.Invalid :=
        interiorLive_root hco hIL2.2.2
      simp only [maxFrom]
      set c1 := maxFrom K less v s fd (incd K nd) ((o + 2) / 2)
        (node + (o + 2)) (node + (o + 2)) with hc1e
      have hc1 : s c1 ≠ St.Invalid ∧
          less fd (v c1) (v (node + (o + 2))) = false ∧
          ∀ x ∈ subtree (node + (o + 2)) ((o + 2) / 2), s x ≠ St.Invalid →
            less fd (v c1) (v x) = false := by
        rw [hc1e]
        exact ih ((o + 2) / 2) (by omega) (incd K nd) (node + (o + 2))
          (node + (o + 2)) hIL2.2.2 hKD2.2.2.2 hlrn
          (hswo.irr fd (v (node + (o + 2))))
      set b1 := if less fd (v c1) (v best) = true then best else c1 with hb1e
      have hb1 : s b1 ≠ St.Invalid ∧ less fd (v b1) (v best) = false ∧
          less fd (v b1) (v c1) = false ∧
          ∀ y : V, less fd (v best) y = false → less fd (v b1) y = false := by
        rw [hb1e]
        exact maxFrom_sel2 hswo best c1 hlb hc1.1
      by_cases hf : nd = fd
      · rw [if_pos hf]
        refine ⟨hb1.1, hb1.2.1, ?_⟩
        intro x hx hlx
        rcases mem_subtree_succ_iff.mp hx with h | hxl | hxr
        · rw [h]
          exact hb1.2.2.2 (v node) hbn
        · have hnx : less fd (v node) (v x) = false := by
            rw [← hf]; exact hKD2.1 x hxl hlx
          exact hswo.ntr fd (v b1) (v node) (v x)
            (hb1.2.2.2 (v node) hbn) hnx
        · exact hswo.ntr fd (v b1) (v c1) (v x) hb1.2.2.1
            (hc1.2.2 x hxr hlx)
      · rw [if_neg hf]
        set b2 := if less fd (v (node - (o + 2))) (v b1) = true then b1
          else node - (o + 2) with hb2e
        have hb2 : s b2 ≠ St.Invalid ∧ less fd (v b2) (v b1) = false ∧
            less fd (v b2) (v (node - (o + 2))) = false ∧
            ∀ y : V, less fd (v b1) y = false → less fd (v b2) y = false := by
          rw [hb2e]
          exact maxFrom_sel2 hswo b1 (node - (o + 2)) hb1.1 hlln
        set r := maxFrom K less v s fd (incd K nd) ((o + 2) / 2)
          (node - (o + 2)) b2 with hre
        have hr : s r ≠ St.Invalid ∧ less fd (v r) (v b2) = false ∧
            ∀ x ∈ subtree (node - (o + 2)) ((o + 2) / 2), s x ≠ St.Invalid →
              less fd (v r) (v x) = false := by
          rw [hre]
          exact ih ((o + 2) / 2) (by omega) (incd K nd) (node - (o + 2)) b2
            hIL2.2.1 hKD2.2.2.1 hb2.1 hb2.2.2.1
        have htr : ∀ y : V, less fd (v b2) y = false →
            less fd (v r) y = false := by
          intro y hy
          exact hswo.ntr fd (v r) (v b2) y hr.2.1 hy
        refine ⟨hr.1, htr (v best) (hb2.2.2.2 (v best) hb1.2.1), ?_⟩
        intro x hx hlx
        rcases mem_subtree_succ_iff.mp hx with h | hxl | hxr
        · rw [h]
          exact htr (v node) (hb2.2.2.2 (v node) (hb1.2.2.2 (v node) hbn))
        · exact hr.2.2 x hxl hlx
        · exact htr (v x) (hb2.2.2.2 (v x)
            (hswo.ntr fd (v b1) (v c1) (v x) hb1.2.2.1 (hc1.2.2 x hxr hlx)))

theorem lessInt_swo : IsSWO lessInt := by
  constructor
  · intro d a
    simp [lessInt]
  · intro d a b c hab hbc
    simp only [lessInt, decide_eq_true_eq] at *
    omega
  · intro d a b c hab hbc
    simp only [lessInt, decide_eq_false_iff_not] at *
    omega

/-- Claim C4 (counterexample): in the 3-slot subtree rooted at slot 1
with both slot 1 and slot 0 live and holding the value 5 (slot 2
Invalid), the root is the first-encountered candidate, both tie on the
fixed axis, yet `minimum` returns slot 0 — the tie goes to the
later-encountered candidate, not the first-encountered one. -/
theorem claim_C4_counterexample :
    sTie 1 ≠ St.Invalid ∧ sTie 0 ≠ St.Invalid ∧
    lessInt 0 (vTie 0) (vTie 1) = false ∧
    lessInt 0 (vTie 1) (vTie 0) = false ∧
    minFrom 1 lessInt vTie sTie 0 0 1 1 1 = 0 ∧ (0 : Nat) ≠ 1 := by
  refine ⟨by decide, by decide, by decide, by decide, ?_, by decide⟩
  norm_num [minFrom, vTie, sTie, lessInt]
  decide

/-- Claim C4 (amended): for every subtree whose root is live and that
satisfies the interior-liveness and k-d ordering invariants, and every
fixed axis, `minimum` returns a live slot of the subtree whose value is
less than or equal to every live value of the subtree on that axis, and
`maximum` symmetrically returns a live slot greater than or equal to
every live value; among values tied for the extremum the result may be
a later-encountered candidate rather than the first-encountered one. -/
theorem claim_C4 : ∀ (V : Type) (K : Nat) (less : Nat → V → V → Bool),
    IsSWO less → ∀ (v : Nat → V) (s : Nat → St) (fd nd off node : Nat),
    interiorLive s node off →
    kdInv K less v s nd node off →
    s node ≠ St.Invalid →
    (minFrom K less v s fd nd off node node ∈ subtree node off ∧
     s (minFrom K less v s fd nd off node node) ≠ St.Invalid ∧
     ∀ x ∈ subtree node off, s x ≠ St.Invalid →
       less fd (v x) (v (minFrom K less v s fd nd off node node)) = false) ∧
    (maxFrom K less v s fd nd off node node ∈ subtree node off ∧
     s (maxFrom K less v s fd nd off node node) ≠ St.Invalid ∧
     ∀ x ∈ subtree node off, s x ≠ St.Invalid →
       less fd (v (maxFrom K less v s fd nd off node node)) (v x) = false) := by
  intro V K less hswo v s fd nd off node hIL hKD hln
  obtain ⟨hminl, _, hmincov⟩ :=
    minFrom_sound hswo off nd node node hIL hKD hln (hswo.irr fd (v node))
  obtain ⟨hmaxl, _, hmaxcov⟩ :=
    maxFrom_sound hswo off nd node node hIL hKD hln (hswo.irr fd (v node))
  refine ⟨⟨?_, hminl, hmincov⟩, ⟨?_, hmaxl, hmaxcov⟩⟩
  · rcases minFrom_mem off nd node node with h | h
    · rw [h]; exact mem_subtree_self ..
    · exact h
  · rcases maxFrom_mem off nd node node with h | h
    · rw [h]; exact mem_subtree_self ..
    · exact h

theorem claim_C4_witness :
    (minFrom 1 lessInt vTie sTie 0 0 0 1 1 ∈ subtree 1 0 ∧
     sTie (minFrom 1 lessInt vTie sTie 0 0 0 1 1) ≠ St.Invalid ∧
     ∀ x ∈ subtree 1 0, sTie x ≠ St.Invalid →
       lessInt 0 (vTie x) (vTie (minFrom 1 lessInt vTie sTie 0 0 0 1 1)) =
         false) ∧
    (maxFrom 1 lessInt vTie sTie 0 0 0 1 1 ∈ subtree 1 0 ∧
     sTie (maxFrom 1 lessInt vTie sTie 0 0 0 1 1) ≠ St.Invalid ∧
     ∀ x ∈ subtree 1 0, sTie x ≠ St.Invalid →
       lessInt 0 (vTie (maxFrom 1 lessInt vTie sTie 0 0 0 1 1)) (vTie x) =
         false) :=
  claim_C4 Int 1 lessInt lessInt_swo vTie sTie 0 0 0 1
    (by simp [interiorLive]) (by simp [kdInv]) (by decide)

/-! Pointwise updates, congruence of the structural predicates over the
slots they read, and basic facts about `stAdd` and the balance layer. -/

theorem updf_self {α : Type u} (f : Nat → α) (i : Nat) (a : α) :
    updf f i a i = a := by simp [updf]

theorem updf_ne {α : Type u} (f : Nat → α) {i j : Nat} (a : α)
    (h : j ≠ i) : updf f i a j = f j := by simp [updf, h]

theorem allLive_congr {s1 s2 : Nat → St} {n o : Nat}
    (h : ∀ j ∈ subtree n o, s1 j = s2 j) :
    allLive s1 n o ↔ allLive s2 n o := by
  unfold allLive
  constructor <;> intro ha j hj
  · rw [← h j hj]; exact ha j hj
  · rw [h j hj]; exact ha j hj

theorem cnt_congr {s1 s2 : Nat → St} {n o : Nat}
    (h : ∀ j ∈ subtree n o, s1 j = s2 j) : cnt s1 n o = cnt s2 n o := by
  unfold cnt
  congr 1
  apply List.filter_congr
  intro j hj
  rw [h j hj]

theorem interiorLive_congr {s1 s2 : Nat → St} :
    ∀ (o n : Nat), (∀ j ∈ subtree n o, s1 j = s2 j) →
      interiorLive s1 n o → interiorLive s2 n o := by
  intro o
  induction o using Nat.strong_induction_on with
  | _ o ih =>
    intro n h hi
    rcases o with _ | q
    · exact interiorLive_zero
    · have h1 : 1 ≤ q + 1 := by omega
      rw [interiorLive_succ] at hi ⊢
      refine ⟨?_, ?_, ?_⟩
      · rw [← h n (mem_subtree_self ..)]; exact hi.1
      · exact ih ((q + 1) / 2) (by omega) (n - (q + 1))
          (fun j hj => h j (mem_subtree_left h1 hj)) hi.2.1
      · exact ih ((q + 1) / 2) (by omega) (n + (q + 1))
          (fun j hj => h j (mem_subtree_right h1 hj)) hi.2.2

theorem kdInv_congr {K : Nat} {less : Nat → V → V → Bool}
    {v1 v2 : Nat → V} {s1 s2 : Nat → St} :
    ∀ (o nd n : Nat), (∀ j ∈ subtree n o, v1 j = v2 j) →
      (∀ j ∈ subtree n o, s1 j = s2 j) →
      kdInv K less v1 s1 nd n o → kdInv K less v2 s2 nd n o := by
  intro o
  induction o using Nat.strong_induction_on with
  | _ o ih =>
    intro nd n hv hs hk
    rcases o with _ | q
    · exact kdInv_zero
    · have h1 : 1 ≤ q + 1 := by omega
      have hvn : v1 n = v2 n := hv n (mem_subtree_self ..)
      rw [kdInv_succ] at hk ⊢
      refine ⟨?_, ?_, ?_, ?_⟩
      · intro j hj hlj
        rw [← hvn, ← hv j (mem_subtree_left h1 hj)]
        exact hk.1 j hj (by rw [hs j (mem_subtree_left h1 hj)]; exact hlj)
      · intro j hj hlj
        rw [← hvn, ← hv j (mem_subtree_right h1 hj)]
        exact hk.2.1 j hj (by rw [hs j (mem_subtree_right h1 hj)]; exact hlj)
      · exact ih ((q + 1) / 2) (by omega) (incd K nd) (n - (q + 1))
          (fun j hj => hv j (mem_subtree_left h1 hj))
          (fun j hj => hs j (mem_subtree_left h1 hj)) hk.2.2.1
      · exact ih ((q + 1) / 2) (by omega) (incd K nd) (n + (q + 1))
          (fun j hj => hv j (mem_subtree_right h1 hj))
          (fun j hj => hs j (mem_subtree_right h1 hj)) hk.2.2.2

theorem stAcc_congr {fullSt : St} {s1 s2 : Nat → St} :
    ∀ (o n : Nat), (∀ j ∈ subtree n o, s1 j = s2 j) →
      stAcc fullSt s1 n o → stAcc fullSt s2 n o := by
  intro o
  induction o using Nat.strong_induction_on with
  | _ o ih =>
    intro n h ha
    rcases o with _ | q
    · rw [stAcc_zero] at ha ⊢
      rw [← h n (mem_subtree_self ..)]
      exact ha
    · have h1 : 1 ≤ q + 1 := by omega
      rw [stAcc_succ] at ha ⊢
      refine ⟨?_, ?_, ?_⟩
      · rw [← h n (mem_subtree_self ..), ← allLive_congr h]
        exact ha.1
      · exact ih ((q + 1) / 2) (by omega) (n - (q + 1))
          (fun j hj => h j (mem_subtree_left h1 hj)) ha.2.1
      · exact ih ((q + 1) / 2) (by omega) (n + (q + 1))
          (fun j hj => h j (mem_subtree_right h1 hj)) ha.2.2

theorem lheight_congr {s1 s2 : Nat → St} :
    ∀ (o n : Nat), (∀ j ∈ subtree n o, s1 j = s2 j) →
      lheight s1 n o = lheight s2 n o := by
  intro o
  induction o using Nat.strong_induction_on with
  | _ o ih =>
    intro n h
    rcases o with _ | q
    · simp only [lheight]
      rw [h n (mem_subtree_self ..)]
    · have h1 : 1 ≤ q + 1 := by omega
      simp only [lheight]
      rw [h n (mem_subtree_self ..),
        ih ((q + 1) / 2) (by omega) (n - (q + 1))
          (fun j hj => h j (mem_subtree_left h1 hj)),
        ih ((q + 1) / 2) (by omega) (n + (q + 1))
          (fun j hj => h j (mem_subtree_right h1 hj))]

theorem interiorLive_of_allLive {s : Nat → St} :
    ∀ (o n : Nat), allLive s n o → interiorLive s n o := by
  intro o
  induction o using Nat.strong_induction_on with
  | _ o ih =>
    intro n h
    rcases o with _ | q
    · exact interiorLive_zero
    · rw [allLive_succ_iff] at h
      exact interiorLive_succ.mpr ⟨h.1, ih ((q + 1) / 2) (by omega) _ h.2.1,
        ih ((q + 1) / 2) (by omega) _ h.2.2⟩

theorem stAdd_ne_invalid {a b : St} (ha : a ≠ St.Invalid)
    (hb : b ≠ St.Invalid) : stAdd a b ≠ St.Invalid := by
  unfold stAdd
  split_ifs with h
  · exact ha
  · intro hc
    exact absurd hc (by decide)

theorem stAdd_eq_iff {f a b : St} (hf : f ≠ St.Unsure) :
    stAdd a b = f ↔ a = f ∧ b = f := by
  unfold stAdd
  split_ifs with h
  · subst h
    constructor
    · intro hh; exact ⟨hh, hh⟩
    · intro hh; exact hh.1
  · constructor
    · intro hh; exact absurd hh.symm hf
    · intro hh; exact absurd (hh.1.trans hh.2.symm) h

theorem cref_eq_of_agree {v1 v2 : Nat → V} {p : Pend V} {n o : Nat}
    (hp : pendOK p n o) (h : ∀ j, j ∉ subtree n o → v1 j = v2 j) :
    Pend.cref v1 p = Pend.cref v2 p := by
  cases p with
  | user x => rfl
  | buf i => exact h i hp

theorem pendOK_left {p : Pend V} {n o : Nat} (h1 : 1 ≤ o)
    (hp : pendOK p n o) : pendOK p (n - o) (o / 2) := by
  cases p with
  | user x => trivial
  | buf i =>
    intro hmem
    exact hp (mem_subtree_left h1 hmem)

theorem pendOK_right {p : Pend V} {n o : Nat} (h1 : 1 ≤ o)
    (hp : pendOK p n o) : pendOK p (n + o) (o / 2) := by
  cases p with
  | user x => trivial
  | buf i =>
    intro hmem
    exact hp (mem_subtree_right h1 hmem)

theorem pendOK_buf_left {n o : Nat} (h1 : 1 ≤ o) (hw : wfPos n o) :
    pendOK (Pend.buf n : Pend V) (n - o) (o / 2) := by
  intro hmem
  exact absurd (mem_left_lt h1 hw hmem) (by omega)

theorem pendOK_buf_right {n o : Nat} (h1 : 1 ≤ o) :
    pendOK (Pend.buf n : Pend V) (n + o) (o / 2) := by
  intro hmem
  exact absurd (mem_right_gt h1 hmem) (by omega)

/-! The balance invariant follows structurally from interior liveness. -/

theorem dpf_zero : dpf 0 = 0 := by simp [dpf]

theorem dpf_succ (q : Nat) : dpf (q + 1) = 1 + dpf ((q + 1) / 2) := by
  simp [dpf]

theorem lheight_le_dpf {s : Nat → St} :
    ∀ (o n : Nat), lheight s n o ≤ dpf o + 1 := by
  intro o
  induction o using Nat.strong_induction_on with
  | _ o ih =>
    intro n
    rcases o with _ | q
    · simp only [lheight, dpf_zero]
      split_ifs <;> omega
    · simp only [lheight, dpf_succ]
      split_ifs
      · omega
      · have h1 := ih ((q + 1) / 2) (by omega) (n - (q + 1))
        have h2 := ih ((q + 1) / 2) (by omega) (n + (q + 1))
        omega

theorem dpf_le_lheight {s : Nat → St} :
    ∀ (o n : Nat), interiorLive s n o → dpf o ≤ lheight s n o := by
  intro o
  induction o using Nat.strong_induction_on with
  | _ o ih =>
    intro n h
    rcases o with _ | q
    · simp [dpf_zero]
    · rw [interiorLive_succ] at h
      have h1 := ih ((q + 1) / 2) (by omega) (n - (q + 1)) h.2.1
      have h2 : lheight s (n - (q + 1)) ((q + 1) / 2) ≤
          max (lheight s (n - (q + 1)) ((q + 1) / 2))
            (lheight s (n + (q + 1)) ((q + 1) / 2)) := le_max_left ..
      simp only [lheight, dpf_succ]
      rw [if_neg h.1]
      omega

theorem posL_zero (n : Nat) : posL n 0 = [(n, 0)] := by simp [posL]

theorem posL_succ (n q : Nat) :
    posL n (q + 1) = (n, q + 1) :: (posL (n - (q + 1)) ((q + 1) / 2) ++
      posL (n + (q + 1)) ((q + 1) / 2)) := by
  simp [posL]

theorem balancedAll_of_interiorLive {s : Nat → St} :
    ∀ (o n : Nat), interiorLive s n o → balancedAll s n o := by
  intro o
  induction o using Nat.strong_induction_on with
  | _ o ih =>
    intro n h
    rcases o with _ | q
    · intro p hp hpos _
      rw [posL_zero] at hp
      simp only [List.mem_singleton] at hp
      subst hp
      simp at hpos
    · rw [interiorLive_succ] at h
      intro p hp hpos hlive
      rw [posL_succ] at hp
      simp only [List.mem_cons, List.mem_append] at hp
      rcases hp with rfl | hp | hp
      · dsimp only
        have hl1 := dpf_le_lheight ((q + 1) / 2) (n - (q + 1)) h.2.1
        have hl2 := dpf_le_lheight ((q + 1) / 2) (n + (q + 1)) h.2.2
        have hu1 := lheight_le_dpf (s := s) ((q + 1) / 2) (n - (q + 1))
        have hu2 := lheight_le_dpf (s := s) ((q + 1) / 2) (n + (q + 1))
        constructor <;> omega
      · exact ih ((q + 1) / 2) (by omega) (n - (q + 1)) h.2.1 p hp hpos hlive
      · exact ih ((q + 1) / 2) (by omega) (n + (q + 1)) h.2.2 p hp hpos hlive

/-! Geometry of the root position for a live region of `2^k - 1`
slots. -/

theorem szf_zero : szf 0 = 1 := by simp [szf]

theorem szf_succ (q : Nat) : szf (q + 1) = 1 + 2 * szf ((q + 1) / 2) := by
  simp [szf]

theorem szf_two_pow (j : Nat) : szf (2 ^ j) = 2 ^ (j + 2) - 1 := by
  induction j with
  | zero =>
    have h1 := szf_succ 0
    norm_num at h1
    rw [szf_zero] at h1
    norm_num [h1]
  | succ j ih =>
    have hone : 1 ≤ (2:Nat) ^ (j + 1) := Nat.one_le_two_pow
    have he : 2 ^ (j + 1) - 1 + 1 = 2 ^ (j + 1) := by omega
    have hs := szf_succ (2 ^ (j + 1) - 1)
    rw [he, two_pow_succ_div_two] at hs
    rw [hs, ih]
    have hp : (2:Nat) ^ (j + 1 + 2) = 2 ^ (j + 2) * 2 := by
      rw [← pow_succ]
    have hq : 1 ≤ (2:Nat) ^ (j + 2) := Nat.one_le_two_pow
    omega

theorem rootOffset_span (k : Nat) :
    rootOffset (2 ^ k - 1) = 2 ^ k / 4 := by
  unfold rootOffset
  have : 1 ≤ (2:Nat) ^ k := Nat.one_le_two_pow
  congr 1
  omega

theorem rootOffset_one : rootOffset 1 = 0 := by norm_num [rootOffset]

theorem rootOffset_pow (m : Nat) :
    rootOffset (2 ^ (2 + m) - 1) = 2 ^ m := by
  rw [rootOffset_span]
  have h4 : (2:Nat) ^ (2 + m) = 2 ^ m * 4 := by
    rw [pow_add]
    ring
  rw [h4, Nat.mul_div_cancel]
  norm_num

theorem szf_rootOffset (k : Nat) (h : 1 ≤ k) :
    szf (rootOffset (2 ^ k - 1)) = 2 ^ k - 1 := by
  rcases Nat.lt_or_ge k 2 with h2 | h2
  · have hk : k = 1 := by omega
    subst hk
    norm_num [rootOffset_one, szf_zero]
  · rcases Nat.exists_eq_add_of_le h2 with ⟨m, hm⟩
    subst hm
    rw [rootOffset_pow, szf_two_pow]
    have h5 : (2:Nat) ^ (m + 2) = 2 ^ m * 4 := by
      rw [pow_add]
      ring
    have h6 : (2:Nat) ^ (2 + m) = 2 ^ m * 4 := by
      rw [pow_add]
      ring
    omega

theorem rootIx_span (k : Nat) (h : 1 ≤ k) :
    rootIx (2 ^ k - 1) = 2 ^ (k - 1) - 1 := by
  unfold rootIx
  rcases Nat.exists_eq_add_of_le h with ⟨m, hm⟩
  subst hm
  have he : 1 + m - 1 = m := by omega
  rw [he]
  have h2 : (2:Nat) ^ (1 + m) = 2 * 2 ^ m := by
    rw [pow_add]
    ring
  have h3 : 1 ≤ (2:Nat) ^ m := Nat.one_le_two_pow
  omega

theorem wf_root (k : Nat) (h : 1 ≤ k) :
    wfPos (rootIx (2 ^ k - 1)) (rootOffset (2 ^ k - 1)) := by
  unfold wfPos
  rcases Nat.lt_or_ge k 2 with h2 | h2
  · have hk : k = 1 := by omega
    subst hk
    norm_num [rootOffset_one, bndf_zero, rootIx_span 1 le_rfl]
  · rcases Nat.exists_eq_add_of_le h2 with ⟨m, hm⟩
    subst hm
    rw [rootOffset_pow, bndf_two_pow, rootIx_span (2 + m) (by omega)]
    have he : 2 + m - 1 = m + 1 := by omega
    rw [he]

theorem isPG_root (k : Nat) (h : 1 ≤ k) :
    isPG (rootOffset (2 ^ k - 1)) := by
  rcases Nat.lt_or_ge k 2 with h2 | h2
  · have hk : k = 1 := by omega
    subst hk
    rw [show (2:Nat) ^ 1 - 1 = 1 from by norm_num, rootOffset_one]
    exact Or.inl rfl
  · rcases Nat.exists_eq_add_of_le h2 with ⟨m, hm⟩
    subst hm
    rw [rootOffset_pow]
    exact Or.inr ⟨m, rfl⟩

theorem root_coverage (k j : Nat) (h : 1 ≤ k) (hj : j < 2 ^ k - 1) :
    j ∈ subtree (rootIx (2 ^ k - 1)) (rootOffset (2 ^ k - 1)) := by
  rcases Nat.lt_or_ge k 2 with h2 | h2
  · have hk : k = 1 := by omega
    subst hk
    norm_num at hj
    have hj0 : j = 0 := by omega
    subst hj0
    rw [show (2:Nat) ^ 1 - 1 = 1 from by norm_num, rootOffset_one]
    norm_num [rootIx, subtree_zero]
  · rcases Nat.exists_eq_add_of_le h2 with ⟨m, hm⟩
    subst hm
    rw [rootOffset_pow, rootIx_span (2 + m) (by omega)]
    have he : 2 + m - 1 = m + 1 := by omega
    rw [he]
    have hw : wfPos (2 ^ (m + 1) - 1) (2 ^ m) := by
      unfold wfPos
      rw [bndf_two_pow]
    have h1 : 1 ≤ (2:Nat) ^ (m + 1) := Nat.one_le_two_pow
    have h6 : (2:Nat) ^ (2 + m) = 2 * 2 ^ (m + 1) := by
      rw [pow_add, pow_add]
      ring
    exact subtree_interval_pg hw (by omega) (by omega)

theorem root_subtree_lt (k j : Nat) (h : 1 ≤ k)
    (hj : j ∈ subtree (rootIx (2 ^ k - 1)) (rootOffset (2 ^ k - 1))) :
    j < 2 ^ k - 1 := by
  have hb := subtree_bounds (wf_root k h) hj
  rcases Nat.lt_or_ge k 2 with h2 | h2
  · have hk : k = 1 := by omega
    subst hk
    norm_num [rootIx, rootOffset_one, bndf_zero] at hb
    norm_num
    omega
  · rcases Nat.exists_eq_add_of_le h2 with ⟨m, hm⟩
    subst hm
    rw [rootOffset_pow, bndf_two_pow, rootIx_span (2 + m) (by omega)] at hb
    have he : 2 + m - 1 = m + 1 := by omega
    rw [he] at hb
    have h1 : 1 ≤ (2:Nat) ^ (m + 1) := Nat.one_le_two_pow
    have h6 : (2:Nat) ^ (2 + m) = 2 * 2 ^ (m + 1) := by
      rw [pow_add, pow_add]
      ring
    omega

/-! Unfolded forms of the structural predicates at offset 1, where the
two children are leaves. -/

theorem subtree_one (n : Nat) : subtree n 1 = [n, n - 1, n + 1] := by
  simp [subtree]

theorem interiorLive_one {s : Nat → St} {n : Nat} :
    interiorLive s n 1 ↔ s n ≠ St.Invalid := by
  simp [interiorLive]

theorem allLive_one {s : Nat → St} {n : Nat} :
    allLive s n 1 ↔
      s n ≠ St.Invalid ∧ s (n - 1) ≠ St.Invalid ∧
        s (n + 1) ≠ St.Invalid := by
  unfold allLive
  rw [subtree_one]
  simp only [List.mem_cons, List.not_mem_nil, or_false]
  constructor
  · intro h
    exact ⟨h n (Or.inl rfl), h (n - 1) (Or.inr (Or.inl rfl)),
      h (n + 1) (Or.inr (Or.inr rfl))⟩
  · rintro ⟨h1, h2, h3⟩ j (rfl | rfl | rfl)
    · exact h1
    · exact h2
    · exact h3

theorem kdInv_one {K : Nat} {less : Nat → V → V → Bool} {v : Nat → V}
    {s : Nat → St} {nd n : Nat} :
    kdInv K less v s nd n 1 ↔
      (s (n - 1) ≠ St.Invalid → less nd (v n) (v (n - 1)) = false) ∧
      (s (n + 1) ≠ St.Invalid → less nd (v (n + 1)) (v n) = false) := by
  simp [kdInv, subtree_zero]

theorem stAcc_one {fullSt : St} {s : Nat → St} {n : Nat} :
    stAcc fullSt s n 1 ↔
      (s n = fullSt ↔ allLive s n 1) ∧
      (s (n - 1) = fullSt ↔ s (n - 1) ≠ St.Invalid) ∧
      (s (n + 1) = fullSt ↔ s (n + 1) ≠ St.Invalid) := by
  simp [stAcc]

theorem cnt_one (s : Nat → St) (n : Nat) :
    cnt s n 1 =
      (if s n = St.Invalid then 0 else 1) +
      (if s (n - 1) = St.Invalid then 0 else 1) +
      (if s (n + 1) = St.Invalid then 0 else 1) := by
  unfold cnt
  rw [subtree_one]
  by_cases h1 : s n = St.Invalid <;> by_cases h2 : s (n - 1) = St.Invalid <;>
    by_cases h3 : s (n + 1) = St.Invalid <;>
      simp [List.filter, h1, h2, h3]

theorem stAcc_head {fullSt : St} {s : Nat → St} {n o : Nat}
    (h : stAcc fullSt s n o) : s n = fullSt ↔ allLive s n o := by
  rcases o with _ | q
  · rw [stAcc_zero] at h
    rw [allLive_zero_iff]
    exact h
  · exact (stAcc_succ.mp h).1

theorem mem_one_self (n : Nat) : n ∈ subtree n 1 := mem_subtree_self ..

theorem mem_one_left (n : Nat) : n - 1 ∈ subtree n 1 := by
  rw [subtree_one]
  simp

theorem mem_one_right (n : Nat) : n + 1 ∈ subtree n 1 := by
  rw [subtree_one]
  simp

/-! The master lemma for `_erase_when_full`: on a full, well-placed
subtree it removes exactly the value at `tgt` and restores every
structural invariant. -/

theorem eraseWhenFull_spec {K : Nat} {less : Nat → V → V → Bool}
    (hswo : IsSWO less) {fullSt : St}
    (hfull : fullSt = St.Heads ∨ fullSt = St.Tails) :
    ∀ (off node tgt nd : Nat) (v : Nat → V) (s : Nat → St),
      wfPos node off → allLive s node off → tgt ∈ subtree node off →
      kdInv K less v s nd node off → stAcc fullSt s node off →
      erasedOK K less fullSt nd node off tgt v s
        (eraseWhenFull K less nd off node tgt v s).1
        (eraseWhenFull K less nd off node tgt v s).2 := by
  have hfI : fullSt ≠ St.Invalid := by
    rcases hfull with rfl | rfl <;> decide
  have hfU : fullSt ≠ St.Unsure := by
    rcases hfull with rfl | rfl <;> decide
  intro off
  induction off using Nat.strong_induction_on with
  | _ off ih =>
    intro node tgt nd v s hw hall htgt hkd hacc
    match off with
    | 0 =>
      have htn : tgt = node := by
        rw [subtree_zero] at htgt
        simpa using htgt
      have hlive : s node ≠ St.Invalid := allLive_zero_iff.mp hall
      rw [htn]
      have hre : eraseWhenFull K less nd 0 node node v s =
          (v, updf s node St.Invalid) := by
        simp only [eraseWhenFull]
      rw [hre]
      show erasedOK K less fullSt nd node 0 node v s v
        (updf s node St.Invalid)
      unfold erasedOK
      refine ⟨?_, interiorLive_zero, kdInv_zero, ?_, ?_, ?_, ?_⟩
      · intro j hj
        rw [subtree_zero] at hj
        simp only [List.mem_singleton] at hj
        exact ⟨rfl, updf_ne s St.Invalid hj⟩
      · rw [cnt_zero, cnt_zero, updf_self, if_pos rfl, if_neg hlive]
      · rw [stAcc_zero, updf_self]
        constructor
        · intro h
          exact absurd h.symm hfI
        · intro h
          exact absurd rfl h
      · intro j hj _
        rw [subtree_zero] at hj
        simp only [List.mem_singleton] at hj
        subst hj
        exact Or.inr rfl
      · intro j hj hlj
        rw [subtree_zero] at hj
        simp only [List.mem_singleton] at hj
        subst hj
        rw [updf_self] at hlj
        exact absurd rfl hlj
    | 1 =>
      have hn1 : 1 ≤ node := by
        have hb := bndf_one
        unfold wfPos at hw
        omega
      have hall1 : s node ≠ St.Invalid ∧ s (node - 1) ≠ St.Invalid ∧
          s (node + 1) ≠ St.Invalid := allLive_one.mp hall
      have hkd1 := kdInv_one.mp hkd
      have hacc1 := stAcc_one.mp hacc
      by_cases hnt : node = tgt
      · subst hnt
        have hre : eraseWhenFull K less nd 1 node node v s =
            (updf v node (v (node + 1)),
             updf (updf s (node + 1) St.Invalid) node St.Unsure) := by
          simp only [eraseWhenFull]
          simp
        rw [hre]
        show erasedOK K less fullSt nd node 1 node v s
          (updf v node (v (node + 1)))
          (updf (updf s (node + 1) St.Invalid) node St.Unsure)
        unfold erasedOK
        have hs2n : updf (updf s (node + 1) St.Invalid) node St.Unsure node =
            St.Unsure := updf_self ..
        have hs2r : updf (updf s (node + 1) St.Invalid) node St.Unsure
            (node + 1) = St.Invalid := by
          rw [updf_ne _ _ (by omega), updf_self]
        have hs2l : updf (updf s (node + 1) St.Invalid) node St.Unsure
            (node - 1) = s (node - 1) := by
          rw [updf_ne _ _ (by omega), updf_ne _ _ (by omega)]
        have hv2n : updf v node (v (node + 1)) node = v (node + 1) :=
          updf_self ..
        have hv2l : updf v node (v (node + 1)) (node - 1) = v (node - 1) :=
          updf_ne _ _ (by omega)
        refine ⟨?_, ?_, ?_, ?_, ?_, ?_, ?_⟩
        · intro j hj
          rw [subtree_one] at hj
          simp only [List.mem_cons, List.not_mem_nil, or_false] at hj
          push_neg at hj
          exact ⟨updf_ne _ _ hj.1,
            by rw [updf_ne _ _ hj.1, updf_ne _ _ hj.2.2]⟩
        · rw [interiorLive_one, hs2n]
          decide
        · rw [kdInv_one]
          constructor
          · intro hl
            rw [hs2l] at hl
            rw [hv2n, hv2l]
            exact hswo.ntr nd (v (node + 1)) (v node) (v (node - 1))
              (hkd1.2 hall1.2.2) (hkd1.1 hl)
          · intro hr
            rw [hs2r] at hr
            exact absurd rfl hr
        · rw [cnt_one, cnt_one, hs2n, hs2l, hs2r,
            if_neg (by decide : ¬ (St.Unsure = St.Invalid)), if_pos rfl,
            if_neg hall1.1, if_neg hall1.2.1, if_neg hall1.2.2]
        · rw [stAcc_one]
          refine ⟨?_, ?_, ?_⟩
          · rw [hs2n, allLive_one, hs2r]
            constructor
            · intro h
              exact absurd h.symm hfU
            · intro h
              exact absurd rfl h.2.2
          · rw [hs2l]
            exact hacc1.2.1
          · rw [hs2r]
            constructor
            · intro h
              exact absurd h.symm hfI
            · intro h
              exact absurd rfl h
        · intro j hj hlj
          rcases mem_subtree_one hj with h | rfl | rfl
          · exact Or.inr (by rw [h])
          · exact Or.inl ⟨node - 1, mem_one_left node,
              by rw [hs2l]; exact hlj, hv2l⟩
          · exact Or.inl ⟨node, mem_one_self node,
              by rw [hs2n]; decide, hv2n⟩
        · intro j hj hlj
          rcases mem_subtree_one hj with h | rfl | rfl
          · exact ⟨node + 1, mem_one_right node, hall1.2.2,
              by rw [h]; exact hv2n⟩
          · exact ⟨node - 1, mem_one_left node, hall1.2.1, hv2l⟩
          · rw [hs2r] at hlj
            exact absurd rfl hlj
      · have htln : tgt = node - 1 ∨ tgt = node + 1 := by
          rcases mem_subtree_one htgt with h | h | h
          · exact absurd h.symm hnt
          · exact Or.inl h
          · exact Or.inr h
        rcases htln with rfl | rfl
        · have hre : eraseWhenFull K less nd 1 node (node - 1) v s =
              (v, updf (updf s (node - 1) St.Invalid) node St.Unsure) := by
            simp only [eraseWhenFull]
            rw [if_neg hnt]
          rw [hre]
          show erasedOK K less fullSt nd node 1 (node - 1) v s v
            (updf (updf s (node - 1) St.Invalid) node St.Unsure)
          unfold erasedOK
          have hs2n : updf (updf s (node - 1) St.Invalid) node St.Unsure
              node = St.Unsure := updf_self ..
          have hs2t : updf (updf s (node - 1) St.Invalid) node St.Unsure
              (node - 1) = St.Invalid := by
            rw [updf_ne _ _ (by omega), updf_self]
          have hs2r : updf (updf s (node - 1) St.Invalid) node St.Unsure
              (node + 1) = s (node + 1) := by
            rw [updf_ne _ _ (by omega), updf_ne _ _ (by omega)]
          refine ⟨?_, ?_, ?_, ?_, ?_, ?_, ?_⟩
          · intro j hj
            rw [subtree_one] at hj
            simp only [List.mem_cons, List.not_mem_nil, or_false] at hj
            push_neg at hj
            exact ⟨rfl, by rw [updf_ne _ _ hj.1, updf_ne _ _ hj.2.1]⟩
          · rw [interiorLive_one, hs2n]
            decide
          · rw [kdInv_one]
            constructor
            · intro hl
              rw [hs2t] at hl
              exact absurd rfl hl
            · intro hr
              rw [hs2r] at hr
              exact hkd1.2 hr
          · rw [cnt_one, cnt_one, hs2n, hs2t, hs2r,
              if_neg (by decide : ¬ (St.Unsure = St.Invalid)), if_pos rfl,
              if_neg hall1.1, if_neg hall1.2.1, if_neg hall1.2.2]
          · rw [stAcc_one]
            refine ⟨?_, ?_, ?_⟩
            · rw [hs2n, allLive_one, hs2t]
              constructor
              · intro h
                exact absurd h.symm hfU
              · intro h
                exact absurd rfl h.2.1
            · rw [hs2t]
              constructor
              · intro h
                exact absurd h.symm hfI
              · intro h
                exact absurd rfl h
            · rw [hs2r]
              exact hacc1.2.2
          · intro j hj hlj
            rcases mem_subtree_one hj with h | rfl | rfl
            · exact Or.inl ⟨node, mem_one_self node,
                by rw [hs2n]; decide, by rw [h]⟩
            · exact Or.inr rfl
            · exact Or.inl ⟨node + 1, mem_one_right node,
                by rw [hs2r]; exact hlj, rfl⟩
          · intro j hj hlj
            rcases mem_subtree_one hj with h | rfl | rfl
            · exact ⟨node, mem_one_self node, hall1.1, by rw [h]⟩
            · rw [hs2t] at hlj
              exact absurd rfl hlj
            · exact ⟨node + 1, mem_one_right node, hall1.2.2, rfl⟩
        · have hre : eraseWhenFull K less nd 1 node (node + 1) v s =
              (v, updf (updf s (node + 1) St.Invalid) node St.Unsure) := by
            simp only [eraseWhenFull]
            rw [if_neg hnt]
          rw [hre]
          show erasedOK K less fullSt nd node 1 (node + 1) v s v
            (updf (updf s (node + 1) St.Invalid) node St.Unsure)
          unfold erasedOK
          have hs2n : updf (updf s (node + 1) St.Invalid) node St.Unsure
              node = St.Unsure := updf_self ..
          have hs2t : updf (updf s (node + 1) St.Invalid) node St.Unsure
              (node + 1) = St.Invalid := by
            rw [updf_ne _ _ (by omega), updf_self]
          have hs2l : updf (updf s (node + 1) St.Invalid) node St.Unsure
              (node - 1) = s (node - 1) := by
            rw [updf_ne _ _ (by omega), updf_ne _ _ (by omega)]
          refine ⟨?_, ?_, ?_, ?_, ?_, ?_, ?_⟩
          · intro j hj
            rw [subtree_one] at hj
            simp only [List.mem_cons, List.not_mem_nil, or_false] at hj
            push_neg at hj
            exact ⟨rfl, by rw [updf_ne _ _ hj.1, updf_ne _ _ hj.2.2]⟩
          · rw [interiorLive_one, hs2n]
            decide
          · rw [kdInv_one]
            constructor
            · intro hl
              rw [hs2l] at hl
              exact hkd1.1 hl
            · intro hr
              rw [hs2t] at hr
              exact absurd rfl hr
          · rw [cnt_one, cnt_one, hs2n, hs2t, hs2l,
              if_neg (by decide : ¬ (St.Unsure = St.Invalid)), if_pos rfl,
              if_neg hall1.1, if_neg hall1.2.1, if_neg hall1.2.2]
          · rw [stAcc_one]
            refine ⟨?_, ?_, ?_⟩
            · rw [hs2n, allLive_one, hs2t]
              constructor
              · intro h
                exact absurd h.symm hfU
              · intro h
                exact absurd rfl h.2.2
            · rw [hs2l]
              exact hacc1.2.1
            · rw [hs2t]
              constructor
              · intro h
                exact absurd h.symm hfI
              · intro h
                exact absurd rfl h
          · intro j hj hlj
            rcases mem_subtree_one hj with h | rfl | rfl
            · exact Or.inl ⟨node, mem_one_self node,
                by rw [hs2n]; decide, by rw [h]⟩
            · exact Or.inl ⟨node - 1, mem_one_left node,
                by rw [hs2l]; exact hlj, rfl⟩
            · exact Or.inr rfl
          · intro j hj hlj
            rcases mem_subtree_one hj with h | rfl | rfl
            · exact ⟨node, mem_one_self node, hall1.1, by rw [h]⟩
            · exact ⟨node - 1, mem_one_left node, hall1.2.1, rfl⟩
            · rw [hs2t] at hlj
              exact absurd rfl hlj
    | o + 2 =>
      have h1 : (1:Nat) ≤ o + 2 := by omega
      have hallD : s node ≠ St.Invalid ∧
          allLive s (node - (o + 2)) ((o + 2) / 2) ∧
          allLive s (node + (o + 2)) ((o + 2) / 2) := allLive_succ_iff.mp hall
      have hkdD : (∀ j ∈ subtree (node - (o + 2)) ((o + 2) / 2),
            s j ≠ St.Invalid → less nd (v node) (v j) = false) ∧
          (∀ j ∈ subtree (node + (o + 2)) ((o + 2) / 2),
            s j ≠ St.Invalid → less nd (v j) (v node) = false) ∧
          kdInv K less v s (incd K nd) (node - (o + 2)) ((o + 2) / 2) ∧
          kdInv K less v s (incd K nd) (node + (o + 2)) ((o + 2) / 2) :=
        kdInv_succ.mp hkd
      have haccD : (s node = fullSt ↔ allLive s node (o + 2)) ∧
          stAcc fullSt s (node - (o + 2)) ((o + 2) / 2) ∧
          stAcc fullSt s (node + (o + 2)) ((o + 2) / 2) := stAcc_succ.mp hacc
      have hLlt : ∀ j ∈ subtree (node - (o + 2)) ((o + 2) / 2), j < node :=
        fun j hj => mem_left_lt h1 hw hj
      have hRgt : ∀ j ∈ subtree (node + (o + 2)) ((o + 2) / 2), node < j :=
        fun j hj => mem_right_gt h1 hj
      have hLnR : ∀ j ∈ subtree (node - (o + 2)) ((o + 2) / 2),
          j ∉ subtree (node + (o + 2)) ((o + 2) / 2) := by
        intro j hj hmem
        have hx := hLlt j hj
        have hy := hRgt j hmem
        omega
      have hRnL : ∀ j ∈ subtree (node + (o + 2)) ((o + 2) / 2),
          j ∉ subtree (node - (o + 2)) ((o + 2) / 2) := by
        intro j hj hmem
        have hx := hRgt j hj
        have hy := hLlt j hmem
        omega
      have hnodeL : node ∉ subtree (node - (o + 2)) ((o + 2) / 2) := by
        intro hmem
        have hx := hLlt node hmem
        omega
      have hnodeR : node ∉ subtree (node + (o + 2)) ((o + 2) / 2) := by
        intro hmem
        have hx := hRgt node hmem
        omega
      have hms : ∀ j : Nat, j ∈ subtree node (o + 2) ↔ j = node ∨
          j ∈ subtree (node - (o + 2)) ((o + 2) / 2) ∨
          j ∈ subtree (node + (o + 2)) ((o + 2) / 2) :=
        fun j => mem_subtree_succ_iff
      have hcs : ∀ (s0 : Nat → St) (n : Nat), cnt s0 n (o + 2) =
          (if s0 n = St.Invalid then 0 else 1) +
          cnt s0 (n - (o + 2)) ((o + 2) / 2) +
          cnt s0 (n + (o + 2)) ((o + 2) / 2) :=
        fun s0 n => cnt_succ s0 n (o + 1)
      have hils : ∀ (s0 : Nat → St) (n : Nat), interiorLive s0 n (o + 2) ↔
          s0 n ≠ St.Invalid ∧
          interiorLive s0 (n - (o + 2)) ((o + 2) / 2) ∧
          interiorLive s0 (n + (o + 2)) ((o + 2) / 2) :=
        fun s0 n => interiorLive_succ
      have hkds : ∀ (v0 : Nat → V) (s0 : Nat → St) (d n : Nat),
          kdInv K less v0 s0 d n (o + 2) ↔
            (∀ j ∈ subtree (n - (o + 2)) ((o + 2) / 2),
              s0 j ≠ St.Invalid → less d (v0 n) (v0 j) = false) ∧
            (∀ j ∈ subtree (n + (o + 2)) ((o + 2) / 2),
              s0 j ≠ St.Invalid → less d (v0 j) (v0 n) = false) ∧
            kdInv K less v0 s0 (incd K d) (n - (o + 2)) ((o + 2) / 2) ∧
            kdInv K less v0 s0 (incd K d) (n + (o + 2)) ((o + 2) / 2) :=
        fun v0 s0 d n => kdInv_succ
      have hsas : ∀ (s0 : Nat → St) (n : Nat), stAcc fullSt s0 n (o + 2) ↔
          (s0 n = fullSt ↔ allLive s0 n (o + 2)) ∧
          stAcc fullSt s0 (n - (o + 2)) ((o + 2) / 2) ∧
          stAcc fullSt s0 (n + (o + 2)) ((o + 2) / 2) :=
        fun s0 n => stAcc_succ
      by_cases hnt : node = tgt
      · set tmp := minFrom K less v s nd (incd K nd) ((o + 2) / 2)
          (node + (o + 2)) (node + (o + 2)) with htmpe
        set p := eraseWhenFull K less (incd K nd) ((o + 2) / 2)
          (node + (o + 2)) tmp (updf v tgt (v tmp)) s with hpe
        have hre : eraseWhenFull K less nd (o + 2) node tgt v s =
            (p.1, updf p.2 node St.Unsure) := by
          rw [hpe, htmpe]
          simp only [eraseWhenFull]
          rw [if_pos hnt]
        rw [hre]
        show erasedOK K less fullSt nd node (o + 2) tgt v s p.1
          (updf p.2 node St.Unsure)
        unfold erasedOK
        have hm : s tmp ≠ St.Invalid ∧
            less nd (v (node + (o + 2))) (v tmp) = false ∧
            ∀ x ∈ subtree (node + (o + 2)) ((o + 2) / 2),
              s x ≠ St.Invalid → less nd (v x) (v tmp) = false := by
          rw [htmpe]
          exact minFrom_sound hswo ((o + 2) / 2) (incd K nd)
            (node + (o + 2)) (node + (o + 2))
            (interiorLive_of_allLive _ _ hallD.2.2) hkdD.2.2.2
            (hallD.2.2 _ (mem_subtree_self ..))
            (hswo.irr nd (v (node + (o + 2))))
        have htmpm : tmp ∈ subtree (node + (o + 2)) ((o + 2) / 2) := by
          rw [htmpe]
          rcases @minFrom_mem V K less v s nd ((o + 2) / 2) (incd K nd)
            (node + (o + 2)) (node + (o + 2)) with h | h
          · rw [h]
            exact mem_subtree_self ..
          · exact h
        have hv1eq : ∀ j, j ≠ tgt → updf v tgt (v tmp) j = v j :=
          fun j hj => updf_ne _ _ hj
        have hkdright1 : kdInv K less (updf v tgt (v tmp)) s (incd K nd)
            (node + (o + 2)) ((o + 2) / 2) := by
          refine kdInv_congr ((o + 2) / 2) (incd K nd) (node + (o + 2))
            ?_ (fun j hj => rfl) hkdD.2.2.2
          intro j hj
          exact (hv1eq j (by have := hRgt j hj; omega)).symm
        have hp2 : erasedOK K less fullSt (incd K nd) (node + (o + 2))
            ((o + 2) / 2) tmp (updf v tgt (v tmp)) s p.1 p.2 := by
          rw [hpe]
          exact ih ((o + 2) / 2) (by omega) (node + (o + 2)) tmp (incd K nd)
            (updf v tgt (v tmp)) s (wf_right h1) hallD.2.2 htmpm hkdright1
            haccD.2.2
        obtain ⟨hpF, hpI, hpK, hpC, hpA, hpP, hpS⟩ := hp2
        have hvnode : p.1 node = v tmp := by
          rw [(hpF node hnodeR).1, hnt, updf_self]
        have hleftV : ∀ j ∈ subtree (node - (o + 2)) ((o + 2) / 2),
            p.1 j = v j := by
          intro j hj
          rw [(hpF j (hLnR j hj)).1,
            hv1eq j (by have := hLlt j hj; omega)]
        have hleftS : ∀ j ∈ subtree (node - (o + 2)) ((o + 2) / 2),
            updf p.2 node St.Unsure j = s j := by
          intro j hj
          rw [updf_ne _ _ (by have := hLlt j hj; omega),
            (hpF j (hLnR j hj)).2]
        have hrightS : ∀ j ∈ subtree (node + (o + 2)) ((o + 2) / 2),
            updf p.2 node St.Unsure j = p.2 j :=
          fun j hj => updf_ne _ _ (by have := hRgt j hj; omega)
        have hs2n : updf p.2 node St.Unsure node = St.Unsure := updf_self ..
        have hCnt : cnt (updf p.2 node St.Unsure) node (o + 2) + 1 =
            cnt s node (o + 2) := by
          rw [hcs, hcs, hs2n, cnt_congr hleftS, cnt_congr hrightS,
            if_neg (by decide : ¬ (St.Unsure = St.Invalid)), if_neg hallD.1]
          omega
        refine ⟨?_, ?_, ?_, hCnt, ?_, ?_, ?_⟩
        · intro j hj
          rw [hms j] at hj
          push_neg at hj
          obtain ⟨hjn, hjl, hjr⟩ := hj
          refine ⟨?_, ?_⟩
          · rw [(hpF j hjr).1, hv1eq j (by omega)]
          · rw [updf_ne _ _ hjn, (hpF j hjr).2]
        · rw [hils]
          exact ⟨by rw [hs2n]; decide,
            interiorLive_congr ((o + 2) / 2) (node - (o + 2))
              (fun j hj => (hleftS j hj).symm)
              (interiorLive_of_allLive _ _ hallD.2.1),
            interiorLive_congr ((o + 2) / 2) (node + (o + 2))
              (fun j hj => (hrightS j hj).symm) hpI⟩
        · rw [hkds]
          refine ⟨?_, ?_, ?_, ?_⟩
          · intro j hj hlj
            rw [hleftS j hj] at hlj
            rw [hvnode, hleftV j hj]
            exact hswo.ntr nd (v tmp) (v node) (v j)
              (hkdD.2.1 tmp htmpm hm.1) (hkdD.1 j hj hlj)
          · intro j hj hlj
            rw [hrightS j hj] at hlj
            obtain ⟨i, hi, hiliv, hival⟩ := hpS j hj hlj
            have hine : i ≠ tgt := by have := hRgt i hi; omega
            rw [hv1eq i hine] at hival
            rw [hvnode, hival]
            exact hm.2.2 i hi hiliv
          · exact kdInv_congr ((o + 2) / 2) (incd K nd) (node - (o + 2))
              (fun j hj => (hleftV j hj).symm)
              (fun j hj => (hleftS j hj).symm) hkdD.2.2.1
          · exact kdInv_congr ((o + 2) / 2) (incd K nd) (node + (o + 2))
              (fun j hj => rfl) (fun j hj => (hrightS j hj).symm) hpK
        · rw [hsas]
          refine ⟨?_, stAcc_congr ((o + 2) / 2) (node - (o + 2))
            (fun j hj => (hleftS j hj).symm) haccD.2.1,
            stAcc_congr ((o + 2) / 2) (node + (o + 2))
              (fun j hj => (hrightS j hj).symm) hpA⟩
          rw [hs2n]
          constructor
          · intro h
            exact absurd h.symm hfU
          · intro h
            exfalso
            have hc := allLive_iff_cnt.mp h
            have hle := cnt_le_szf s node (o + 2)
            omega
        · intro j hj hlj
          rcases (hms j).mp hj with h | hjl | hjr
          · right
            rw [h, hnt]
          · exact Or.inl ⟨j, (hms j).mpr (Or.inr (Or.inl hjl)),
              by rw [hleftS j hjl]; exact hlj, hleftV j hjl⟩
          · rcases hpP j hjr hlj with ⟨i, hi, hiliv, hival⟩ | heq
            · have hjne : j ≠ tgt := by have := hRgt j hjr; omega
              rw [hv1eq j hjne] at hival
              exact Or.inl ⟨i, (hms i).mpr (Or.inr (Or.inr hi)),
                by rw [hrightS i hi]; exact hiliv, hival⟩
            · have hjne : j ≠ tgt := by have := hRgt j hjr; omega
              have htne : tmp ≠ tgt := by have := hRgt tmp htmpm; omega
              rw [hv1eq j hjne, hv1eq tmp htne] at heq
              refine Or.inl ⟨node, (hms node).mpr (Or.inl rfl),
                by rw [hs2n]; decide, ?_⟩
              rw [hvnode, heq]
        · intro j hj hlj
          rcases (hms j).mp hj with h | hjl | hjr
          · exact ⟨tmp, (hms tmp).mpr (Or.inr (Or.inr htmpm)), hm.1,
              by rw [h]; exact hvnode⟩
          · refine ⟨j, (hms j).mpr (Or.inr (Or.inl hjl)), ?_, hleftV j hjl⟩
            rw [← hleftS j hjl]
            exact hlj
          · rw [hrightS j hjr] at hlj
            obtain ⟨i, hi, hiliv, hival⟩ := hpS j hjr hlj
            have hine : i ≠ tgt := by have := hRgt i hi; omega
            rw [hv1eq i hine] at hival
            exact ⟨i, (hms i).mpr (Or.inr (Or.inr hi)), hiliv, hival⟩
      · by_cases hlt : node < tgt
        · set p := eraseWhenFull K less (incd K nd) ((o + 2) / 2)
            (node + (o + 2)) tgt v s with hpe
          have hre : eraseWhenFull K less nd (o + 2) node tgt v s =
              (p.1, updf p.2 node St.Unsure) := by
            rw [hpe]
            simp only [eraseWhenFull]
            rw [if_neg hnt, if_pos hlt]
          rw [hre]
          show erasedOK K less fullSt nd node (o + 2) tgt v s p.1
            (updf p.2 node St.Unsure)
          unfold erasedOK
          have htgtr : tgt ∈ subtree (node + (o + 2)) ((o + 2) / 2) := by
            rcases (hms tgt).mp htgt with h | h | h
            · exact absurd h.symm hnt
            · have := hLlt tgt h
              omega
            · exact h
          have hp2 : erasedOK K less fullSt (incd K nd) (node + (o + 2))
              ((o + 2) / 2) tgt v s p.1 p.2 := by
            rw [hpe]
            exact ih ((o + 2) / 2) (by omega) (node + (o + 2)) tgt
              (incd K nd) v s (wf_right h1) hallD.2.2 htgtr hkdD.2.2.2
              haccD.2.2
          obtain ⟨hpF, hpI, hpK, hpC, hpA, hpP, hpS⟩ := hp2
          have hvnode : p.1 node = v node := (hpF node hnodeR).1
          have hleftV : ∀ j ∈ subtree (node - (o + 2)) ((o + 2) / 2),
              p.1 j = v j := fun j hj => (hpF j (hLnR j hj)).1
          have hleftS : ∀ j ∈ subtree (node - (o + 2)) ((o + 2) / 2),
              updf p.2 node St.Unsure j = s j := by
            intro j hj
            rw [updf_ne _ _ (by have := hLlt j hj; omega),
              (hpF j (hLnR j hj)).2]
          have hrightS : ∀ j ∈ subtree (node + (o + 2)) ((o + 2) / 2),
              updf p.2 node St.Unsure j = p.2 j :=
            fun j hj => updf_ne _ _ (by have := hRgt j hj; omega)
          have hs2n : updf p.2 node St.Unsure node = St.Unsure := updf_self ..
          have hCnt : cnt (updf p.2 node St.Unsure) node (o + 2) + 1 =
              cnt s node (o + 2) := by
            rw [hcs, hcs, hs2n, cnt_congr hleftS, cnt_congr hrightS,
              if_neg (by decide : ¬ (St.Unsure = St.Invalid)),
              if_neg hallD.1]
            omega
          refine ⟨?_, ?_, ?_, hCnt, ?_, ?_, ?_⟩
          · intro j hj
            rw [hms j] at hj
            push_neg at hj
            obtain ⟨hjn, hjl, hjr⟩ := hj
            exact ⟨(hpF j hjr).1, by rw [updf_ne _ _ hjn, (hpF j hjr).2]⟩
          · rw [hils]
            exact ⟨by rw [hs2n]; decide,
              interiorLive_congr ((o + 2) / 2) (node - (o + 2))
                (fun j hj => (hleftS j hj).symm)
                (interiorLive_of_allLive _ _ hallD.2.1),
              interiorLive_congr ((o + 2) / 2) (node + (o + 2))
                (fun j hj => (hrightS j hj).symm) hpI⟩
          · rw [hkds]
            refine ⟨?_, ?_, ?_, ?_⟩
            · intro j hj hlj
              rw [hleftS j hj] at hlj
              rw [hvnode, hleftV j hj]
              exact hkdD.1 j hj hlj
            · intro j hj hlj
              rw [hrightS j hj] at hlj
              obtain ⟨i, hi, hiliv, hival⟩ := hpS j hj hlj
              rw [hvnode, hival]
              exact hkdD.2.1 i hi hiliv
            · exact kdInv_congr ((o + 2) / 2) (incd K nd) (node - (o + 2))
                (fun j hj => (hleftV j hj).symm)
                (fun j hj => (hleftS j hj).symm) hkdD.2.2.1
            · exact kdInv_congr ((o + 2) / 2) (incd K nd) (node + (o + 2))
                (fun j hj => rfl) (fun j hj => (hrightS j hj).symm) hpK
          · rw [hsas]
            refine ⟨?_, stAcc_congr ((o + 2) / 2) (node - (o + 2))
              (fun j hj => (hleftS j hj).symm) haccD.2.1,
              stAcc_congr ((o + 2) / 2) (node + (o + 2))
                (fun j hj => (hrightS j hj).symm) hpA⟩
            rw [hs2n]
            constructor
            · intro h
              exact absurd h.symm hfU
            · intro h
              exfalso
              have hc := allLive_iff_cnt.mp h
              have hle := cnt_le_szf s node (o + 2)
              omega
          · intro j hj hlj
            rcases (hms j).mp hj with h | hjl | hjr
            · exact Or.inl ⟨node, (hms node).mpr (Or.inl rfl),
                by rw [hs2n]; decide, by rw [h]; exact hvnode⟩
            · exact Or.inl ⟨j, (hms j).mpr (Or.inr (Or.inl hjl)),
                by rw [hleftS j hjl]; exact hlj, hleftV j hjl⟩
            · rcases hpP j hjr hlj with ⟨i, hi, hiliv, hival⟩ | heq
              · exact Or.inl ⟨i, (hms i).mpr (Or.inr (Or.inr hi)),
                  by rw [hrightS i hi]; exact hiliv, hival⟩
              · exact Or.inr heq
          · intro j hj hlj
            rcases (hms j).mp hj with h | hjl | hjr
            · exact ⟨node, (hms node).mpr (Or.inl rfl), hallD.1,
                by rw [h]; exact hvnode⟩
            · refine ⟨j, (hms j).mpr (Or.inr (Or.inl hjl)), ?_,
                hleftV j hjl⟩
              rw [← hleftS j hjl]
              exact hlj
            · rw [hrightS j hjr] at hlj
              obtain ⟨i, hi, hiliv, hival⟩ := hpS j hjr hlj
              exact ⟨i, (hms i).mpr (Or.inr (Or.inr hi)), hiliv, hival⟩
        · set p := eraseWhenFull K less (incd K nd) ((o + 2) / 2)
            (node - (o + 2)) tgt v s with hpe
          have hre : eraseWhenFull K less nd (o + 2) node tgt v s =
              (p.1, updf p.2 node St.Unsure) := by
            rw [hpe]
            simp only [eraseWhenFull]
            rw [if_neg hnt, if_neg hlt]
          rw [hre]
          show erasedOK K less fullSt nd node (o + 2) tgt v s p.1
            (updf p.2 node St.Unsure)
          unfold erasedOK
          have htgtl : tgt ∈ subtree (node - (o + 2)) ((o + 2) / 2) := by
            rcases (hms tgt).mp htgt with h | h | h
            · exact absurd h.symm hnt
            · exact h
            · have := hRgt tgt h
              omega
          have hp2 : erasedOK K less fullSt (incd K nd) (node - (o + 2))
              ((o + 2) / 2) tgt v s p.1 p.2 := by
            rw [hpe]
            exact ih ((o + 2) / 2) (by omega) (node - (o + 2)) tgt
              (incd K nd) v s (wf_left hw h1) hallD.2.1 htgtl hkdD.2.2.1
              haccD.2.1
          obtain ⟨hpF, hpI, hpK, hpC, hpA, hpP, hpS⟩ := hp2
          have hvnode : p.1 node = v node := (hpF node hnodeL).1
          have hrightV : ∀ j ∈ subtree (node + (o + 2)) ((o + 2) / 2),
              p.1 j = v j := fun j hj => (hpF j (hRnL j hj)).1
          have hrightS : ∀ j ∈ subtree (node + (o + 2)) ((o + 2) / 2),
              updf p.2 node St.Unsure j = s j := by
            intro j hj
            rw [updf_ne _ _ (by have := hRgt j hj; omega),
              (hpF j (hRnL j hj)).2]
          have hleftS : ∀ j ∈ subtree (node - (o + 2)) ((o + 2) / 2),
              updf p.2 node St.Unsure j = p.2 j :=
            fun j hj => updf_ne _ _ (by have := hLlt j hj; omega)
          have hs2n : updf p.2 node St.Unsure node = St.Unsure := updf_self ..
          have hCnt : cnt (updf p.2 node St.Unsure) node (o + 2) + 1 =
              cnt s node (o + 2) := by
            rw [hcs, hcs, hs2n, cnt_congr hleftS, cnt_congr hrightS,
              if_neg (by decide : ¬ (St.Unsure = St.Invalid)),
              if_neg hallD.1]
            omega
          refine ⟨?_, ?_, ?_, hCnt, ?_, ?_, ?_⟩
          · intro j hj
            rw [hms j] at hj
            push_neg at hj
            obtain ⟨hjn, hjl, hjr⟩ := hj
            exact ⟨(hpF j hjl).1, by rw [updf_ne _ _ hjn, (hpF j hjl).2]⟩
          · rw [hils]
            exact ⟨by rw [hs2n]; decide,
              interiorLive_congr ((o + 2) / 2) (node - (o + 2))
                (fun j hj => (hleftS j hj).symm) hpI,
              interiorLive_congr ((o + 2) / 2) (node + (o + 2))
                (fun j hj => (hrightS j hj).symm)
                (interiorLive_of_allLive _ _ hallD.2.2)⟩
          · rw [hkds]
            refine ⟨?_, ?_, ?_, ?_⟩
            · intro j hj hlj
              rw [hleftS j hj] at hlj
              obtain ⟨i, hi, hiliv, hival⟩ := hpS j hj hlj
              rw [hvnode, hival]
              exact hkdD.1 i hi hiliv
            · intro j hj hlj
              rw [hrightS j hj] at hlj
              rw [hvnode, hrightV j hj]
              exact hkdD.2.1 j hj hlj
            · exact kdInv_congr ((o + 2) / 2) (incd K nd) (node - (o + 2))
                (fun j hj => rfl) (fun j hj => (hleftS j hj).symm) hpK
            · exact kdInv_congr ((o + 2) / 2) (incd K nd) (node + (o + 2))
                (fun j hj => (hrightV j hj).symm)
                (fun j hj => (hrightS j hj).symm) hkdD.2.2.2
          · rw [hsas]
            refine ⟨?_, stAcc_congr ((o + 2) / 2) (node - (o + 2))
              (fun j hj => (hleftS j hj).symm) hpA,
              stAcc_congr ((o + 2) / 2) (node + (o + 2))
                (fun j hj => (hrightS j hj).symm) haccD.2.2⟩
            rw [hs2n]
            constructor
            · intro h
              exact absurd h.symm hfU
            · intro h
              exfalso
              have hc := allLive_iff_cnt.mp h
              have hle := cnt_le_szf s node (o + 2)
              omega
          · intro j hj hlj
            rcases (hms j).mp hj with h | hjl | hjr
            · exact Or.inl ⟨node, (hms node).mpr (Or.inl rfl),
                by rw [hs2n]; decide, by rw [h]; exact hvnode⟩
            · rcases hpP j hjl hlj with ⟨i, hi, hiliv, hival⟩ | heq
              · exact Or.inl ⟨i, (hms i).mpr (Or.inr (Or.inl hi)),
                  by rw [hleftS i hi]; exact hiliv, hival⟩
              · exact Or.inr heq
            · exact Or.inl ⟨j, (hms j).mpr (Or.inr (Or.inr hjr)),
                by rw [hrightS j hjr]; exact hlj, hrightV j hjr⟩
          · intro j hj hlj
            rcases (hms j).mp hj with h | hjl | hjr
            · exact ⟨node, (hms node).mpr (Or.inl rfl), hallD.1,
                by rw [h]; exact hvnode⟩
            · rw [hleftS j hjl] at hlj
              obtain ⟨i, hi, hiliv, hival⟩ := hpS j hjl hlj
              exact ⟨i, (hms i).mpr (Or.inr (Or.inl hi)), hiliv, hival⟩
            · refine ⟨j, (hms j).mpr (Or.inr (Or.inr hjr)), ?_,
                hrightV j hjr⟩
              rw [← hrightS j hjr]
              exact hlj

/-! The contract of `_single_insert` at offset 1 (both children are
leaves): the six placement shapes of the source, each checked against
`insertedOK`. -/

theorem singleInsert_one_spec {K : Nat} {less : Nat → V → V → Bool}
    (hswo : IsSWO less) {fullSt : St}
    (hfull : fullSt = St.Heads ∨ fullSt = St.Tails)
    (node nd : Nat) (pend : Pend V) (v : Nat → V) (s : Nat → St)
    (hw : wfPos node 1) (hIL : interiorLive s node 1)
    (hroom : ¬ allLive s node 1) (hpend : pendOK pend node 1)
    (hkd : kdInv K less v s nd node 1) (hacc : stAcc fullSt s node 1) :
    insertedOK K less fullSt nd node 1 pend v s
      (singleInsert K less fullSt nd 1 node pend v s).1.1
      (singleInsert K less fullSt nd 1 node pend v s).1.2
      (singleInsert K less fullSt nd 1 node pend v s).2 := by
  have hfI : fullSt ≠ St.Invalid := by
    rcases hfull with rfl | rfl <;> decide
  have hn1 : 1 ≤ node := by
    have hb := bndf_one
    unfold wfPos at hw
    omega
  have hnode : s node ≠ St.Invalid := interiorLive_one.mp hIL
  have hkd1 := kdInv_one.mp hkd
  have hacc1 := stAcc_one.mp hacc
  have hagree : ∀ (v2 : Nat → V), (∀ j, j ∉ subtree node 1 → v2 j = v j) →
      Pend.cref v2 pend = Pend.cref v pend :=
    fun v2 h => cref_eq_of_agree hpend h
  simp only [singleInsert, Pend.placeAt]
  by_cases hc1 : less nd (Pend.cref v pend) (v node) = true
  · rw [if_pos hc1]
    by_cases hlv : s (node - 1) ≠ St.Invalid
    · rw [if_pos hlv]
      have hrd : s (node + 1) = St.Invalid := by
        by_contra hcon
        exact hroom (allLive_one.mpr ⟨hnode, hlv, hcon⟩)
      set v1 := updf v (node + 1) (v node) with hv1e
      set s1 := updf (updf s (node + 1) fullSt) node fullSt with hs1e
      have hv1l : v1 (node - 1) = v (node - 1) := updf_ne _ _ (by omega)
      have hv1n : v1 node = v node := updf_ne _ _ (by omega)
      have hv1r : v1 (node + 1) = v node := updf_self ..
      have hs1n : s1 node = fullSt := updf_self ..
      have hs1r : s1 (node + 1) = fullSt := by
        rw [hs1e, updf_ne _ _ (by omega), updf_self]
      have hs1l : s1 (node - 1) = s (node - 1) := by
        rw [hs1e, updf_ne _ _ (by omega), updf_ne _ _ (by omega)]
      have hcref1 : Pend.cref v1 pend = Pend.cref v pend := by
        rw [hv1e]
        refine hagree _ ?_
        intro j hj
        exact updf_ne _ _
          (by intro he; subst he; exact hj (mem_one_right node))
      by_cases hc3 : less nd (Pend.cref v1 pend) (v1 (node - 1)) = true
      · rw [if_pos hc3]
        set v2 := updf v1 node (v1 (node - 1)) with hv2e
        have hv2l : v2 (node - 1) = v (node - 1) := by
          rw [hv2e, updf_ne _ _ (by omega), hv1l]
        have hv2n : v2 node = v (node - 1) := by
          rw [hv2e, updf_self, hv1l]
        have hv2r : v2 (node + 1) = v node := by
          rw [hv2e, updf_ne _ _ (by omega), hv1r]
        have hcref2 : Pend.cref v2 pend = Pend.cref v pend := by
          rw [hv2e]
          refine (cref_eq_of_agree hpend ?_).trans hcref1
          intro j hj
          exact updf_ne _ _
            (by intro he; rw [he] at hj; exact hj (mem_one_self node))
        set v3 := updf v2 (node - 1) (Pend.cref v2 pend) with hv3e
        have hv3l : v3 (node - 1) = Pend.cref v pend := by
          rw [hv3e, updf_self, hcref2]
        have hv3n : v3 node = v (node - 1) := by
          rw [hv3e, updf_ne _ _ (by omega), hv2n]
        have hv3r : v3 (node + 1) = v node := by
          rw [hv3e, updf_ne _ _ (by omega), hv2r]
        have hc3x : less nd (Pend.cref v pend) (v (node - 1)) = true := by
          rw [← hcref1, ← hv1l]
          exact hc3
        show insertedOK K less fullSt nd node 1 pend v s v3 s1 (node - 1)
        unfold insertedOK
        refine ⟨?_, ?_, ?_, ?_, ?_, mem_one_left node, ?_, hv3l, ?_, ?_⟩
        · intro j hj
          rw [subtree_one] at hj
          simp only [List.mem_cons, List.not_mem_nil, or_false] at hj
          push_neg at hj
          constructor
          · rw [hv3e, hv2e, hv1e, updf_ne _ _ hj.2.1, updf_ne _ _ hj.1,
              updf_ne _ _ hj.2.2]
          · rw [hs1e, updf_ne _ _ hj.1, updf_ne _ _ hj.2.2]
        · rw [interiorLive_one, hs1n]
          exact hfI
        · rw [kdInv_one]
          constructor
          · intro _
            rw [hv3n, hv3l]
            exact hswo.asym hc3x
          · intro _
            rw [hv3r, hv3n]
            exact hkd1.1 hlv
        · rw [cnt_one, cnt_one, hs1n, hs1l, hs1r, if_neg hfI, if_neg hlv,
            if_neg hnode, if_pos hrd]
        · rw [stAcc_one]
          refine ⟨?_, ?_, ?_⟩
          · rw [allLive_one, hs1n, hs1l, hs1r]
            constructor
            · intro _
              exact ⟨hfI, hlv, hfI⟩
            · intro _
              rfl
          · rw [hs1l]
            exact hacc1.2.1
          · rw [hs1r]
            constructor
            · intro _
              exact hfI
            · intro _
              rfl
        · rw [hs1l]
          exact hlv
        · intro j hj hlj
          rcases mem_subtree_one hj with h | rfl | rfl
          · exact ⟨node + 1, mem_one_right node,
              by rw [hs1r]; exact hfI, by rw [h]; exact hv3r⟩
          · exact ⟨node, mem_one_self node,
              by rw [hs1n]; exact hfI, hv3n⟩
          · rw [hrd] at hlj
            exact absurd rfl hlj
        · intro j hj hlj
          rcases mem_subtree_one hj with h | rfl | rfl
          · exact Or.inr ⟨node - 1, mem_one_left node, hlv,
              by rw [h]; exact hv3n⟩
          · exact Or.inl hv3l
          · exact Or.inr ⟨node, mem_one_self node, hnode, hv3r⟩
      · rw [if_neg hc3]
        have hc3f : less nd (Pend.cref v pend) (v (node - 1)) = false := by
          rw [← hcref1, ← hv1l]
          revert hc3
          cases less nd (Pend.cref v1 pend) (v1 (node - 1)) <;> simp
        set v2 := updf v1 node (Pend.cref v1 pend) with hv2e
        have hv2l : v2 (node - 1) = v (node - 1) := by
          rw [hv2e, updf_ne _ _ (by omega), hv1l]
        have hv2n : v2 node = Pend.cref v pend := by
          rw [hv2e, updf_self, hcref1]
        have hv2r : v2 (node + 1) = v node := by
          rw [hv2e, updf_ne _ _ (by omega), hv1r]
        show insertedOK K less fullSt nd node 1 pend v s v2 s1 node
        unfold insertedOK
        refine ⟨?_, ?_, ?_, ?_, ?_, mem_one_self node, ?_, hv2n, ?_, ?_⟩
        · intro j hj
          rw [subtree_one] at hj
          simp only [List.mem_cons, List.not_mem_nil, or_false] at hj
          push_neg at hj
          constructor
          · rw [hv2e, hv1e, updf_ne _ _ hj.1, updf_ne _ _ hj.2.2]
          · rw [hs1e, updf_ne _ _ hj.1, updf_ne _ _ hj.2.2]
        · rw [interiorLive_one, hs1n]
          exact hfI
        · rw [kdInv_one]
          constructor
          · intro _
            rw [hv2n, hv2l]
            exact hc3f
          · intro _
            rw [hv2r, hv2n]
            exact hswo.asym hc1
        · rw [cnt_one, cnt_one, hs1n, hs1l, hs1r, if_neg hfI, if_neg hlv,
            if_neg hnode, if_pos hrd]
        · rw [stAcc_one]
          refine ⟨?_, ?_, ?_⟩
          · rw [allLive_one, hs1n, hs1l, hs1r]
            constructor
            · intro _
              exact ⟨hfI, hlv, hfI⟩
            · intro _
              rfl
          · rw [hs1l]
            exact hacc1.2.1
          · rw [hs1r]
            constructor
            · intro _
              exact hfI
            · intro _
              rfl
        · rw [hs1n]
          exact hfI
        · intro j hj hlj
          rcases mem_subtree_one hj with h | rfl | rfl
          · exact ⟨node + 1, mem_one_right node,
              by rw [hs1r]; exact hfI, by rw [h]; exact hv2r⟩
          · exact ⟨node - 1, mem_one_left node,
              by rw [hs1l]; exact hlv, hv2l⟩
          · rw [hrd] at hlj
            exact absurd rfl hlj
        · intro j hj hlj
          rcases mem_subtree_one hj with h | rfl | rfl
          · exact Or.inl (by rw [h]; exact hv2n)
          · exact Or.inr ⟨node - 1, mem_one_left node, hlv, hv2l⟩
          · exact Or.inr ⟨node, mem_one_self node, hnode, hv2r⟩
    · rw [if_neg hlv]
      have hld : s (node - 1) = St.Invalid := not_not.mp hlv
      set v1 := updf v (node - 1) (Pend.cref v pend) with hv1e
      set s1 := updf s (node - 1) fullSt with hs1e
      have hv1l : v1 (node - 1) = Pend.cref v pend := updf_self ..
      have hv1n : v1 node = v node := updf_ne _ _ (by omega)
      have hv1r : v1 (node + 1) = v (node + 1) := updf_ne _ _ (by omega)
      have hs1l : s1 (node - 1) = fullSt := updf_self ..
      have hs1n : s1 node = s node := updf_ne _ _ (by omega)
      have hs1r : s1 (node + 1) = s (node + 1) := updf_ne _ _ (by omega)
      rw [hs1r]
      by_cases hrn : s (node + 1) ≠ St.Invalid
      · rw [if_pos hrn]
        show insertedOK K less fullSt nd node 1 pend v s v1
          (updf s1 node fullSt) (node - 1)
        unfold insertedOK
        have hs2n : updf s1 node fullSt node = fullSt := updf_self ..
        have hs2l : updf s1 node fullSt (node - 1) = fullSt := by
          rw [updf_ne _ _ (by omega), hs1l]
        have hs2r : updf s1 node fullSt (node + 1) = s (node + 1) := by
          rw [updf_ne _ _ (by omega), hs1r]
        refine ⟨?_, ?_, ?_, ?_, ?_, mem_one_left node, ?_, hv1l, ?_, ?_⟩
        · intro j hj
          rw [subtree_one] at hj
          simp only [List.mem_cons, List.not_mem_nil, or_false] at hj
          push_neg at hj
          constructor
          · rw [hv1e, updf_ne _ _ hj.2.1]
          · rw [updf_ne _ _ hj.1, hs1e, updf_ne _ _ hj.2.1]
        · rw [interiorLive_one, hs2n]
          exact hfI
        · rw [kdInv_one]
          constructor
          · intro _
            rw [hv1n, hv1l]
            exact hswo.asym hc1
          · intro _
            rw [hv1r, hv1n]
            exact hkd1.2 hrn
        · rw [cnt_one, cnt_one, hs2n, hs2l, hs2r, if_neg hfI,
            if_neg hnode, if_pos hld, if_neg hrn]
        · rw [stAcc_one]
          refine ⟨?_, ?_, ?_⟩
          · rw [allLive_one, hs2n, hs2l, hs2r]
            constructor
            · intro _
              exact ⟨hfI, hfI, hrn⟩
            · intro _
              rfl
          · rw [hs2l]
            constructor
            · intro _
              exact hfI
            · intro _
              rfl
          · rw [hs2r]
            exact hacc1.2.2
        · rw [hs2l]
          exact hfI
        · intro j hj hlj
          rcases mem_subtree_one hj with h | rfl | rfl
          · exact ⟨node, mem_one_self node,
              by rw [hs2n]; exact hfI, by rw [h]; exact hv1n⟩
          · rw [hld] at hlj
            exact absurd rfl hlj
          · exact ⟨node + 1, mem_one_right node,
              by rw [hs2r]; exact hlj, hv1r⟩
        · intro j hj hlj
          rcases mem_subtree_one hj with h | rfl | rfl
          · exact Or.inr ⟨node, mem_one_self node, hnode,
              by rw [h]; exact hv1n⟩
          · exact Or.inl hv1l
          · exact Or.inr ⟨node + 1, mem_one_right node, hrn, hv1r⟩
      · rw [if_neg hrn]
        have hrd : s (node + 1) = St.Invalid := not_not.mp hrn
        show insertedOK K less fullSt nd node 1 pend v s v1 s1 (node - 1)
        unfold insertedOK
        refine ⟨?_, ?_, ?_, ?_, ?_, mem_one_left node, ?_, hv1l, ?_, ?_⟩
        · intro j hj
          rw [subtree_one] at hj
          simp only [List.mem_cons, List.not_mem_nil, or_false] at hj
          push_neg at hj
          constructor
          · rw [hv1e, updf_ne _ _ hj.2.1]
          · rw [hs1e, updf_ne _ _ hj.2.1]
        · rw [interiorLive_one, hs1n]
          exact hnode
        · rw [kdInv_one]
          constructor
          · intro _
            rw [hv1n, hv1l]
            exact hswo.asym hc1
          · intro hr
            rw [hs1r, hrd] at hr
            exact absurd rfl hr
        · rw [cnt_one, cnt_one, hs1n, hs1l, hs1r, if_neg hfI,
            if_neg hnode, if_pos hld, if_pos hrd]
        · rw [stAcc_one]
          refine ⟨?_, ?_, ?_⟩
          · rw [allLive_one, hs1n, hs1l, hs1r, hrd]
            constructor
            · intro hx
              exact absurd (hacc1.1.mp hx) hroom
            · intro hx
              exact absurd rfl hx.2.2
          · rw [hs1l]
            constructor
            · intro _
              exact hfI
            · intro _
              rfl
          · rw [hs1r]
            exact hacc1.2.2
        · rw [hs1l]
          exact hfI
        · intro j hj hlj
          rcases mem_subtree_one hj with h | rfl | rfl
          · exact ⟨node, mem_one_self node,
              by rw [hs1n]; exact hnode, by rw [h]; exact hv1n⟩
          · rw [hld] at hlj
            exact absurd rfl hlj
          · rw [hrd] at hlj
            exact absurd rfl hlj
        · intro j hj hlj
          rcases mem_subtree_one hj with h | rfl | rfl
          · exact Or.inr ⟨node, mem_one_self node, hnode,
              by rw [h]; exact hv1n⟩
          · exact Or.inl hv1l
          · rw [hs1r, hrd] at hlj
            exact absurd rfl hlj
  · rw [if_neg hc1]
    have hc1f : less nd (Pend.cref v pend) (v node) = false := by
      revert hc1
      cases less nd (Pend.cref v pend) (v node) <;> simp
    by_cases hrv : s (node + 1) ≠ St.Invalid
    · rw [if_pos hrv]
      have hld : s (node - 1) = St.Invalid := by
        by_contra hcon
        exact hroom (allLive_one.mpr ⟨hnode, hcon, hrv⟩)
      set v1 := updf v (node - 1) (v node) with hv1e
      set s1 := updf (updf s (node - 1) fullSt) node fullSt with hs1e
      have hv1l : v1 (node - 1) = v node := updf_self ..
      have hv1n : v1 node = v node := updf_ne _ _ (by omega)
      have hv1r : v1 (node + 1) = v (node + 1) := updf_ne _ _ (by omega)
      have hs1n : s1 node = fullSt := updf_self ..
      have hs1l : s1 (node - 1) = fullSt := by
        rw [hs1e, updf_ne _ _ (by omega), updf_self]
      have hs1r : s1 (node + 1) = s (node + 1) := by
        rw [hs1e, updf_ne _ _ (by omega), updf_ne _ _ (by omega)]
      have hcref1 : Pend.cref v1 pend = Pend.cref v pend := by
        rw [hv1e]
        refine hagree _ ?_
        intro j hj
        exact updf_ne _ _
          (by intro he; subst he; exact hj (mem_one_left node))
      by_cases hc3 : less nd (v1 (node + 1)) (Pend.cref v1 pend) = true
      · rw [if_pos hc3]
        set v2 := updf v1 node (v1 (node + 1)) with hv2e
        have hv2l : v2 (node - 1) = v node := by
          rw [hv2e, updf_ne _ _ (by omega), hv1l]
        have hv2n : v2 node = v (node + 1) := by
          rw [hv2e, updf_self, hv1r]
        have hv2r : v2 (node + 1) = v (node + 1) := by
          rw [hv2e, updf_ne _ _ (by omega), hv1r]
        have hcref2 : Pend.cref v2 pend = Pend.cref v pend := by
          rw [hv2e]
          refine (cref_eq_of_agree hpend ?_).trans hcref1
          intro j hj
          exact updf_ne _ _
            (by intro he; rw [he] at hj; exact hj (mem_one_self node))
        set v3 := updf v2 (node + 1) (Pend.cref v2 pend) with hv3e
        have hv3r : v3 (node + 1) = Pend.cref v pend := by
          rw [hv3e, updf_self, hcref2]
        have hv3n : v3 node = v (node + 1) := by
          rw [hv3e, updf_ne _ _ (by omega), hv2n]
        have hv3l : v3 (node - 1) = v node := by
          rw [hv3e, updf_ne _ _ (by omega), hv2l]
        have hc3x : less nd (v (node + 1)) (Pend.cref v pend) = true := by
          rw [← hcref1, ← hv1r]
          exact hc3
        show insertedOK K less fullSt nd node 1 pend v s v3 s1 (node + 1)
        unfold insertedOK
        refine ⟨?_, ?_, ?_, ?_, ?_, mem_one_right node, ?_, hv3r, ?_, ?_⟩
        · intro j hj
          rw [subtree_one] at hj
          simp only [List.mem_cons, List.not_mem_nil, or_false] at hj
          push_neg at hj
          constructor
          · rw [hv3e, hv2e, hv1e, updf_ne _ _ hj.2.2, updf_ne _ _ hj.1,
              updf_ne _ _ hj.2.1]
          · rw [hs1e, updf_ne _ _ hj.1, updf_ne _ _ hj.2.1]
        · rw [interiorLive_one, hs1n]
          exact hfI
        · rw [kdInv_one]
          constructor
          · intro _
            rw [hv3n, hv3l]
            exact hkd1.2 hrv
          · intro _
            rw [hv3r, hv3n]
            exact hswo.asym hc3x
        · rw [cnt_one, cnt_one, hs1n, hs1l, hs1r, if_neg hfI, if_neg hrv,
            if_neg hnode, if_pos hld]
        · rw [stAcc_one]
          refine ⟨?_, ?_, ?_⟩
          · rw [allLive_one, hs1n, hs1l, hs1r]
            constructor
            · intro _
              exact ⟨hfI, hfI, hrv⟩
            · intro _
              rfl
          · rw [hs1l]
            constructor
            · intro _
              exact hfI
            · intro _
              rfl
          · rw [hs1r]
            exact hacc1.2.2
        · rw [hs1r]
          exact hrv
        · intro j hj hlj
          rcases mem_subtree_one hj with h | rfl | rfl
          · exact ⟨node - 1, mem_one_left node,
              by rw [hs1l]; exact hfI, by rw [h]; exact hv3l⟩
          · rw [hld] at hlj
            exact absurd rfl hlj
          · exact ⟨node, mem_one_self node,
              by rw [hs1n]; exact hfI, hv3n⟩
        · intro j hj hlj
          rcases mem_subtree_one hj with h | rfl | rfl
          · exact Or.inr ⟨node + 1, mem_one_right node, hrv,
              by rw [h]; exact hv3n⟩
          · exact Or.inr ⟨node, mem_one_self node, hnode, hv3l⟩
          · exact Or.inl hv3r
      · rw [if_neg hc3]
        have hc3f : less nd (v (node + 1)) (Pend.cref v pend) = false := by
          rw [← hcref1, ← hv1r]
          revert hc3
          cases less nd (v1 (node + 1)) (Pend.cref v1 pend) <;> simp
        set v2 := updf v1 node (Pend.cref v1 pend) with hv2e
        have hv2l : v2 (node - 1) = v node := by
          rw [hv2e, updf_ne _ _ (by omega), hv1l]
        have hv2n : v2 node = Pend.cref v pend := by
          rw [hv2e, updf_self, hcref1]
        have hv2r : v2 (node + 1) = v (node + 1) := by
          rw [hv2e, updf_ne _ _ (by omega), hv1r]
        show insertedOK K less fullSt nd node 1 pend v s v2 s1 node
        unfold insertedOK
        refine ⟨?_, ?_, ?_, ?_, ?_, mem_one_self node, ?_, hv2n, ?_, ?_⟩
        · intro j hj
          rw [subtree_one] at hj
          simp only [List.mem_cons, List.not_mem_nil, or_false] at hj
          push_neg at hj
          constructor
          · rw [hv2e, hv1e, updf_ne _ _ hj.1, updf_ne _ _ hj.2.1]
          · rw [hs1e, updf_ne _ _ hj.1, updf_ne _ _ hj.2.1]
        · rw [interiorLive_one, hs1n]
          exact hfI
        · rw [kdInv_one]
          constructor
          · intro _
            rw [hv2n, hv2l]
            exact hc1f
          · intro _
            rw [hv2r, hv2n]
            exact hc3f
        · rw [cnt_one, cnt_one, hs1n, hs1l, hs1r, if_neg hfI, if_neg hrv,
            if_neg hnode, if_pos hld]
        · rw [stAcc_one]
          refine ⟨?_, ?_, ?_⟩
          · rw [allLive_one, hs1n, hs1l, hs1r]
            constructor
            · intro _
              exact ⟨hfI, hfI, hrv⟩
            · intro _
              rfl
          · rw [hs1l]
            constructor
            · intro _
              exact hfI
            · intro _
              rfl
          · rw [hs1r]
            exact hacc1.2.2
        · rw [hs1n]
          exact hfI
        · intro j hj hlj
          rcases mem_subtree_one hj with h | rfl | rfl
          · exact ⟨node - 1, mem_one_left node,
              by rw [hs1l]; exact hfI, by rw [h]; exact hv2l⟩
          · rw [hld] at hlj
            exact absurd rfl hlj
          · exact ⟨node + 1, mem_one_right node,
              by rw [hs1r]; exact hlj, hv2r⟩
        · intro j hj hlj
          rcases mem_subtree_one hj with h | rfl | rfl
          · exact Or.inl (by rw [h]; exact hv2n)
          · exact Or.inr ⟨node, mem_one_self node, hnode, hv2l⟩
          · exact Or.inr ⟨node + 1, mem_one_right node, hrv, hv2r⟩
    · rw [if_neg hrv]
      have hrd : s (node + 1) = St.Invalid := not_not.mp hrv
      set v1 := updf v (node + 1) (Pend.cref v pend) with hv1e
      set s1 := updf s (node + 1) fullSt with hs1e
      have hv1r : v1 (node + 1) = Pend.cref v pend := updf_self ..
      have hv1n : v1 node = v node := updf_ne _ _ (by omega)
      have hv1l : v1 (node - 1) = v (node - 1) := updf_ne _ _ (by omega)
      have hs1r : s1 (node + 1) = fullSt := updf_self ..
      have hs1n : s1 node = s node := updf_ne _ _ (by omega)
      have hs1l : s1 (node - 1) = s (node - 1) := updf_ne _ _ (by omega)
      rw [hs1l]
      by_cases hln : s (node - 1) ≠ St.Invalid
      · rw [if_pos hln]
        show insertedOK K less fullSt nd node 1 pend v s v1
          (updf s1 node fullSt) (node + 1)
        unfold insertedOK
        have hs2n : updf s1 node fullSt node = fullSt := updf_self ..
        have hs2l : updf s1 node fullSt (node - 1) = s (node - 1) := by
          rw [updf_ne _ _ (by omega), hs1l]
        have hs2r : updf s1 node fullSt (node + 1) = fullSt := by
          rw [updf_ne _ _ (by omega), hs1r]
        refine ⟨?_, ?_, ?_, ?_, ?_, mem_one_right node, ?_, hv1r, ?_, ?_⟩
        · intro j hj
          rw [subtree_one] at hj
          simp only [List.mem_cons, List.not_mem_nil, or_false] at hj
          push_neg at hj
          constructor
          · rw [hv1e, updf_ne _ _ hj.2.2]
          · rw [updf_ne _ _ hj.1, hs1e, updf_ne _ _ hj.2.2]
        · rw [interiorLive_one, hs2n]
          exact hfI
        · rw [kdInv_one]
          constructor
          · intro _
            rw [hv1n, hv1l]
            exact hkd1.1 hln
          · intro _
            rw [hv1r, hv1n]
            exact hc1f
        · rw [cnt_one, cnt_one, hs2n, hs2l, hs2r, if_neg hfI,
            if_neg hnode, if_neg hln, if_pos hrd]
        · rw [stAcc_one]
          refine ⟨?_, ?_, ?_⟩
          · rw [allLive_one, hs2n, hs2l, hs2r]
            constructor
            · intro _
              exact ⟨hfI, hln, hfI⟩
            · intro _
              rfl
          · rw [hs2l]
            exact hacc1.2.1
          · rw [hs2r]
            constructor
            · intro _
              exact hfI
            · intro _
              rfl
        · rw [hs2r]
          exact hfI
        · intro j hj hlj
          rcases mem_subtree_one hj with h | rfl | rfl
          · exact ⟨node, mem_one_self node,
              by rw [hs2n]; exact hfI, by rw [h]; exact hv1n⟩
          · exact ⟨node - 1, mem_one_left node,
              by rw [hs2l]; exact hlj, hv1l⟩
          · rw [hrd] at hlj
            exact absurd rfl hlj
        · intro j hj hlj
          rcases mem_subtree_one hj with h | rfl | rfl
          · exact Or.inr ⟨node, mem_one_self node, hnode,
              by rw [h]; exact hv1n⟩
          · exact Or.inr ⟨node - 1, mem_one_left node, hln, hv1l⟩
          · exact Or.inl hv1r
      · rw [if_neg hln]
        have hldd : s (node - 1) = St.Invalid := not_not.mp hln
        show insertedOK K less fullSt nd node 1 pend v s v1 s1 (node + 1)
        unfold insertedOK
        refine ⟨?_, ?_, ?_, ?_, ?_, mem_one_right node, ?_, hv1r, ?_, ?_⟩
        · intro j hj
          rw [subtree_one] at hj
          simp only [List.mem_cons, List.not_mem_nil, or_false] at hj
          push_neg at hj
          constructor
          · rw [hv1e, updf_ne _ _ hj.2.2]
          · rw [hs1e, updf_ne _ _ hj.2.2]
        · rw [interiorLive_one, hs1n]
          exact hnode
        · rw [kdInv_one]
          constructor
          · intro hl
            rw [hs1l, hldd] at hl
            exact absurd rfl hl
          · intro _
            rw [hv1r, hv1n]
            exact hc1f
        · rw [cnt_one, cnt_one, hs1n, hs1l, hs1r, if_neg hfI,
            if_neg hnode, if_pos hldd, if_pos hrd]
        · rw [stAcc_one]
          refine ⟨?_, ?_, ?_⟩
          · rw [allLive_one, hs1n, hs1l, hs1r, hldd]
            constructor
            · intro hx
              exact absurd (hacc1.1.mp hx) hroom
            · intro hx
              exact absurd rfl hx.2.1
          · rw [hs1l]
            exact hacc1.2.1
          · rw [hs1r]
            constructor
            · intro _
              exact hfI
            · intro _
              rfl
        · rw [hs1r]
          exact hfI
        · intro j hj hlj
          rcases mem_subtree_one hj with h | rfl | rfl
          · exact ⟨node, mem_one_self node,
              by rw [hs1n]; exact hnode, by rw [h]; exact hv1n⟩
          · rw [hldd] at hlj
            exact absurd rfl hlj
          · rw [hrd] at hlj
            exact absurd rfl hlj
        · intro j hj hlj
          rcases mem_subtree_one hj with h | rfl | rfl
          · exact Or.inr ⟨node, mem_one_self node, hnode,
              by rw [h]; exact hv1n⟩
          · rw [hs1l, hldd] at hlj
            exact absurd rfl hlj
          · exact Or.inl hv1r

/-! Instances of the structural unfoldings at offset `o + 2`, stated so
that the child offset is literally `(o + 2) / 2`. -/

theorem cnt_succ2 (s : Nat → St) (n o : Nat) :
    cnt s n (o + 2) =
      (if s n = St.Invalid then 0 else 1) +
        cnt s (n - (o + 2)) ((o + 2) / 2) +
        cnt s (n + (o + 2)) ((o + 2) / 2) :=
  cnt_succ s n (o + 1)

theorem mem_subtree2 {j n o : Nat} :
    j ∈ subtree n (o + 2) ↔ j = n ∨
      j ∈ subtree (n - (o + 2)) ((o + 2) / 2) ∨
      j ∈ subtree (n + (o + 2)) ((o + 2) / 2) :=
  mem_subtree_succ_iff

theorem allLive2 {s : Nat → St} {n o : Nat} :
    allLive s n (o + 2) ↔ s n ≠ St.Invalid ∧
      allLive s (n - (o + 2)) ((o + 2) / 2) ∧
      allLive s (n + (o + 2)) ((o + 2) / 2) :=
  allLive_succ_iff

theorem interiorLive2 {s : Nat → St} {n o : Nat} :
    interiorLive s n (o + 2) ↔ s n ≠ St.Invalid ∧
      interiorLive s (n - (o + 2)) ((o + 2) / 2) ∧
      interiorLive s (n + (o + 2)) ((o + 2) / 2) :=
  interiorLive_succ

theorem kdInv2 {K : Nat} {less : Nat → V → V → Bool} {v : Nat → V}
    {s : Nat → St} {nd n o : Nat} :
    kdInv K less v s nd n (o + 2) ↔
      (∀ j ∈ subtree (n - (o + 2)) ((o + 2) / 2),
        s j ≠ St.Invalid → less nd (v n) (v j) = false) ∧
      (∀ j ∈ subtree (n + (o + 2)) ((o + 2) / 2),
        s j ≠ St.Invalid → less nd (v j) (v n) = false) ∧
      kdInv K less v s (incd K nd) (n - (o + 2)) ((o + 2) / 2) ∧
      kdInv K less v s (incd K nd) (n + (o + 2)) ((o + 2) / 2) :=
  kdInv_succ

theorem stAcc2 {fullSt : St} {s : Nat → St} {n o : Nat} :
    stAcc fullSt s n (o + 2) ↔
      (s n = fullSt ↔ allLive s n (o + 2)) ∧
      stAcc fullSt s (n - (o + 2)) ((o + 2) / 2) ∧
      stAcc fullSt s (n + (o + 2)) ((o + 2) / 2) :=
  stAcc_succ

/-! Reassembling `insertedOK` at a parent node after a plain recursive
insertion into one child, followed by the `state_add` merge write the
source performs at the parent. -/

theorem mergeLeft_spec {K : Nat} {less : Nat → V → V → Bool} {fullSt : St}
    (hfull : fullSt = St.Heads ∨ fullSt = St.Tails)
    (o node nd : Nat) (pend : Pend V) (v : Nat → V) (s : Nat → St)
    (v1 : Nat → V) (s1 : Nat → St) (res : Nat)
    (hw : wfPos node (o + 2)) (hIL : interiorLive s node (o + 2))
    (hkd : kdInv K less v s nd node (o + 2))
    (hacc : stAcc fullSt s node (o + 2))
    (hpc : less nd (v node) (Pend.cref v pend) = false)
    (hr : insertedOK K less fullSt (incd K nd) (node - (o + 2))
      ((o + 2) / 2) pend v s v1 s1 res) :
    insertedOK K less fullSt nd node (o + 2) pend v s v1
      (updf s1 node
        (stAdd (s1 (node - (o + 2))) (s1 (node + (o + 2))))) res := by
  have hfI : fullSt ≠ St.Invalid := by
    rcases hfull with rfl | rfl <;> decide
  have hfU : fullSt ≠ St.Unsure := by
    rcases hfull with rfl | rfl <;> decide
  have h1 : (1:Nat) ≤ o + 2 := by omega
  have hco1 : (1:Nat) ≤ (o + 2) / 2 := by omega
  have hilD := interiorLive2.mp hIL
  have hkdD := kdInv2.mp hkd
  have haccD := stAcc2.mp hacc
  have hLlt : ∀ j ∈ subtree (node - (o + 2)) ((o + 2) / 2), j < node :=
    fun j hj => mem_left_lt h1 hw hj
  have hRgt : ∀ j ∈ subtree (node + (o + 2)) ((o + 2) / 2), node < j :=
    fun j hj => mem_right_gt h1 hj
  have hRnL : ∀ j ∈ subtree (node + (o + 2)) ((o + 2) / 2),
      j ∉ subtree (node - (o + 2)) ((o + 2) / 2) := by
    intro j hj hmem
    have hx := hRgt j hj
    have hy := hLlt j hmem
    omega
  have hnodeL : node ∉ subtree (node - (o + 2)) ((o + 2) / 2) := by
    intro hmem
    have hx := hLlt node hmem
    omega
  obtain ⟨hrF, hrI, hrK, hrC, hrA, hrM, hrL, hrV, hrQ, hrS⟩ := hr
  have hrightVS : ∀ j ∈ subtree (node + (o + 2)) ((o + 2) / 2),
      v1 j = v j ∧ s1 j = s j := fun j hj => hrF j (hRnL j hj)
  have hnodeVS : v1 node = v node ∧ s1 node = s node := hrF node hnodeL
  set s2 := updf s1 node
    (stAdd (s1 (node - (o + 2))) (s1 (node + (o + 2)))) with hs2e
  have hs2L : ∀ j ∈ subtree (node - (o + 2)) ((o + 2) / 2),
      s2 j = s1 j := by
    intro j hj
    rw [hs2e]
    exact updf_ne _ _ (by have := hLlt j hj; omega)
  have hs2R : ∀ j ∈ subtree (node + (o + 2)) ((o + 2) / 2),
      s2 j = s j := by
    intro j hj
    rw [hs2e, updf_ne _ _ (by have := hRgt j hj; omega), (hrightVS j hj).2]
  have hlnl : s1 (node - (o + 2)) ≠ St.Invalid := interiorLive_root hco1 hrI
  have hrnl : s1 (node + (o + 2)) ≠ St.Invalid := by
    rw [(hrightVS _ (mem_subtree_self ..)).2]
    exact interiorLive_root hco1 hilD.2.2
  have hs2n : s2 node =
      stAdd (s1 (node - (o + 2))) (s1 (node + (o + 2))) := by
    rw [hs2e]
    exact updf_self ..
  have hs2nl : s2 node ≠ St.Invalid := by
    rw [hs2n]
    exact stAdd_ne_invalid hlnl hrnl
  unfold insertedOK
  refine ⟨?_, ?_, ?_, ?_, ?_, ?_, ?_, hrV, ?_, ?_⟩
  · intro j hj
    rw [mem_subtree2] at hj
    push_neg at hj
    obtain ⟨hjn, hjl, hjr⟩ := hj
    exact ⟨(hrF j hjl).1, by rw [hs2e, updf_ne _ _ hjn, (hrF j hjl).2]⟩
  · rw [interiorLive2]
    exact ⟨hs2nl,
      interiorLive_congr ((o + 2) / 2) (node - (o + 2))
        (fun j hj => (hs2L j hj).symm) hrI,
      interiorLive_congr ((o + 2) / 2) (node + (o + 2))
        (fun j hj => (hs2R j hj).symm) hilD.2.2⟩
  · rw [kdInv2]
    refine ⟨?_, ?_, ?_, ?_⟩
    · intro j hj hlj
      rw [hs2L j hj] at hlj
      rw [hnodeVS.1]
      rcases hrS j hj hlj with hcv | ⟨i, hi, hiliv, hival⟩
      · rw [hcv]
        exact hpc
      · rw [hival]
        exact hkdD.1 i hi hiliv
    · intro j hj hlj
      rw [hs2R j hj] at hlj
      rw [hnodeVS.1, (hrightVS j hj).1]
      exact hkdD.2.1 j hj hlj
    · refine kdInv_congr ((o + 2) / 2) (incd K nd) (node - (o + 2))
        (fun j hj => rfl) (fun j hj => (hs2L j hj).symm) hrK
    · refine kdInv_congr ((o + 2) / 2) (incd K nd) (node + (o + 2))
        (fun j hj => ((hrightVS j hj).1).symm)
        (fun j hj => (hs2R j hj).symm) hkdD.2.2.2
  · rw [cnt_succ2, cnt_succ2, if_neg hilD.1, if_neg hs2nl,
      cnt_congr hs2L, cnt_congr hs2R, hrC]
    omega
  · rw [stAcc2]
    refine ⟨?_, stAcc_congr ((o + 2) / 2) (node - (o + 2))
      (fun j hj => (hs2L j hj).symm) hrA,
      stAcc_congr ((o + 2) / 2) (node + (o + 2))
        (fun j hj => (hs2R j hj).symm) haccD.2.2⟩
    rw [hs2n, stAdd_eq_iff hfU, allLive2]
    constructor
    · intro hx
      refine ⟨hs2nl, ?_, ?_⟩
      · exact (allLive_congr hs2L).mpr
          ((stAcc_head hrA).mp hx.1)
      · exact (allLive_congr hs2R).mpr
          ((stAcc_head haccD.2.2).mp (by rw [← (hrightVS _ (mem_subtree_self ..)).2]; exact hx.2))
    · intro hx
      refine ⟨(stAcc_head hrA).mpr ((allLive_congr hs2L).mp hx.2.1), ?_⟩
      rw [(hrightVS _ (mem_subtree_self ..)).2]
      exact (stAcc_head haccD.2.2).mpr ((allLive_congr hs2R).mp hx.2.2)
  · exact mem_subtree_left h1 hrM
  · rw [hs2e, updf_ne _ _ (by have := hLlt res hrM; omega)]
    exact hrL
  · intro j hj hlj
    rcases mem_subtree2.mp hj with h | hjl | hjr
    · refine ⟨node, mem_subtree2.mpr (Or.inl rfl), hs2nl, ?_⟩
      rw [h, hnodeVS.1]
    · obtain ⟨i, hi, hiliv, hival⟩ := hrQ j hjl hlj
      exact ⟨i, mem_subtree2.mpr (Or.inr (Or.inl hi)),
        by rw [hs2L i hi]; exact hiliv, hival⟩
    · exact ⟨j, mem_subtree2.mpr (Or.inr (Or.inr hjr)),
        by rw [hs2R j hjr]; exact hlj, (hrightVS j hjr).1⟩
  · intro j hj hlj
    rcases mem_subtree2.mp hj with h | hjl | hjr
    · refine Or.inr ⟨node, mem_subtree2.mpr (Or.inl rfl), hilD.1, ?_⟩
      rw [h, hnodeVS.1]
    · rw [hs2L j hjl] at hlj
      rcases hrS j hjl hlj with hcv | ⟨i, hi, hiliv, hival⟩
      · exact Or.inl hcv
      · exact Or.inr ⟨i, mem_subtree2.mpr (Or.inr (Or.inl hi)),
          hiliv, hival⟩
    · exact Or.inr ⟨j, mem_subtree2.mpr (Or.inr (Or.inr hjr)),
        by rw [← hs2R j hjr]; exact hlj,
        (hrightVS j hjr).1⟩

theorem mergeRight_spec {K : Nat} {less : Nat → V → V → Bool} {fullSt : St}
    (hfull : fullSt = St.Heads ∨ fullSt = St.Tails)
    (o node nd : Nat) (pend : Pend V) (v : Nat → V) (s : Nat → St)
    (v1 : Nat → V) (s1 : Nat → St) (res : Nat)
    (hw : wfPos node (o + 2)) (hIL : interiorLive s node (o + 2))
    (hkd : kdInv K less v s nd node (o + 2))
    (hacc : stAcc fullSt s node (o + 2))
    (hcp : less nd (Pend.cref v pend) (v node) = false)
    (hr : insertedOK K less fullSt (incd K nd) (node + (o + 2))
      ((o + 2) / 2) pend v s v1 s1 res) :
    insertedOK K less fullSt nd node (o + 2) pend v s v1
      (updf s1 node
        (stAdd (s1 (node - (o + 2))) (s1 (node + (o + 2))))) res := by
  have hfI : fullSt ≠ St.Invalid := by
    rcases hfull with rfl | rfl <;> decide
  have hfU : fullSt ≠ St.Unsure := by
    rcases hfull with rfl | rfl <;> decide
  have h1 : (1:Nat) ≤ o + 2 := by omega
  have hco1 : (1:Nat) ≤ (o + 2) / 2 := by omega
  have hilD := interiorLive2.mp hIL
  have hkdD := kdInv2.mp hkd
  have haccD := stAcc2.mp hacc
  have hLlt : ∀ j ∈ subtree (node - (o + 2)) ((o + 2) / 2), j < node :=
    fun j hj => mem_left_lt h1 hw hj
  have hRgt : ∀ j ∈ subtree (node + (o + 2)) ((o + 2) / 2), node < j :=
    fun j hj => mem_right_gt h1 hj
  have hLnR : ∀ j ∈ subtree (node - (o + 2)) ((o + 2) / 2),
      j ∉ subtree (node + (o + 2)) ((o + 2) / 2) := by
    intro j hj hmem
    have hx := hLlt j hj
    have hy := hRgt j hmem
    omega
  have hnodeR : node ∉ subtree (node + (o + 2)) ((o + 2) / 2) := by
    intro hmem
    have hx := hRgt node hmem
    omega
  obtain ⟨hrF, hrI, hrK, hrC, hrA, hrM, hrL, hrV, hrQ, hrS⟩ := hr
  have hleftVS : ∀ j ∈ subtree (node - (o + 2)) ((o + 2) / 2),
      v1 j = v j ∧ s1 j = s j := fun j hj => hrF j (hLnR j hj)
  have hnodeVS : v1 node = v node ∧ s1 node = s node := hrF node hnodeR
  set s2 := updf s1 node
    (stAdd (s1 (node - (o + 2))) (s1 (node + (o + 2)))) with hs2e
  have hs2R : ∀ j ∈ subtree (node + (o + 2)) ((o + 2) / 2),
      s2 j = s1 j := by
    intro j hj
    rw [hs2e]
    exact updf_ne _ _ (by have := hRgt j hj; omega)
  have hs2L : ∀ j ∈ subtree (node - (o + 2)) ((o + 2) / 2),
      s2 j = s j := by
    intro j hj
    rw [hs2e, updf_ne _ _ (by have := hLlt j hj; omega), (hleftVS j hj).2]
  have hrnl : s1 (node + (o + 2)) ≠ St.Invalid := interiorLive_root hco1 hrI
  have hlnl : s1 (node - (o + 2)) ≠ St.Invalid := by
    rw [(hleftVS _ (mem_subtree_self ..)).2]
    exact interiorLive_root hco1 hilD.2.1
  have hs2n : s2 node =
      stAdd (s1 (node - (o + 2))) (s1 (node + (o + 2))) := by
    rw [hs2e]
    exact updf_self ..
  have hs2nl : s2 node ≠ St.Invalid := by
    rw [hs2n]
    exact stAdd_ne_invalid hlnl hrnl
  unfold insertedOK
  refine ⟨?_, ?_, ?_, ?_, ?_, ?_, ?_, hrV, ?_, ?_⟩
  · intro j hj
    rw [mem_subtree2] at hj
    push_neg at hj
    obtain ⟨hjn, hjl, hjr⟩ := hj
    exact ⟨(hrF j hjr).1, by rw [hs2e, updf_ne _ _ hjn, (hrF j hjr).2]⟩
  · rw [interiorLive2]
    exact ⟨hs2nl,
      interiorLive_congr ((o + 2) / 2) (node - (o + 2))
        (fun j hj => (hs2L j hj).symm) hilD.2.1,
      interiorLive_congr ((o + 2) / 2) (node + (o + 2))
        (fun j hj => (hs2R j hj).symm) hrI⟩
  · rw [kdInv2]
    refine ⟨?_, ?_, ?_, ?_⟩
    · intro j hj hlj
      rw [hs2L j hj] at hlj
      rw [hnodeVS.1, (hleftVS j hj).1]
      exact hkdD.1 j hj hlj
    · intro j hj hlj
      rw [hs2R j hj] at hlj
      rw [hnodeVS.1]
      rcases hrS j hj hlj with hcv | ⟨i, hi, hiliv, hival⟩
      · rw [hcv]
        exact hcp
      · rw [hival]
        exact hkdD.2.1 i hi hiliv
    · refine kdInv_congr ((o + 2) / 2) (incd K nd) (node - (o + 2))
        (fun j hj => ((hleftVS j hj).1).symm)
        (fun j hj => (hs2L j hj).symm) hkdD.2.2.1
    · refine kdInv_congr ((o + 2) / 2) (incd K nd) (node + (o + 2))
        (fun j hj => rfl) (fun j hj => (hs2R j hj).symm) hrK
  · rw [cnt_succ2, cnt_succ2, if_neg hilD.1, if_neg hs2nl,
      cnt_congr hs2L, cnt_congr hs2R, hrC]
    omega
  · rw [stAcc2]
    refine ⟨?_, stAcc_congr ((o + 2) / 2) (node - (o + 2))
      (fun j hj => (hs2L j hj).symm) haccD.2.1,
      stAcc_congr ((o + 2) / 2) (node + (o + 2))
        (fun j hj => (hs2R j hj).symm) hrA⟩
    rw [hs2n, stAdd_eq_iff hfU, allLive2]
    constructor
    · intro hx
      refine ⟨hs2nl, ?_, ?_⟩
      · exact (allLive_congr hs2L).mpr
          ((stAcc_head haccD.2.1).mp (by rw [← (hleftVS _ (mem_subtree_self ..)).2]; exact hx.1))
      · exact (allLive_congr hs2R).mpr
          ((stAcc_head hrA).mp hx.2)
    · intro hx
      refine ⟨?_, (stAcc_head hrA).mpr ((allLive_congr hs2R).mp hx.2.2)⟩
      rw [(hleftVS _ (mem_subtree_self ..)).2]
      exact (stAcc_head haccD.2.1).mpr ((allLive_congr hs2L).mp hx.2.1)
  · exact mem_subtree_right h1 hrM
  · rw [hs2e, updf_ne _ _ (by have := hRgt res hrM; omega)]
    exact hrL
  · intro j hj hlj
    rcases mem_subtree2.mp hj with h | hjl | hjr
    · refine ⟨node, mem_subtree2.mpr (Or.inl rfl), hs2nl, ?_⟩
      rw [h, hnodeVS.1]
    · exact ⟨j, mem_subtree2.mpr (Or.inr (Or.inl hjl)),
        by rw [hs2L j hjl]; exact hlj, (hleftVS j hjl).1⟩
    · obtain ⟨i, hi, hiliv, hival⟩ := hrQ j hjr hlj
      exact ⟨i, mem_subtree2.mpr (Or.inr (Or.inr hi)),
        by rw [hs2R i hi]; exact hiliv, hival⟩
  · intro j hj hlj
    rcases mem_subtree2.mp hj with h | hjl | hjr
    · refine Or.inr ⟨node, mem_subtree2.mpr (Or.inl rfl), hilD.1, ?_⟩
      rw [h, hnodeVS.1]
    · exact Or.inr ⟨j, mem_subtree2.mpr (Or.inr (Or.inl hjl)),
        by rw [← hs2L j hjl]; exact hlj,
        (hleftVS j hjl).1⟩
    · rw [hs2R j hjr] at hlj
      rcases hrS j hjr hlj with hcv | ⟨i, hi, hiliv, hival⟩
      · exact Or.inl hcv
      · exact Or.inr ⟨i, mem_subtree2.mpr (Or.inr (Or.inr hi)),
          hiliv, hival⟩

/-! The master lemma for `_single_insert`: on a subtree with a free
slot it adds exactly the pending value and preserves every structural
invariant, including through the rotation path that pushes the current
node down one side, pulls the extremum of the other side up, and
re-inserts into the vacated subtree. -/

theorem singleInsert_spec {K : Nat} {less : Nat → V → V → Bool}
    (hswo : IsSWO less) {fullSt : St}
    (hfull : fullSt = St.Heads ∨ fullSt = St.Tails) :
    ∀ (off node nd : Nat) (pend : Pend V) (v : Nat → V) (s : Nat → St),
      1 ≤ off →
      wfPos node off →
      interiorLive s node off →
      ¬ allLive s node off →
      pendOK pend node off →
      kdInv K less v s nd node off →
      stAcc fullSt s node off →
      insertedOK K less fullSt nd node off pend v s
        (singleInsert K less fullSt nd off node pend v s).1.1
        (singleInsert K less fullSt nd off node pend v s).1.2
        (singleInsert K less fullSt nd off node pend v s).2 := by
  intro off
  induction off using Nat.strong_induction_on with
  | _ off ih =>
    intro node nd pend v s hone hw hIL hroom hpend hkd hacc
    match off with
    | 0 => omega
    | 1 =>
      exact singleInsert_one_spec hswo hfull node nd pend v s hw hIL hroom
        hpend hkd hacc
    | o + 2 =>
      have h1 : (1:Nat) ≤ o + 2 := by omega
      have hco1 : (1:Nat) ≤ (o + 2) / 2 := by omega
      have hfI : fullSt ≠ St.Invalid := by
        rcases hfull with rfl | rfl <;> decide
      have hfU : fullSt ≠ St.Unsure := by
        rcases hfull with rfl | rfl <;> decide
      have hilD := interiorLive2.mp hIL
      have hkdD := kdInv2.mp hkd
      have haccD := stAcc2.mp hacc
      have hnode : s node ≠ St.Invalid := hilD.1
      have hLlt : ∀ j ∈ subtree (node - (o + 2)) ((o + 2) / 2), j < node :=
        fun j hj => mem_left_lt h1 hw hj
      have hRgt : ∀ j ∈ subtree (node + (o + 2)) ((o + 2) / 2), node < j :=
        fun j hj => mem_right_gt h1 hj
      have hLnR : ∀ j ∈ subtree (node - (o + 2)) ((o + 2) / 2),
          j ∉ subtree (node + (o + 2)) ((o + 2) / 2) := by
        intro j hj hmem
        have hx := hLlt j hj
        have hy := hRgt j hmem
        omega
      have hRnL : ∀ j ∈ subtree (node + (o + 2)) ((o + 2) / 2),
          j ∉ subtree (node - (o + 2)) ((o + 2) / 2) := by
        intro j hj hmem
        have hx := hRgt j hj
        have hy := hLlt j hmem
        omega
      have hnodeL : node ∉ subtree (node - (o + 2)) ((o + 2) / 2) := by
        intro hmem
        have hx := hLlt node hmem
        omega
      have hnodeR : node ∉ subtree (node + (o + 2)) ((o + 2) / 2) := by
        intro hmem
        have hx := hRgt node hmem
        omega
      have hnotLtot : ∀ j, j ∉ subtree node (o + 2) →
          j ∉ subtree (node - (o + 2)) ((o + 2) / 2) :=
        fun j hj hl => hj (mem_subtree_left h1 hl)
      have hnotRtot : ∀ j, j ∉ subtree node (o + 2) →
          j ∉ subtree (node + (o + 2)) ((o + 2) / 2) :=
        fun j hj hr => hj (mem_subtree_right h1 hr)
      have hagree : ∀ (vx : Nat → V),
          (∀ j, j ∉ subtree node (o + 2) → vx j = v j) →
          Pend.cref vx pend = Pend.cref v pend :=
        fun vx h => cref_eq_of_agree hpend h
      have hpendL : pendOK pend (node - (o + 2)) ((o + 2) / 2) :=
        pendOK_left h1 hpend
      have hpendR : pendOK pend (node + (o + 2)) ((o + 2) / 2) :=
        pendOK_right h1 hpend
      have hbuf : Pend.cref v (Pend.buf node) = v node := rfl
      simp only [singleInsert, Pend.placeAt]
      by_cases hc1 : less nd (Pend.cref v pend) (v node) = true
      · rw [if_pos hc1]
        by_cases hlf : s (node - (o + 2)) = fullSt
        · rw [if_pos hlf]
          set r1 := singleInsert K less fullSt (incd K nd) ((o + 2) / 2)
            (node + (o + 2)) (Pend.buf node) v s with hr1e
          have hallL : allLive s (node - (o + 2)) ((o + 2) / 2) :=
            (stAcc_head haccD.2.1).mp hlf
          have hroomR : ¬ allLive s (node + (o + 2)) ((o + 2) / 2) := by
            intro hcon
            exact hroom (allLive2.mpr ⟨hnode, hallL, hcon⟩)
          have hr1 : insertedOK K less fullSt (incd K nd) (node + (o + 2))
              ((o + 2) / 2) (Pend.buf node) v s r1.1.1 r1.1.2 r1.2 := by
            rw [hr1e]
            exact ih ((o + 2) / 2) (by omega) (node + (o + 2)) (incd K nd)
              (Pend.buf node) v s hco1 (wf_right h1) hilD.2.2 hroomR
              (pendOK_buf_right h1) hkdD.2.2.2 haccD.2.2
          obtain ⟨r1F, r1I, r1K, r1C, r1A, r1M, r1L, r1V, r1Q, r1S⟩ := hr1
          have hLu : ∀ j ∈ subtree (node - (o + 2)) ((o + 2) / 2),
              r1.1.1 j = v j ∧ r1.1.2 j = s j :=
            fun j hj => r1F j (hLnR j hj)
          have hNu : r1.1.1 node = v node ∧ r1.1.2 node = s node :=
            r1F node hnodeR
          have hallL1 : allLive r1.1.2 (node - (o + 2)) ((o + 2) / 2) :=
            (allLive_congr (fun j hj => (hLu j hj).2)).mpr hallL
          have hILL1 : interiorLive r1.1.2 (node - (o + 2)) ((o + 2) / 2) :=
            interiorLive_of_allLive _ _ hallL1
          have hkdL1 : kdInv K less r1.1.1 r1.1.2 (incd K nd)
              (node - (o + 2)) ((o + 2) / 2) :=
            kdInv_congr ((o + 2) / 2) (incd K nd) (node - (o + 2))
              (fun j hj => ((hLu j hj).1).symm)
              (fun j hj => ((hLu j hj).2).symm) hkdD.2.2.1
          have hlnl1 : r1.1.2 (node - (o + 2)) ≠ St.Invalid := by
            rw [(hLu _ (mem_subtree_self ..)).2]
            exact hallL _ (mem_subtree_self ..)
          set tmp := maxFrom K less r1.1.1 r1.1.2 nd (incd K nd)
            ((o + 2) / 2) (node - (o + 2)) (node - (o + 2)) with htmpe
          have hmax : r1.1.2 tmp ≠ St.Invalid ∧
              less nd (r1.1.1 tmp) (r1.1.1 (node - (o + 2))) = false ∧
              ∀ x ∈ subtree (node - (o + 2)) ((o + 2) / 2),
                r1.1.2 x ≠ St.Invalid →
                less nd (r1.1.1 tmp) (r1.1.1 x) = false := by
            rw [htmpe]
            exact maxFrom_sound hswo ((o + 2) / 2) (incd K nd)
              (node - (o + 2)) (node - (o + 2)) hILL1 hkdL1 hlnl1
              (hswo.irr nd (r1.1.1 (node - (o + 2))))
          have htmpm : tmp ∈ subtree (node - (o + 2)) ((o + 2) / 2) := by
            rw [htmpe]
            rcases @maxFrom_mem V K less r1.1.1 r1.1.2 nd ((o + 2) / 2)
              (incd K nd) (node - (o + 2)) (node - (o + 2)) with h | h
            · rw [h]
              exact mem_subtree_self ..
            · exact h
          have htmpv : r1.1.1 tmp = v tmp := (hLu tmp htmpm).1
          have htmps : s tmp ≠ St.Invalid := hallL tmp htmpm
          have hmaxcov : ∀ x ∈ subtree (node - (o + 2)) ((o + 2) / 2),
              s x ≠ St.Invalid → less nd (v tmp) (v x) = false := by
            intro x hx hlx
            have hq := hmax.2.2 x hx (by rw [(hLu x hx).2]; exact hlx)
            rw [htmpv, (hLu x hx).1] at hq
            exact hq
          have hcref1 : Pend.cref r1.1.1 pend = Pend.cref v pend :=
            hagree _ (fun j hj => (r1F j (hnotRtot j hj)).1)
          by_cases hc3 : less nd (Pend.cref r1.1.1 pend) (r1.1.1 tmp) = true
          · rw [if_pos hc3]
            have hc3x : less nd (Pend.cref v pend) (v tmp) = true := by
              rw [← hcref1, ← htmpv]
              exact hc3
            set p := eraseWhenFull K less (incd K nd) ((o + 2) / 2)
              (node - (o + 2)) tmp (updf r1.1.1 node (r1.1.1 tmp)) r1.1.2
              with hpe
            have hkdv2 : kdInv K less (updf r1.1.1 node (r1.1.1 tmp)) r1.1.2
                (incd K nd) (node - (o + 2)) ((o + 2) / 2) :=
              kdInv_congr ((o + 2) / 2) (incd K nd) (node - (o + 2))
                (fun j hj => (updf_ne _ _
                  (by have := hLlt j hj; omega)).symm)
                (fun j hj => rfl) hkdL1
            have haccL1 : stAcc fullSt r1.1.2 (node - (o + 2))
                ((o + 2) / 2) :=
              stAcc_congr ((o + 2) / 2) (node - (o + 2))
                (fun j hj => ((hLu j hj).2).symm) haccD.2.1
            have hew : erasedOK K less fullSt (incd K nd) (node - (o + 2))
                ((o + 2) / 2) tmp (updf r1.1.1 node (r1.1.1 tmp)) r1.1.2
                p.1 p.2 := by
              rw [hpe]
              exact eraseWhenFull_spec hswo hfull ((o + 2) / 2)
                (node - (o + 2)) tmp (incd K nd)
                (updf r1.1.1 node (r1.1.1 tmp)) r1.1.2 (wf_left hw h1)
                hallL1 htmpm hkdv2 haccL1
            obtain ⟨ewF, ewI, ewK, ewC, ewA, ewP, ewS⟩ := hew
            have hroomL2 : ¬ allLive p.2 (node - (o + 2)) ((o + 2) / 2) := by
              intro hcon
              have hx := allLive_iff_cnt.mp hcon
              have hy := allLive_iff_cnt.mp hallL1
              omega
            set r2 := singleInsert K less fullSt (incd K nd) ((o + 2) / 2)
              (node - (o + 2)) pend p.1 p.2 with hr2e
            have hr2 : insertedOK K less fullSt (incd K nd)
                (node - (o + 2)) ((o + 2) / 2) pend p.1 p.2
                r2.1.1 r2.1.2 r2.2 := by
              rw [hr2e]
              exact ih ((o + 2) / 2) (by omega) (node - (o + 2)) (incd K nd)
                pend p.1 p.2 hco1 (wf_left hw h1) ewI hroomL2 hpendL ewK ewA
            obtain ⟨r2F, r2I, r2K, r2C, r2A, r2M, r2L, r2V, r2Q, r2S⟩ := hr2
            show insertedOK K less fullSt nd node (o + 2) pend v s r2.1.1
              (updf r2.1.2 node
                (stAdd (r2.1.2 (node - (o + 2)))
                  (r2.1.2 (node + (o + 2))))) r2.2
            have hv2cref : Pend.cref (updf r1.1.1 node (r1.1.1 tmp)) pend =
                Pend.cref v pend := by
              refine (cref_eq_of_agree hpend ?_).trans hcref1
              intro j hj
              exact updf_ne _ _
                (by intro he; rw [he] at hj; exact hj (mem_subtree_self ..))
            have hpcref : Pend.cref p.1 pend = Pend.cref v pend := by
              refine (cref_eq_of_agree hpend ?_).trans hv2cref
              intro j hj
              exact (ewF j (hnotLtot j hj)).1
            have hRu : ∀ j ∈ subtree (node + (o + 2)) ((o + 2) / 2),
                r2.1.1 j = r1.1.1 j ∧ r2.1.2 j = r1.1.2 j := by
              intro j hj
              have h3 := r2F j (hRnL j hj)
              have h2 := ewF j (hRnL j hj)
              have hne : j ≠ node := by have := hRgt j hj; omega
              exact ⟨h3.1.trans (h2.1.trans (updf_ne _ _ hne)),
                h3.2.trans h2.2⟩
            have hNu2 : r2.1.1 node = v tmp ∧ r2.1.2 node = r1.1.2 node := by
              have h3 := r2F node hnodeL
              have h2 := ewF node hnodeL
              constructor
              · rw [h3.1, h2.1, updf_self, htmpv]
              · rw [h3.2, h2.2]
            set sF := updf r2.1.2 node
              (stAdd (r2.1.2 (node - (o + 2))) (r2.1.2 (node + (o + 2))))
              with hsFe
            have hsFL : ∀ j ∈ subtree (node - (o + 2)) ((o + 2) / 2),
                sF j = r2.1.2 j := by
              intro j hj
              rw [hsFe]
              exact updf_ne _ _ (by have := hLlt j hj; omega)
            have hsFR : ∀ j ∈ subtree (node + (o + 2)) ((o + 2) / 2),
                sF j = r1.1.2 j := by
              intro j hj
              rw [hsFe, updf_ne _ _ (by have := hRgt j hj; omega)]
              exact (hRu j hj).2
            have hsFn : sF node =
                stAdd (r2.1.2 (node - (o + 2)))
                  (r2.1.2 (node + (o + 2))) := by
              rw [hsFe]
              exact updf_self ..
            have hlnl2 : r2.1.2 (node - (o + 2)) ≠ St.Invalid :=
              interiorLive_root hco1 r2I
            have hrnl2 : r2.1.2 (node + (o + 2)) ≠ St.Invalid := by
              rw [(hRu _ (mem_subtree_self ..)).2]
              exact interiorLive_root hco1 r1I
            have hsFnl : sF node ≠ St.Invalid := by
              rw [hsFn]
              exact stAdd_ne_invalid hlnl2 hrnl2
            unfold insertedOK
            refine ⟨?_, ?_, ?_, ?_, ?_, ?_, ?_, ?_, ?_, ?_⟩
            · intro j hj
              rw [mem_subtree2] at hj
              push_neg at hj
              obtain ⟨hjn, hjl, hjr⟩ := hj
              have h3 := r2F j hjl
              have h2 := ewF j hjl
              have h1r := r1F j hjr
              constructor
              · rw [h3.1, h2.1, updf_ne _ _ hjn, h1r.1]
              · rw [hsFe, updf_ne _ _ hjn, h3.2, h2.2, h1r.2]
            · rw [interiorLive2]
              refine ⟨hsFnl, ?_, ?_⟩
              · exact interiorLive_congr ((o + 2) / 2) (node - (o + 2))
                  (fun j hj => (hsFL j hj).symm) r2I
              · exact interiorLive_congr ((o + 2) / 2) (node + (o + 2))
                  (fun j hj => (hsFR j hj).symm) r1I
            · rw [kdInv2]
              refine ⟨?_, ?_, ?_, ?_⟩
              · intro j hj hlj
                rw [hsFL j hj] at hlj
                rw [hNu2.1]
                rcases r2S j hj hlj with hcv | ⟨i, hi, hiliv, hival⟩
                · rw [hcv, hpcref]
                  exact hswo.asym hc3x
                · obtain ⟨i2, hi2, hiliv2, hival2⟩ := ewS i hi hiliv
                  have hne2 : i2 ≠ node := by have := hLlt i2 hi2; omega
                  rw [updf_ne _ _ hne2, (hLu i2 hi2).1] at hival2
                  rw [hival, hival2]
                  exact hmaxcov i2 hi2
                    (by rw [← (hLu i2 hi2).2]; exact hiliv2)
              · intro j hj hlj
                rw [hsFR j hj] at hlj
                rw [hNu2.1, (hRu j hj).1]
                rcases r1S j hj hlj with hcv | ⟨i, hi, hiliv, hival⟩
                · rw [hcv, hbuf]
                  exact hkdD.1 tmp htmpm htmps
                · rw [hival]
                  exact hswo.ntr nd (v i) (v node) (v tmp)
                    (hkdD.2.1 i hi hiliv) (hkdD.1 tmp htmpm htmps)
              · exact kdInv_congr ((o + 2) / 2) (incd K nd) (node - (o + 2))
                  (fun j hj => rfl) (fun j hj => (hsFL j hj).symm) r2K
              · exact kdInv_congr ((o + 2) / 2) (incd K nd) (node + (o + 2))
                  (fun j hj => ((hRu j hj).1).symm)
                  (fun j hj => (hsFR j hj).symm) r1K
            · rw [cnt_succ2, cnt_succ2, if_neg hnode, if_neg hsFnl,
                cnt_congr hsFL, cnt_congr hsFR]
              have hcl : cnt r1.1.2 (node - (o + 2)) ((o + 2) / 2) =
                  cnt s (node - (o + 2)) ((o + 2) / 2) :=
                cnt_congr (fun j hj => (hLu j hj).2)
              omega
            · rw [stAcc2]
              refine ⟨?_, stAcc_congr ((o + 2) / 2) (node - (o + 2))
                (fun j hj => (hsFL j hj).symm) r2A,
                stAcc_congr ((o + 2) / 2) (node + (o + 2))
                  (fun j hj => (hsFR j hj).symm) r1A⟩
              rw [hsFn, stAdd_eq_iff hfU, allLive2]
              constructor
              · intro hx
                refine ⟨hsFnl, ?_, ?_⟩
                · exact (allLive_congr hsFL).mpr ((stAcc_head r2A).mp hx.1)
                · refine (allLive_congr hsFR).mpr ((stAcc_head r1A).mp ?_)
                  rw [← (hRu _ (mem_subtree_self ..)).2]
                  exact hx.2
              · intro hx
                refine ⟨(stAcc_head r2A).mpr
                  ((allLive_congr hsFL).mp hx.2.1), ?_⟩
                rw [(hRu _ (mem_subtree_self ..)).2]
                exact (stAcc_head r1A).mpr ((allLive_congr hsFR).mp hx.2.2)
            · exact mem_subtree_left h1 r2M
            · rw [hsFe, updf_ne _ _ (by have := hLlt r2.2 r2M; omega)]
              exact r2L
            · rw [r2V]
              exact hpcref
            · intro j hj hlj
              rcases mem_subtree2.mp hj with h | hjl | hjr
              · refine ⟨r1.2, mem_subtree2.mpr (Or.inr (Or.inr r1M)),
                  ?_, ?_⟩
                · rw [hsFR r1.2 r1M]
                  exact r1L
                · rw [(hRu r1.2 r1M).1, r1V, hbuf, h]
              · have hs1j : r1.1.2 j ≠ St.Invalid := by
                  rw [(hLu j hjl).2]
                  exact hlj
                have hval2 : updf r1.1.1 node (r1.1.1 tmp) j = v j := by
                  rw [updf_ne _ _ (by have := hLlt j hjl; omega),
                    (hLu j hjl).1]
                rcases ewP j hjl hs1j with ⟨i, hi, hiliv, hival⟩ | heq
                · obtain ⟨i2, hi2, hiliv2, hival2⟩ := r2Q i hi hiliv
                  refine ⟨i2, mem_subtree2.mpr (Or.inr (Or.inl hi2)),
                    ?_, ?_⟩
                  · rw [hsFL i2 hi2]
                    exact hiliv2
                  · rw [hival2, hival, hval2]
                · have hval3 : updf r1.1.1 node (r1.1.1 tmp) tmp = v tmp := by
                    rw [updf_ne _ _ (by have := hLlt tmp htmpm; omega), htmpv]
                  refine ⟨node, mem_subtree2.mpr (Or.inl rfl), hsFnl, ?_⟩
                  rw [hNu2.1, ← hval2, heq, hval3]
              · obtain ⟨i, hi, hiliv, hival⟩ := r1Q j hjr hlj
                refine ⟨i, mem_subtree2.mpr (Or.inr (Or.inr hi)), ?_, ?_⟩
                · rw [hsFR i hi]
                  exact hiliv
                · rw [(hRu i hi).1, hival]
            · intro j hj hlj
              rcases mem_subtree2.mp hj with h | hjl | hjr
              · refine Or.inr ⟨tmp,
                  mem_subtree2.mpr (Or.inr (Or.inl htmpm)), htmps, ?_⟩
                rw [h, hNu2.1]
              · rw [hsFL j hjl] at hlj
                rcases r2S j hjl hlj with hcv | ⟨i, hi, hiliv, hival⟩
                · left
                  rw [hcv, hpcref]
                · obtain ⟨i2, hi2, hiliv2, hival2⟩ := ewS i hi hiliv
                  refine Or.inr ⟨i2,
                    mem_subtree2.mpr (Or.inr (Or.inl hi2)), ?_, ?_⟩
                  · rw [← (hLu i2 hi2).2]
                    exact hiliv2
                  · rw [hival, hival2, updf_ne _ _
                      (by have := hLlt i2 hi2; omega), (hLu i2 hi2).1]
              · rw [hsFR j hjr] at hlj
                rcases r1S j hjr hlj with hcv | ⟨i, hi, hiliv, hival⟩
                · refine Or.inr ⟨node, mem_subtree2.mpr (Or.inl rfl),
                    hnode, ?_⟩
                  rw [(hRu j hjr).1, hcv, hbuf]
                · refine Or.inr ⟨i, mem_subtree2.mpr (Or.inr (Or.inr hi)),
                    hiliv, ?_⟩
                  rw [(hRu j hjr).1, hival]
          · rw [if_neg hc3]
            have hc3f : less nd (Pend.cref v pend) (v tmp) = false := by
              rw [← hcref1, ← htmpv]
              revert hc3
              cases less nd (Pend.cref r1.1.1 pend) (r1.1.1 tmp) <;> simp
            show insertedOK K less fullSt nd node (o + 2) pend v s
              (updf r1.1.1 node (Pend.cref r1.1.1 pend))
              (updf r1.1.2 node
                (stAdd (r1.1.2 (node - (o + 2)))
                  (r1.1.2 (node + (o + 2))))) node
            set vP := updf r1.1.1 node (Pend.cref r1.1.1 pend) with hvPe
            set sP := updf r1.1.2 node
              (stAdd (r1.1.2 (node - (o + 2))) (r1.1.2 (node + (o + 2))))
              with hsPe
            have hvPL : ∀ j ∈ subtree (node - (o + 2)) ((o + 2) / 2),
                vP j = v j := by
              intro j hj
              rw [hvPe, updf_ne _ _ (by have := hLlt j hj; omega),
                (hLu j hj).1]
            have hvPR : ∀ j ∈ subtree (node + (o + 2)) ((o + 2) / 2),
                vP j = r1.1.1 j := by
              intro j hj
              rw [hvPe, updf_ne _ _ (by have := hRgt j hj; omega)]
            have hvPn : vP node = Pend.cref v pend := by
              rw [hvPe, updf_self, hcref1]
            have hsPL : ∀ j ∈ subtree (node - (o + 2)) ((o + 2) / 2),
                sP j = s j := by
              intro j hj
              rw [hsPe, updf_ne _ _ (by have := hLlt j hj; omega),
                (hLu j hj).2]
            have hsPR : ∀ j ∈ subtree (node + (o + 2)) ((o + 2) / 2),
                sP j = r1.1.2 j := by
              intro j hj
              rw [hsPe, updf_ne _ _ (by have := hRgt j hj; omega)]
            have hsPn : sP node =
                stAdd (r1.1.2 (node - (o + 2)))
                  (r1.1.2 (node + (o + 2))) := by
              rw [hsPe]
              exact updf_self ..
            have hrnlP : r1.1.2 (node + (o + 2)) ≠ St.Invalid :=
              interiorLive_root hco1 r1I
            have hsPnl : sP node ≠ St.Invalid := by
              rw [hsPn]
              exact stAdd_ne_invalid hlnl1 hrnlP
            unfold insertedOK
            refine ⟨?_, ?_, ?_, ?_, ?_, ?_, ?_, hvPn, ?_, ?_⟩
            · intro j hj
              rw [mem_subtree2] at hj
              push_neg at hj
              obtain ⟨hjn, hjl, hjr⟩ := hj
              have h1r := r1F j hjr
              constructor
              · rw [hvPe, updf_ne _ _ hjn, h1r.1]
              · rw [hsPe, updf_ne _ _ hjn, h1r.2]
            · rw [interiorLive2]
              refine ⟨hsPnl, ?_, ?_⟩
              · exact interiorLive_congr ((o + 2) / 2) (node - (o + 2))
                  (fun j hj => (hsPL j hj).symm)
                  (interiorLive_of_allLive _ _ hallL)
              · exact interiorLive_congr ((o + 2) / 2) (node + (o + 2))
                  (fun j hj => (hsPR j hj).symm) r1I
            · rw [kdInv2]
              refine ⟨?_, ?_, ?_, ?_⟩
              · intro j hj hlj
                rw [hsPL j hj] at hlj
                rw [hvPn, hvPL j hj]
                exact hswo.ntr nd (Pend.cref v pend) (v tmp) (v j) hc3f
                  (hmaxcov j hj hlj)
              · intro j hj hlj
                rw [hsPR j hj] at hlj
                rw [hvPn, hvPR j hj]
                rcases r1S j hj hlj with hcv | ⟨i, hi, hiliv, hival⟩
                · rw [hcv, hbuf]
                  exact hswo.asym hc1
                · rw [hival]
                  exact hswo.ntr nd (v i) (v node) (Pend.cref v pend)
                    (hkdD.2.1 i hi hiliv) (hswo.asym hc1)
              · exact kdInv_congr ((o + 2) / 2) (incd K nd) (node - (o + 2))
                  (fun j hj => (hvPL j hj).symm)
                  (fun j hj => (hsPL j hj).symm) hkdD.2.2.1
              · exact kdInv_congr ((o + 2) / 2) (incd K nd) (node + (o + 2))
                  (fun j hj => (hvPR j hj).symm)
                  (fun j hj => (hsPR j hj).symm) r1K
            · rw [cnt_succ2, cnt_succ2, if_neg hnode, if_neg hsPnl,
                cnt_congr hsPL, cnt_congr hsPR]
              omega
            · rw [stAcc2]
              refine ⟨?_, stAcc_congr ((o + 2) / 2) (node - (o + 2))
                (fun j hj => (hsPL j hj).symm) haccD.2.1,
                stAcc_congr ((o + 2) / 2) (node + (o + 2))
                  (fun j hj => (hsPR j hj).symm) r1A⟩
              rw [hsPn, stAdd_eq_iff hfU, allLive2]
              constructor
              · intro hx
                refine ⟨hsPnl, ?_, ?_⟩
                · refine (allLive_congr hsPL).mpr
                    ((stAcc_head haccD.2.1).mp ?_)
                  rw [← (hLu _ (mem_subtree_self ..)).2]
                  exact hx.1
                · exact (allLive_congr hsPR).mpr ((stAcc_head r1A).mp hx.2)
              · intro hx
                refine ⟨?_, (stAcc_head r1A).mpr
                  ((allLive_congr hsPR).mp hx.2.2)⟩
                rw [(hLu _ (mem_subtree_self ..)).2]
                exact (stAcc_head haccD.2.1).mpr
                  ((allLive_congr hsPL).mp hx.2.1)
            · exact mem_subtree2.mpr (Or.inl rfl)
            · exact hsPnl
            · intro j hj hlj
              rcases mem_subtree2.mp hj with h | hjl | hjr
              · refine ⟨r1.2, mem_subtree2.mpr (Or.inr (Or.inr r1M)),
                  ?_, ?_⟩
                · rw [hsPR r1.2 r1M]
                  exact r1L
                · rw [hvPR r1.2 r1M, r1V, hbuf, h]
              · exact ⟨j, mem_subtree2.mpr (Or.inr (Or.inl hjl)),
                  by rw [hsPL j hjl]; exact hlj, hvPL j hjl⟩
              · obtain ⟨i, hi, hiliv, hival⟩ := r1Q j hjr hlj
                refine ⟨i, mem_subtree2.mpr (Or.inr (Or.inr hi)), ?_, ?_⟩
                · rw [hsPR i hi]
                  exact hiliv
                · rw [hvPR i hi, hival]
            · intro j hj hlj
              rcases mem_subtree2.mp hj with h | hjl | hjr
              · left
                rw [h, hvPn]
              · exact Or.inr ⟨j, mem_subtree2.mpr (Or.inr (Or.inl hjl)),
                  by rw [← hsPL j hjl]; exact hlj, hvPL j hjl⟩
              · rw [hsPR j hjr] at hlj
                rcases r1S j hjr hlj with hcv | ⟨i, hi, hiliv, hival⟩
                · refine Or.inr ⟨node, mem_subtree2.mpr (Or.inl rfl),
                    hnode, ?_⟩
                  rw [hvPR j hjr, hcv, hbuf]
                · refine Or.inr ⟨i, mem_subtree2.mpr (Or.inr (Or.inr hi)),
                    hiliv, ?_⟩
                  rw [hvPR j hjr, hival]
        · rw [if_neg hlf]
          set r1 := singleInsert K less fullSt (incd K nd) ((o + 2) / 2)
            (node - (o + 2)) pend v s with hr1e
          show insertedOK K less fullSt nd node (o + 2) pend v s r1.1.1
            (updf r1.1.2 node
              (stAdd (r1.1.2 (node - (o + 2)))
                (r1.1.2 (node + (o + 2))))) r1.2
          have hroomL : ¬ allLive s (node - (o + 2)) ((o + 2) / 2) :=
            fun hcon => hlf ((stAcc_head haccD.2.1).mpr hcon)
          have hr1 : insertedOK K less fullSt (incd K nd) (node - (o + 2))
              ((o + 2) / 2) pend v s r1.1.1 r1.1.2 r1.2 := by
            rw [hr1e]
            exact ih ((o + 2) / 2) (by omega) (node - (o + 2)) (incd K nd)
              pend v s hco1 (wf_left hw h1) hilD.2.1 hroomL hpendL
              hkdD.2.2.1 haccD.2.1
          exact mergeLeft_spec hfull o node nd pend v s r1.1.1 r1.1.2 r1.2
            hw hIL hkd hacc (hswo.asym hc1) hr1
      · rw [if_neg hc1]
        have hc1f : less nd (Pend.cref v pend) (v node) = false := by
          revert hc1
          cases less nd (Pend.cref v pend) (v node) <;> simp
        by_cases hc2 : less nd (v node) (Pend.cref v pend) = true
        · rw [if_pos hc2]
          by_cases hrf : s (node + (o + 2)) = fullSt
          · rw [if_pos hrf]
            set r1 := singleInsert K less fullSt (incd K nd) ((o + 2) / 2)
              (node - (o + 2)) (Pend.buf node) v s with hr1e
            have hallR : allLive s (node + (o + 2)) ((o + 2) / 2) :=
              (stAcc_head haccD.2.2).mp hrf
            have hroomL : ¬ allLive s (node - (o + 2)) ((o + 2) / 2) := by
              intro hcon
              exact hroom (allLive2.mpr ⟨hnode, hcon, hallR⟩)
            have hr1 : insertedOK K less fullSt (incd K nd) (node - (o + 2))
                ((o + 2) / 2) (Pend.buf node) v s r1.1.1 r1.1.2 r1.2 := by
              rw [hr1e]
              exact ih ((o + 2) / 2) (by omega) (node - (o + 2)) (incd K nd)
                (Pend.buf node) v s hco1 (wf_left hw h1) hilD.2.1 hroomL
                (pendOK_buf_left h1 hw) hkdD.2.2.1 haccD.2.1
            obtain ⟨r1F, r1I, r1K, r1C, r1A, r1M, r1L, r1V, r1Q, r1S⟩ := hr1
            have hRu : ∀ j ∈ subtree (node + (o + 2)) ((o + 2) / 2),
                r1.1.1 j = v j ∧ r1.1.2 j = s j :=
              fun j hj => r1F j (hRnL j hj)
            have hNu : r1.1.1 node = v node ∧ r1.1.2 node = s node :=
              r1F node hnodeL
            have hallR1 : allLive r1.1.2 (node + (o + 2)) ((o + 2) / 2) :=
              (allLive_congr (fun j hj => (hRu j hj).2)).mpr hallR
            have hILR1 : interiorLive r1.1.2 (node + (o + 2))
                ((o + 2) / 2) := interiorLive_of_allLive _ _ hallR1
            have hkdR1 : kdInv K less r1.1.1 r1.1.2 (incd K nd)
                (node + (o + 2)) ((o + 2) / 2) :=
              kdInv_congr ((o + 2) / 2) (incd K nd) (node + (o + 2))
                (fun j hj => ((hRu j hj).1).symm)
                (fun j hj => ((hRu j hj).2).symm) hkdD.2.2.2
            have hrnl1 : r1.1.2 (node + (o + 2)) ≠ St.Invalid := by
              rw [(hRu _ (mem_subtree_self ..)).2]
              exact hallR _ (mem_subtree_self ..)
            set tmp := minFrom K less r1.1.1 r1.1.2 nd (incd K nd)
              ((o + 2) / 2) (node + (o + 2)) (node + (o + 2)) with htmpe
            have hmin : r1.1.2 tmp ≠ St.Invalid ∧
                less nd (r1.1.1 (node + (o + 2))) (r1.1.1 tmp) = false ∧
                ∀ x ∈ subtree (node + (o + 2)) ((o + 2) / 2),
                  r1.1.2 x ≠ St.Invalid →
                  less nd (r1.1.1 x) (r1.1.1 tmp) = false := by
              rw [htmpe]
              exact minFrom_sound hswo ((o + 2) / 2) (incd K nd)
                (node + (o + 2)) (node + (o + 2)) hILR1 hkdR1 hrnl1
                (hswo.irr nd (r1.1.1 (node + (o + 2))))
            have htmpm : tmp ∈ subtree (node + (o + 2)) ((o + 2) / 2) := by
              rw [htmpe]
              rcases @minFrom_mem V K less r1.1.1 r1.1.2 nd ((o + 2) / 2)
                (incd K nd) (node + (o + 2)) (node + (o + 2)) with h | h
              · rw [h]
                exact mem_subtree_self ..
              · exact h
            have htmpv : r1.1.1 tmp = v tmp := (hRu tmp htmpm).1
            have htmps : s tmp ≠ St.Invalid := hallR tmp htmpm
            have hmincov : ∀ x ∈ subtree (node + (o + 2)) ((o + 2) / 2),
                s x ≠ St.Invalid → less nd (v x) (v tmp) = false := by
              intro x hx hlx
              have hq := hmin.2.2 x hx (by rw [(hRu x hx).2]; exact hlx)
              rw [htmpv, (hRu x hx).1] at hq
              exact hq
            have hcref1 : Pend.cref r1.1.1 pend = Pend.cref v pend :=
              hagree _ (fun j hj => (r1F j (hnotLtot j hj)).1)
            by_cases hc3 : less nd (r1.1.1 tmp) (Pend.cref r1.1.1 pend) =
                true
            · rw [if_pos hc3]
              have hc3x : less nd (v tmp) (Pend.cref v pend) = true := by
                rw [← hcref1, ← htmpv]
                exact hc3
              set p := eraseWhenFull K less (incd K nd) ((o + 2) / 2)
                (node + (o + 2)) tmp (updf r1.1.1 node (r1.1.1 tmp)) r1.1.2
                with hpe
              have hkdv2 : kdInv K less (updf r1.1.1 node (r1.1.1 tmp))
                  r1.1.2 (incd K nd) (node + (o + 2)) ((o + 2) / 2) :=
                kdInv_congr ((o + 2) / 2) (incd K nd) (node + (o + 2))
                  (fun j hj => (updf_ne _ _
                    (by have := hRgt j hj; omega)).symm)
                  (fun j hj => rfl) hkdR1
              have haccR1 : stAcc fullSt r1.1.2 (node + (o + 2))
                  ((o + 2) / 2) :=
                stAcc_congr ((o + 2) / 2) (node + (o + 2))
                  (fun j hj => ((hRu j hj).2).symm) haccD.2.2
              have hew : erasedOK K less fullSt (incd K nd) (node + (o + 2))
                  ((o + 2) / 2) tmp (updf r1.1.1 node (r1.1.1 tmp)) r1.1.2
                  p.1 p.2 := by
                rw [hpe]
                exact eraseWhenFull_spec hswo hfull ((o + 2) / 2)
                  (node + (o + 2)) tmp (incd K nd)
                  (updf r1.1.1 node (r1.1.1 tmp)) r1.1.2 (wf_right h1)
                  hallR1 htmpm hkdv2 haccR1
              obtain ⟨ewF, ewI, ewK, ewC, ewA, ewP, ewS⟩ := hew
              have hroomR2 : ¬ allLive p.2 (node + (o + 2))
                  ((o + 2) / 2) := by
                intro hcon
                have hx := allLive_iff_cnt.mp hcon
                have hy := allLive_iff_cnt.mp hallR1
                omega
              set r2 := singleInsert K less fullSt (incd K nd)
                ((o + 2) / 2) (node + (o + 2)) pend p.1 p.2 with hr2e
              have hr2 : insertedOK K less fullSt (incd K nd)
                  (node + (o + 2)) ((o + 2) / 2) pend p.1 p.2
                  r2.1.1 r2.1.2 r2.2 := by
                rw [hr2e]
                exact ih ((o + 2) / 2) (by omega) (node + (o + 2))
                  (incd K nd) pend p.1 p.2 hco1 (wf_right h1) ewI hroomR2
                  hpendR ewK ewA
              obtain ⟨r2F, r2I, r2K, r2C, r2A, r2M, r2L, r2V, r2Q, r2S⟩ :=
                hr2
              show insertedOK K less fullSt nd node (o + 2) pend v s r2.1.1
                (updf r2.1.2 node
                  (stAdd (r2.1.2 (node - (o + 2)))
                    (r2.1.2 (node + (o + 2))))) r2.2
              have hv2cref : Pend.cref (updf r1.1.1 node (r1.1.1 tmp))
                  pend = Pend.cref v pend := by
                refine (cref_eq_of_agree hpend ?_).trans hcref1
                intro j hj
                exact updf_ne _ _
                  (by intro he; rw [he] at hj
                      exact hj (mem_subtree_self ..))
              have hpcref : Pend.cref p.1 pend = Pend.cref v pend := by
                refine (cref_eq_of_agree hpend ?_).trans hv2cref
                intro j hj
                exact (ewF j (hnotRtot j hj)).1
              have hLu2 : ∀ j ∈ subtree (node - (o + 2)) ((o + 2) / 2),
                  r2.1.1 j = r1.1.1 j ∧ r2.1.2 j = r1.1.2 j := by
                intro j hj
                have h3 := r2F j (hLnR j hj)
                have h2 := ewF j (hLnR j hj)
                have hne : j ≠ node := by have := hLlt j hj; omega
                exact ⟨h3.1.trans (h2.1.trans (updf_ne _ _ hne)),
                  h3.2.trans h2.2⟩
              have hNu2 : r2.1.1 node = v tmp ∧
                  r2.1.2 node = r1.1.2 node := by
                have h3 := r2F node hnodeR
                have h2 := ewF node hnodeR
                constructor
                · rw [h3.1, h2.1, updf_self, htmpv]
                · rw [h3.2, h2.2]
              set sF := updf r2.1.2 node
                (stAdd (r2.1.2 (node - (o + 2)))
                  (r2.1.2 (node + (o + 2)))) with hsFe
              have hsFR : ∀ j ∈ subtree (node + (o + 2)) ((o + 2) / 2),
                  sF j = r2.1.2 j := by
                intro j hj
                rw [hsFe]
                exact updf_ne _ _ (by have := hRgt j hj; omega)
              have hsFL : ∀ j ∈ subtree (node - (o + 2)) ((o + 2) / 2),
                  sF j = r1.1.2 j := by
                intro j hj
                rw [hsFe, updf_ne _ _ (by have := hLlt j hj; omega)]
                exact (hLu2 j hj).2
              have hsFn : sF node =
                  stAdd (r2.1.2 (node - (o + 2)))
                    (r2.1.2 (node + (o + 2))) := by
                rw [hsFe]
                exact updf_self ..
              have hrnl2 : r2.1.2 (node + (o + 2)) ≠ St.Invalid :=
                interiorLive_root hco1 r2I
              have hlnl2 : r2.1.2 (node - (o + 2)) ≠ St.Invalid := by
                rw [(hLu2 _ (mem_subtree_self ..)).2]
                exact interiorLive_root hco1 r1I
              have hsFnl : sF node ≠ St.Invalid := by
                rw [hsFn]
                exact stAdd_ne_invalid hlnl2 hrnl2
              unfold insertedOK
              refine ⟨?_, ?_, ?_, ?_, ?_, ?_, ?_, ?_, ?_, ?_⟩
              · intro j hj
                rw [mem_subtree2] at hj
                push_neg at hj
                obtain ⟨hjn, hjl, hjr⟩ := hj
                have h3 := r2F j hjr
                have h2 := ewF j hjr
                have h1r := r1F j hjl
                constructor
                · rw [h3.1, h2.1, updf_ne _ _ hjn, h1r.1]
                · rw [hsFe, updf_ne _ _ hjn, h3.2, h2.2, h1r.2]
              · rw [interiorLive2]
                refine ⟨hsFnl, ?_, ?_⟩
                · exact interiorLive_congr ((o + 2) / 2) (node - (o + 2))
                    (fun j hj => (hsFL j hj).symm) r1I
                · exact interiorLive_congr ((o + 2) / 2) (node + (o + 2))
                    (fun j hj => (hsFR j hj).symm) r2I
              · rw [kdInv2]
                refine ⟨?_, ?_, ?_, ?_⟩
                · intro j hj hlj
                  rw [hsFL j hj] at hlj
                  rw [hNu2.1, (hLu2 j hj).1]
                  rcases r1S j hj hlj with hcv | ⟨i, hi, hiliv, hival⟩
                  · rw [hcv, hbuf]
                    exact hkdD.2.1 tmp htmpm htmps
                  · rw [hival]
                    exact hswo.ntr nd (v tmp) (v node) (v i)
                      (hkdD.2.1 tmp htmpm htmps) (hkdD.1 i hi hiliv)
                · intro j hj hlj
                  rw [hsFR j hj] at hlj
                  rw [hNu2.1]
                  rcases r2S j hj hlj with hcv | ⟨i, hi, hiliv, hival⟩
                  · rw [hcv, hpcref]
                    exact hswo.asym hc3x
                  · obtain ⟨i2, hi2, hiliv2, hival2⟩ := ewS i hi hiliv
                    have hne2 : i2 ≠ node := by
                      have := hRgt i2 hi2
                      omega
                    rw [updf_ne _ _ hne2, (hRu i2 hi2).1] at hival2
                    rw [hival, hival2]
                    exact hmincov i2 hi2
                      (by rw [← (hRu i2 hi2).2]; exact hiliv2)
                · exact kdInv_congr ((o + 2) / 2) (incd K nd)
                    (node - (o + 2)) (fun j hj => ((hLu2 j hj).1).symm)
                    (fun j hj => (hsFL j hj).symm) r1K
                · exact kdInv_congr ((o + 2) / 2) (incd K nd)
                    (node + (o + 2)) (fun j hj => rfl)
                    (fun j hj => (hsFR j hj).symm) r2K
              · rw [cnt_succ2, cnt_succ2, if_neg hnode, if_neg hsFnl,
                  cnt_congr hsFL, cnt_congr hsFR]
                have hcr : cnt r1.1.2 (node + (o + 2)) ((o + 2) / 2) =
                    cnt s (node + (o + 2)) ((o + 2) / 2) :=
                  cnt_congr (fun j hj => (hRu j hj).2)
                omega
              · rw [stAcc2]
                refine ⟨?_, stAcc_congr ((o + 2) / 2) (node - (o + 2))
                  (fun j hj => (hsFL j hj).symm) r1A,
                  stAcc_congr ((o + 2) / 2) (node + (o + 2))
                    (fun j hj => (hsFR j hj).symm) r2A⟩
                rw [hsFn, stAdd_eq_iff hfU, allLive2]
                constructor
                · intro hx
                  refine ⟨hsFnl, ?_, ?_⟩
                  · refine (allLive_congr hsFL).mpr
                      ((stAcc_head r1A).mp ?_)
                    rw [← (hLu2 _ (mem_subtree_self ..)).2]
                    exact hx.1
                  · exact (allLive_congr hsFR).mpr
                      ((stAcc_head r2A).mp hx.2)
                · intro hx
                  refine ⟨?_, (stAcc_head r2A).mpr
                    ((allLive_congr hsFR).mp hx.2.2)⟩
                  rw [(hLu2 _ (mem_subtree_self ..)).2]
                  exact (stAcc_head r1A).mpr
                    ((allLive_congr hsFL).mp hx.2.1)
              · exact mem_subtree_right h1 r2M
              · rw [hsFe, updf_ne _ _ (by have := hRgt r2.2 r2M; omega)]
                exact r2L
              · rw [r2V]
                exact hpcref
              · intro j hj hlj
                rcases mem_subtree2.mp hj with h | hjl | hjr
                · refine ⟨r1.2, mem_subtree2.mpr (Or.inr (Or.inl r1M)),
                    ?_, ?_⟩
                  · rw [hsFL r1.2 r1M]
                    exact r1L
                  · rw [(hLu2 r1.2 r1M).1, r1V, hbuf, h]
                · obtain ⟨i, hi, hiliv, hival⟩ := r1Q j hjl hlj
                  refine ⟨i, mem_subtree2.mpr (Or.inr (Or.inl hi)),
                    ?_, ?_⟩
                  · rw [hsFL i hi]
                    exact hiliv
                  · rw [(hLu2 i hi).1, hival]
                · have hs1j : r1.1.2 j ≠ St.Invalid := by
                    rw [(hRu j hjr).2]
                    exact hlj
                  have hval2 : updf r1.1.1 node (r1.1.1 tmp) j = v j := by
                    rw [updf_ne _ _ (by have := hRgt j hjr; omega),
                      (hRu j hjr).1]
                  rcases ewP j hjr hs1j with ⟨i, hi, hiliv, hival⟩ | heq
                  · obtain ⟨i2, hi2, hiliv2, hival2⟩ := r2Q i hi hiliv
                    refine ⟨i2, mem_subtree2.mpr (Or.inr (Or.inr hi2)),
                      ?_, ?_⟩
                    · rw [hsFR i2 hi2]
                      exact hiliv2
                    · rw [hival2, hival, hval2]
                  · have hval3 : updf r1.1.1 node (r1.1.1 tmp) tmp =
                        v tmp := by
                      rw [updf_ne _ _ (by have := hRgt tmp htmpm; omega),
                        htmpv]
                    refine ⟨node, mem_subtree2.mpr (Or.inl rfl),
                      hsFnl, ?_⟩
                    rw [hNu2.1, ← hval2, heq, hval3]
              · intro j hj hlj
                rcases mem_subtree2.mp hj with h | hjl | hjr
                · refine Or.inr ⟨tmp,
                    mem_subtree2.mpr (Or.inr (Or.inr htmpm)), htmps, ?_⟩
                  rw [h, hNu2.1]
                · rw [hsFL j hjl] at hlj
                  rcases r1S j hjl hlj with hcv | ⟨i, hi, hiliv, hival⟩
                  · refine Or.inr ⟨node, mem_subtree2.mpr (Or.inl rfl),
                      hnode, ?_⟩
                    rw [(hLu2 j hjl).1, hcv, hbuf]
                  · refine Or.inr ⟨i,
                      mem_subtree2.mpr (Or.inr (Or.inl hi)), hiliv, ?_⟩
                    rw [(hLu2 j hjl).1, hival]
                · rw [hsFR j hjr] at hlj
                  rcases r2S j hjr hlj with hcv | ⟨i, hi, hiliv, hival⟩
                  · left
                    rw [hcv, hpcref]
                  · obtain ⟨i2, hi2, hiliv2, hival2⟩ := ewS i hi hiliv
                    refine Or.inr ⟨i2,
                      mem_subtree2.mpr (Or.inr (Or.inr hi2)), ?_, ?_⟩
                    · rw [← (hRu i2 hi2).2]
                      exact hiliv2
                    · rw [hival, hival2, updf_ne _ _
                        (by have := hRgt i2 hi2; omega), (hRu i2 hi2).1]
            · rw [if_neg hc3]
              have hc3f : less nd (v tmp) (Pend.cref v pend) = false := by
                rw [← hcref1, ← htmpv]
                revert hc3
                cases less nd (r1.1.1 tmp) (Pend.cref r1.1.1 pend) <;> simp
              show insertedOK K less fullSt nd node (o + 2) pend v s
                (updf r1.1.1 node (Pend.cref r1.1.1 pend))
                (updf r1.1.2 node
                  (stAdd (r1.1.2 (node - (o + 2)))
                    (r1.1.2 (node + (o + 2))))) node
              set vP := updf r1.1.1 node (Pend.cref r1.1.1 pend) with hvPe
              set sP := updf r1.1.2 node
                (stAdd (r1.1.2 (node - (o + 2)))
                  (r1.1.2 (node + (o + 2)))) with hsPe
              have hvPR : ∀ j ∈ subtree (node + (o + 2)) ((o + 2) / 2),
                  vP j = v j := by
                intro j hj
                rw [hvPe, updf_ne _ _ (by have := hRgt j hj; omega),
                  (hRu j hj).1]
              have hvPL : ∀ j ∈ subtree (node - (o + 2)) ((o + 2) / 2),
                  vP j = r1.1.1 j := by
                intro j hj
                rw [hvPe, updf_ne _ _ (by have := hLlt j hj; omega)]
              have hvPn : vP node = Pend.cref v pend := by
                rw [hvPe, updf_self, hcref1]
              have hsPR : ∀ j ∈ subtree (node + (o + 2)) ((o + 2) / 2),
                  sP j = s j := by
                intro j hj
                rw [hsPe, updf_ne _ _ (by have := hRgt j hj; omega),
                  (hRu j hj).2]
              have hsPL : ∀ j ∈ subtree (node - (o + 2)) ((o + 2) / 2),
                  sP j = r1.1.2 j := by
                intro j hj
                rw [hsPe, updf_ne _ _ (by have := hLlt j hj; omega)]
              have hsPn : sP node =
                  stAdd (r1.1.2 (node - (o + 2)))
                    (r1.1.2 (node + (o + 2))) := by
                rw [hsPe]
                exact updf_self ..
              have hlnlP : r1.1.2 (node - (o + 2)) ≠ St.Invalid :=
                interiorLive_root hco1 r1I
              have hrnlP : r1.1.2 (node + (o + 2)) ≠ St.Invalid := by
                rw [(hRu _ (mem_subtree_self ..)).2]
                exact hallR _ (mem_subtree_self ..)
              have hsPnl : sP node ≠ St.Invalid := by
                rw [hsPn]
                exact stAdd_ne_invalid hlnlP hrnlP
              unfold insertedOK
              refine ⟨?_, ?_, ?_, ?_, ?_, ?_, ?_, hvPn, ?_, ?_⟩
              · intro j hj
                rw [mem_subtree2] at hj
                push_neg at hj
                obtain ⟨hjn, hjl, hjr⟩ := hj
                have h1r := r1F j hjl
                constructor
                · rw [hvPe, updf_ne _ _ hjn, h1r.1]
                · rw [hsPe, updf_ne _ _ hjn, h1r.2]
              · rw [interiorLive2]
                refine ⟨hsPnl, ?_, ?_⟩
                · exact interiorLive_congr ((o + 2) / 2) (node - (o + 2))
                    (fun j hj => (hsPL j hj).symm) r1I
                · exact interiorLive_congr ((o + 2) / 2) (node + (o + 2))
                    (fun j hj => (hsPR j hj).symm)
                    (interiorLive_of_allLive _ _ hallR)
              · rw [kdInv2]
                refine ⟨?_, ?_, ?_, ?_⟩
                · intro j hj hlj
                  rw [hsPL j hj] at hlj
                  rw [hvPn, hvPL j hj]
                  rcases r1S j hj hlj with hcv | ⟨i, hi, hiliv, hival⟩
                  · rw [hcv, hbuf]
                    exact hswo.asym hc2
                  · rw [hival]
                    exact hswo.ntr nd (Pend.cref v pend) (v node) (v i)
                      (hswo.asym hc2) (hkdD.1 i hi hiliv)
                · intro j hj hlj
                  rw [hsPR j hj] at hlj
                  rw [hvPn, hvPR j hj]
                  exact hswo.ntr nd (v j) (v tmp) (Pend.cref v pend)
                    (hmincov j hj hlj) hc3f
                · exact kdInv_congr ((o + 2) / 2) (incd K nd)
                    (node - (o + 2)) (fun j hj => (hvPL j hj).symm)
                    (fun j hj => (hsPL j hj).symm) r1K
                · exact kdInv_congr ((o + 2) / 2) (incd K nd)
                    (node + (o + 2)) (fun j hj => (hvPR j hj).symm)
                    (fun j hj => (hsPR j hj).symm) hkdD.2.2.2
              · rw [cnt_succ2, cnt_succ2, if_neg hnode, if_neg hsPnl,
                  cnt_congr hsPL, cnt_congr hsPR]
                omega
              · rw [stAcc2]
                refine ⟨?_, stAcc_congr ((o + 2) / 2) (node - (o + 2))
                  (fun j hj => (hsPL j hj).symm) r1A,
                  stAcc_congr ((o + 2) / 2) (node + (o + 2))
                    (fun j hj => (hsPR j hj).symm) haccD.2.2⟩
                rw [hsPn, stAdd_eq_iff hfU, allLive2]
                constructor
                · intro hx
                  refine ⟨hsPnl, ?_, ?_⟩
                  · exact (allLive_congr hsPL).mpr
                      ((stAcc_head r1A).mp hx.1)
                  · refine (allLive_congr hsPR).mpr
                      ((stAcc_head haccD.2.2).mp ?_)
                    rw [← (hRu _ (mem_subtree_self ..)).2]
                    exact hx.2
                · intro hx
                  refine ⟨(stAcc_head r1A).mpr
                    ((allLive_congr hsPL).mp hx.2.1), ?_⟩
                  rw [(hRu _ (mem_subtree_self ..)).2]
                  exact (stAcc_head haccD.2.2).mpr
                    ((allLive_congr hsPR).mp hx.2.2)
              · exact mem_subtree2.mpr (Or.inl rfl)
              · exact hsPnl
              · intro j hj hlj
                rcases mem_subtree2.mp hj with h | hjl | hjr
                · refine ⟨r1.2, mem_subtree2.mpr (Or.inr (Or.inl r1M)),
                    ?_, ?_⟩
                  · rw [hsPL r1.2 r1M]
                    exact r1L
                  · rw [hvPL r1.2 r1M, r1V, hbuf, h]
                · obtain ⟨i, hi, hiliv, hival⟩ := r1Q j hjl hlj
                  refine ⟨i, mem_subtree2.mpr (Or.inr (Or.inl hi)), ?_, ?_⟩
                  · rw [hsPL i hi]
                    exact hiliv
                  · rw [hvPL i hi, hival]
                · exact ⟨j, mem_subtree2.mpr (Or.inr (Or.inr hjr)),
                    by rw [hsPR j hjr]; exact hlj, hvPR j hjr⟩
              · intro j hj hlj
                rcases mem_subtree2.mp hj with h | hjl | hjr
                · left
                  rw [h, hvPn]
                · rw [hsPL j hjl] at hlj
                  rcases r1S j hjl hlj with hcv | ⟨i, hi, hiliv, hival⟩
                  · refine Or.inr ⟨node, mem_subtree2.mpr (Or.inl rfl),
                      hnode, ?_⟩
                    rw [hvPL j hjl, hcv, hbuf]
                  · refine Or.inr ⟨i,
                      mem_subtree2.mpr (Or.inr (Or.inl hi)), hiliv, ?_⟩
                    rw [hvPL j hjl, hival]
                · exact Or.inr ⟨j, mem_subtree2.mpr (Or.inr (Or.inr hjr)),
                    by rw [← hsPR j hjr]; exact hlj, hvPR j hjr⟩
          · rw [if_neg hrf]
            set r1 := singleInsert K less fullSt (incd K nd) ((o + 2) / 2)
              (node + (o + 2)) pend v s with hr1e
            show insertedOK K less fullSt nd node (o + 2) pend v s r1.1.1
              (updf r1.1.2 node
                (stAdd (r1.1.2 (node - (o + 2)))
                  (r1.1.2 (node + (o + 2))))) r1.2
            have hroomR : ¬ allLive s (node + (o + 2)) ((o + 2) / 2) :=
              fun hcon => hrf ((stAcc_head haccD.2.2).mpr hcon)
            have hr1 : insertedOK K less fullSt (incd K nd)
                (node + (o + 2)) ((o + 2) / 2) pend v s
                r1.1.1 r1.1.2 r1.2 := by
              rw [hr1e]
              exact ih ((o + 2) / 2) (by omega) (node + (o + 2))
                (incd K nd) pend v s hco1 (wf_right h1) hilD.2.2 hroomR
                hpendR hkdD.2.2.2 haccD.2.2
            exact mergeRight_spec hfull o node nd pend v s r1.1.1 r1.1.2
              r1.2 hw hIL hkd hacc hc1f hr1
        · rw [if_neg hc2]
          have hc2f : less nd (v node) (Pend.cref v pend) = false := by
            revert hc2
            cases less nd (v node) (Pend.cref v pend) <;> simp
          by_cases hlf : s (node - (o + 2)) = fullSt
          · rw [if_pos hlf]
            set r1 := singleInsert K less fullSt (incd K nd) ((o + 2) / 2)
              (node + (o + 2)) pend v s with hr1e
            show insertedOK K less fullSt nd node (o + 2) pend v s r1.1.1
              (updf r1.1.2 node
                (stAdd (r1.1.2 (node - (o + 2)))
                  (r1.1.2 (node + (o + 2))))) r1.2
            have hallL : allLive s (node - (o + 2)) ((o + 2) / 2) :=
              (stAcc_head haccD.2.1).mp hlf
            have hroomR : ¬ allLive s (node + (o + 2)) ((o + 2) / 2) := by
              intro hcon
              exact hroom (allLive2.mpr ⟨hnode, hallL, hcon⟩)
            have hr1 : insertedOK K less fullSt (incd K nd)
                (node + (o + 2)) ((o + 2) / 2) pend v s
                r1.1.1 r1.1.2 r1.2 := by
              rw [hr1e]
              exact ih ((o + 2) / 2) (by omega) (node + (o + 2))
                (incd K nd) pend v s hco1 (wf_right h1) hilD.2.2 hroomR
                hpendR hkdD.2.2.2 haccD.2.2
            exact mergeRight_spec hfull o node nd pend v s r1.1.1 r1.1.2
              r1.2 hw hIL hkd hacc hc1f hr1
          · rw [if_neg hlf]
            set r1 := singleInsert K less fullSt (incd K nd) ((o + 2) / 2)
              (node - (o + 2)) pend v s with hr1e
            show insertedOK K less fullSt nd node (o + 2) pend v s r1.1.1
              (updf r1.1.2 node
                (stAdd (r1.1.2 (node - (o + 2)))
                  (r1.1.2 (node + (o + 2))))) r1.2
            have hroomL : ¬ allLive s (node - (o + 2)) ((o + 2) / 2) :=
              fun hcon => hlf ((stAcc_head haccD.2.1).mpr hcon)
            have hr1 : insertedOK K less fullSt (incd K nd)
                (node - (o + 2)) ((o + 2) / 2) pend v s
                r1.1.1 r1.1.2 r1.2 := by
              rw [hr1e]
              exact ih ((o + 2) / 2) (by omega) (node - (o + 2))
                (incd K nd) pend v s hco1 (wf_left hw h1) hilD.2.1 hroomL
                hpendL hkdD.2.2.1 haccD.2.1
            exact mergeLeft_spec hfull o node nd pend v s r1.1.1 r1.1.2
              r1.2 hw hIL hkd hacc hc2f hr1

end KdIndex
